import Mathlib

/-!
# A line editor with undo/redo over a red-black tree

Shallow embedding of `src/main.c`.

* The red-black tree of `node_t` records is an algebraic tree; the shared sentinel `t->nil`
  is the constructor `Tree.nil` (its colour reads `BLACK`, its `left`/`right` are `NULL`).
* A pointer to a node is a location `Loc`: the subtree hanging at the node together with the
  chain of its ancestors (what the `p` links give in C).  A `NULL` pointer is `none`.
* Every operation that dereferences `NULL` or reads an uninitialised field in C returns `none`.
* `while` loops whose trip count is not a syntactic bound run on a fuel argument and return
  `none` when the fuel is exhausted; callers pass a bound computed from the state.
* C `int` values are integers, and `wrap` gives the value an `int` expression takes when
  its mathematical value leaves the range from `INT_MIN` to `INT_MAX`.  The loops over line
  numbers (`CHANGE`, `DELETE`, the dot lines of `PRINT`, `in_order_iterative`) test their
  condition before every iteration and increment with `wrap`; a loop whose condition never
  fails has no result.
  The comparison of `tree_search` and the addition of `tree_key_fixup_from_do` are given
  twice: over the integers (`tree_search`, `tree_key_fixup_from_do`), and with the `int`
  arithmetic of the C expressions (`Machine.tree_search`, `Machine.tree_key_fixup_from_do`);
  the two agree as long as no intermediate value leaves the `int` range.  Counters
  (`command_id`, the stack sizes, `number_of_keys`) are integers.
-/

set_option autoImplicit false

namespace EdU

/-! ## Data model -/

/-- Node colours, the constants `RED` and `BLACK`. -/
inductive Color where
  | RED
  | BLACK
  deriving DecidableEq, Repr

/-- The tree of `node_t`; `nil` is the sentinel `t->nil`. -/
inductive Tree where
  | nil : Tree
  | node (left : Tree) (key : Int) (text_line : String) (col : Color) (right : Tree) : Tree
  deriving DecidableEq, Repr

/-- One ancestor of a location: the parent node with the child slot of the location left open.
`L` means the location is the parent's left child, `R` that it is the right child. -/
inductive Frame where
  | L (key : Int) (text_line : String) (col : Color) (right : Tree) : Frame
  | R (left : Tree) (key : Int) (text_line : String) (col : Color) : Frame
  deriving DecidableEq, Repr

/-- The ancestors of a location, nearest first (the chain of `p` links up to the root). -/
abbrev Path := List Frame

/-- A `node_t*` pointing into the tree: the subtree at the node and its ancestors. -/
structure Loc where
  here : Tree
  up : Path
  deriving DecidableEq, Repr

/-- The struct `tree_t` (the sentinel is implicit). -/
structure tree_t where
  root : Tree
  number_of_keys : Int
  deriving DecidableEq, Repr

/-- The values of the `command` field of a history record. -/
inductive RecordKind where
  | CHANGE
  | DELETE
  | FIX_VALUES
  deriving DecidableEq, Repr

/-- The struct `list_of_commands_t` without its `next` link. -/
structure list_of_commands_t where
  begin : Int
  end_ : Int
  command_id : Int
  command : RecordKind
  text_line : String
  deriving DecidableEq, Repr

/-- The struct `stack_t`: the linked list from `top`, and the counter `size`. -/
structure stack_t where
  top : List list_of_commands_t
  size : Int
  deriving DecidableEq, Repr

open Color RecordKind

/-! ## Tree primitives -/

/-- The largest value of an `int`. -/
def INT_MAX : Int := 2147483647

/-- The smallest value of an `int`. -/
def INT_MIN : Int := -2147483648

/-- The value of an `int` expression whose mathematical value is `x`: `x` reduced modulo
`2^32` into the range from `INT_MIN` to `INT_MAX`. -/
def wrap (x : Int) : Int := (x + 2147483648) % 4294967296 - 2147483648

/-- The C function `min`. -/
def min (a b : Int) : Int := if a < b then a else b

/-- Reads `x->col`; the sentinel is black. -/
def Tree.col : Tree → Color
  | Tree.nil => BLACK
  | Tree.node _ _ _ c _ => c

/-- Tests `x == t->nil`. -/
def Tree.isNil : Tree → Bool
  | Tree.nil => true
  | Tree.node _ _ _ _ _ => false

/-- The assignment `x->col = BLACK` (on the sentinel it changes nothing). -/
def Tree.setBlack : Tree → Tree
  | Tree.nil => Tree.nil
  | Tree.node l k s _ r => Tree.node l k s BLACK r

/-- Colour of the parent node described by a frame. -/
def Frame.col : Frame → Color
  | Frame.L _ _ c _ => c
  | Frame.R _ _ _ c => c

/-- The assignment `p->col = c` on the parent described by a frame. -/
def Frame.setCol (c : Color) : Frame → Frame
  | Frame.L k s _ r => Frame.L k s c r
  | Frame.R l k s _ => Frame.R l k s c

/-- The parent node with the open child slot filled by `x`. -/
def Frame.plug : Frame → Tree → Tree
  | Frame.L k s c r, x => Tree.node x k s c r
  | Frame.R l k s c, x => Tree.node l k s c x

/-- The whole tree seen from a location: follows the `p` links up to `t->root`. -/
def zip : Tree → Path → Tree
  | x, [] => x
  | x, f :: up => zip (f.plug x) up

/-- The function `make_tree_node`: a red node with sentinel children. -/
def make_tree_node (key : Int) (text_line : String) : Tree :=
  Tree.node Tree.nil key text_line RED Tree.nil

/-- The function `left_rotate`, on the subtree rooted at `x`; the link from `x->p` is the
enclosing path, which is untouched.  With `x->right == t->nil` the C code dereferences `NULL`. -/
def left_rotate : Tree → Option Tree
  | Tree.node a xk xs xc (Tree.node b yk ys yc c) =>
      some (Tree.node (Tree.node a xk xs xc b) yk ys yc c)
  | _ => none

/-- The function `right_rotate`, on the subtree rooted at `x`. -/
def right_rotate : Tree → Option Tree
  | Tree.node (Tree.node a yk ys yc b) xk xs xc c =>
      some (Tree.node a yk ys yc (Tree.node b xk xs xc c))
  | _ => none

/-- The loop of `tree_search`, started at `x` whose ancestors are `up`, with the difference
`key - x->key` taken in the integers.  `Machine.tree_search_loop` below takes it in `int`;
the two are the same search whenever the difference stays in the `int` range
(`machine_search_loop_eq`), as it does on every reachable state
(`Reachable_machine_search`). -/
def tree_search_loop (key : Int) : Tree → Path → Option Loc
  | Tree.nil, _ => none
  | Tree.node l k s c r, up =>
      if key - k = 0 then some ⟨Tree.node l k s c r, up⟩
      else if key - k < 0 then tree_search_loop key l (Frame.L k s c r :: up)
      else tree_search_loop key r (Frame.R l k s c :: up)

/-- The function `tree_search`: the node with the given key, `NULL` if the descent ends. -/
def tree_search (t : tree_t) (key : Int) : Option Loc :=
  tree_search_loop key t.root []

/-- The loop of `tree_search` with `cmp = key - x->key` computed in `int`, as the C
expression is: the difference wraps when it leaves the `int` range. -/
def Machine.tree_search_loop (key : Int) : Tree → Path → Option Loc
  | Tree.nil, _ => none
  | Tree.node l k s c r, up =>
      if wrap (key - k) = 0 then some ⟨Tree.node l k s c r, up⟩
      else if wrap (key - k) < 0 then
        Machine.tree_search_loop key l (Frame.L k s c r :: up)
      else Machine.tree_search_loop key r (Frame.R l k s c :: up)

/-- The function `tree_search` with the comparison computed in `int`. -/
def Machine.tree_search (t : tree_t) (key : Int) : Option Loc :=
  Machine.tree_search_loop key t.root []

/-- The function `tree_maximum`; on the sentinel the loop test reads `NULL->right`. -/
def tree_maximum : Tree → Path → Option Loc
  | Tree.nil, _ => none
  | Tree.node l k s c Tree.nil, up => some ⟨Tree.node l k s c Tree.nil, up⟩
  | Tree.node l k s c (Tree.node rl rk rs rc rr), up =>
      tree_maximum (Tree.node rl rk rs rc rr) (Frame.R l k s c :: up)

/-- The function `tree_minimum`. -/
def tree_minimum : Tree → Path → Option Loc
  | Tree.nil, _ => none
  | Tree.node Tree.nil k s c r, up => some ⟨Tree.node Tree.nil k s c r, up⟩
  | Tree.node (Tree.node ll lk ls lc lr) k s c r, up =>
      tree_minimum (Tree.node ll lk ls lc lr) (Frame.L k s c r :: up)

/-- The climbing loop of `tree_predecessor`: `while (y != nil && x == y->left)`.
The result `⟨nil, []⟩` is the sentinel. -/
def predecessor_climb : Tree → Path → Loc
  | _, [] => ⟨Tree.nil, []⟩
  | x, Frame.L k s c r :: up => predecessor_climb (Tree.node x k s c r) up
  | x, Frame.R l k s c :: up => ⟨Tree.node l k s c x, up⟩

/-- The climbing loop of `tree_successor`: `while (y != nil && x == y->right)`. -/
def successor_climb : Tree → Path → Loc
  | _, [] => ⟨Tree.nil, []⟩
  | x, Frame.R l k s c :: up => successor_climb (Tree.node l k s c x) up
  | x, Frame.L k s c r :: up => ⟨Tree.node x k s c r, up⟩

/-- The function `tree_predecessor`. -/
def tree_predecessor (x : Loc) : Option Loc :=
  match x.here with
  | Tree.nil => none
  | Tree.node l k s c r =>
      if !l.isNil then tree_maximum l (Frame.L k s c r :: x.up)
      else some (predecessor_climb (Tree.node l k s c r) x.up)

/-- The function `tree_successor`. -/
def tree_successor (x : Loc) : Option Loc :=
  match x.here with
  | Tree.nil => none
  | Tree.node l k s c r =>
      if !r.isNil then tree_minimum r (Frame.R l k s c :: x.up)
      else some (successor_climb (Tree.node l k s c r) x.up)

/-- The descent of `tree_insert`: from `cur` down to the sentinel slot where the new node is
linked; the returned path is the chain of ancestors of that slot (`pre` first). -/
def insert_descend (key : Int) : Tree → Path → Path
  | Tree.nil, up => up
  | Tree.node l k s c r, up =>
      if key < k then insert_descend key l (Frame.L k s c r :: up)
      else insert_descend key r (Frame.R l k s c :: up)

/-- Case 2 of `tree_insert_fixup` when `z->p` is a left child: if `z == z->p->right` then
`z = z->p; left_rotate(t, z)`.  Returns the node `z` and the frame of its parent. -/
def insert_case2_left (z : Tree) : Frame → Option (Tree × Frame)
  | Frame.R pl pk ps pc =>
    match left_rotate (Tree.node pl pk ps pc z) with
    | some (Tree.node newz k s c r) => some (newz, Frame.L k s c r)
    | _ => none
  | Frame.L pk ps pc pr => some (z, Frame.L pk ps pc pr)

/-- Case 2 of `tree_insert_fixup` when `z->p` is a right child. -/
def insert_case2_right (z : Tree) : Frame → Option (Tree × Frame)
  | Frame.L pk ps pc pr =>
    match right_rotate (Tree.node z pk ps pc pr) with
    | some (Tree.node l k s c newz) => some (newz, Frame.R l k s c)
    | _ => none
  | Frame.R pl pk ps pc => some (z, Frame.R pl pk ps pc)

/-- Case 3 of `tree_insert_fixup` when `z->p` is a left child:
`z->p->col = BLACK; z->p->p->col = RED; right_rotate(t, z->p->p)`.  Returns `z` and its
ancestors after the rotation. -/
def insert_case3_left (z : Tree) (p : Frame) (gk : Int) (gs : String) (y : Tree) (rest : Path) :
    Option (Tree × Path) :=
  match right_rotate (Tree.node ((p.setCol BLACK).plug z) gk gs RED y) with
  | some (Tree.node l k s c r) => some (l, Frame.L k s c r :: rest)
  | _ => none

/-- Case 3 of `tree_insert_fixup` when `z->p` is a right child. -/
def insert_case3_right (z : Tree) (p : Frame) (gk : Int) (gs : String) (y : Tree) (rest : Path) :
    Option (Tree × Path) :=
  match left_rotate (Tree.node y gk gs RED ((p.setCol BLACK).plug z)) with
  | some (Tree.node l k s c r) => some (r, Frame.R l k s c :: rest)
  | _ => none

/-- The function `tree_insert_fixup` at the node `z` with ancestors `up`; the result is the
new `t->root`.  The loop test `z->p->col == RED` reads the first frame; with a red `z->p`
that has no parent, `z->p->p` is the sentinel and `z->p->p->left` is `NULL`. -/
def tree_insert_fixup : Nat → Tree → Path → Option Tree
  | 0, _, _ => none
  | _ + 1, z, [] => some z.setBlack
  | _ + 1, z, [p] => if p.col = RED then none else some (zip z [p]).setBlack
  | fuel + 1, z, p :: Frame.L gk gs gc y :: rest =>
    if p.col = RED then
      if y.col = RED then
        tree_insert_fixup fuel (Tree.node ((p.setCol BLACK).plug z) gk gs RED y.setBlack) rest
      else
        match insert_case2_left z p with
        | some (z2, p2) =>
          match insert_case3_left z2 p2 gk gs y rest with
          | some (z3, up3) => tree_insert_fixup fuel z3 up3
          | none => none
        | none => none
    else some (zip z (p :: Frame.L gk gs gc y :: rest)).setBlack
  | fuel + 1, z, p :: Frame.R y gk gs gc :: rest =>
    if p.col = RED then
      if y.col = RED then
        tree_insert_fixup fuel (Tree.node y.setBlack gk gs RED ((p.setCol BLACK).plug z)) rest
      else
        match insert_case2_right z p with
        | some (z2, p2) =>
          match insert_case3_right z2 p2 gk gs y rest with
          | some (z3, up3) => tree_insert_fixup fuel z3 up3
          | none => none
        | none => none
    else some (zip z (p :: Frame.R y gk gs gc :: rest)).setBlack

/-- Case 1 of `tree_delete_fixup` when `x == x->p->left`: if the sibling `w` is red,
`w->col = BLACK; x->p->col = RED; left_rotate(t, x->p); w = x->p->right`.  Returns the colour
of `x->p`, the sibling `w`, and the ancestors of `x->p`. -/
def delete_case1_left (x : Tree) (pk : Int) (ps : String) (pc : Color) (w : Tree) (rest : Path) :
    Option (Color × Tree × Path) :=
  if w.col = RED then
    match left_rotate (Tree.node x pk ps RED w.setBlack) with
    | some (Tree.node (Tree.node _ _ _ pc1 w1) k s c r) => some (pc1, w1, Frame.L k s c r :: rest)
    | _ => none
  else some (pc, w, rest)

/-- Case 1 of `tree_delete_fixup` when `x == x->p->right`. -/
def delete_case1_right (x : Tree) (pk : Int) (ps : String) (pc : Color) (w : Tree) (rest : Path) :
    Option (Color × Tree × Path) :=
  if w.col = RED then
    match right_rotate (Tree.node w.setBlack pk ps RED x) with
    | some (Tree.node l k s c (Tree.node w1 _ _ pc1 _)) => some (pc1, w1, Frame.R l k s c :: rest)
    | _ => none
  else some (pc, w, rest)

/-- Case 3 of `tree_delete_fixup` when `x == x->p->left`: if `w->right` is black,
`w->left->col = BLACK; w->col = RED; right_rotate(t, w); w = x->p->right`.  Returns `w`. -/
def delete_case3_left (wl : Tree) (wk : Int) (ws : String) (wc : Color) (wr : Tree) :
    Option Tree :=
  if wr.col = BLACK then right_rotate (Tree.node wl.setBlack wk ws RED wr)
  else some (Tree.node wl wk ws wc wr)

/-- Case 3 of `tree_delete_fixup` when `x == x->p->right`. -/
def delete_case3_right (wl : Tree) (wk : Int) (ws : String) (wc : Color) (wr : Tree) :
    Option Tree :=
  if wl.col = BLACK then left_rotate (Tree.node wl wk ws RED wr.setBlack)
  else some (Tree.node wl wk ws wc wr)

/-- Case 4 of `tree_delete_fixup` when `x == x->p->left`:
`w->col = x->p->col; x->p->col = BLACK; w->right->col = BLACK; left_rotate(t, x->p)`.
Returns the subtree that replaces the one rooted at `x->p`. -/
def delete_case4_left (x : Tree) (pk : Int) (ps : String) (pc : Color) : Tree → Option Tree
  | Tree.node vl vk vs _ vr =>
      left_rotate (Tree.node x pk ps BLACK (Tree.node vl vk vs pc vr.setBlack))
  | Tree.nil => none

/-- Case 4 of `tree_delete_fixup` when `x == x->p->right`. -/
def delete_case4_right (x : Tree) (pk : Int) (ps : String) (pc : Color) : Tree → Option Tree
  | Tree.node vl vk vs _ vr =>
      right_rotate (Tree.node (Tree.node vl.setBlack vk vs pc vr) pk ps BLACK x)
  | Tree.nil => none

/-- The function `tree_delete_fixup` at the node `x` (possibly the sentinel, whose `p` was set
by the caller) with ancestors `up`; the result is the new `t->root`.  A sentinel sibling `w`
makes the test `w->left->col` read through `NULL`.  After case 4, `x = t->root`. -/
def tree_delete_fixup : Nat → Tree → Path → Option Tree
  | 0, _, _ => none
  | _ + 1, x, [] => some x.setBlack
  | fuel + 1, x, Frame.L pk ps pc w :: rest =>
    if x.col = BLACK then
      match delete_case1_left x pk ps pc w rest with
      | some (pc2, Tree.node wl wk ws wc wr, rest2) =>
        if wl.col = BLACK ∧ wr.col = BLACK then
          tree_delete_fixup fuel (Tree.node x pk ps pc2 (Tree.node wl wk ws RED wr)) rest2
        else
          match delete_case3_left wl wk ws wc wr with
          | some w3 =>
            match delete_case4_left x pk ps pc2 w3 with
            | some sub => tree_delete_fixup fuel (zip sub rest2) []
            | none => none
          | none => none
      | _ => none
    else some (zip x.setBlack (Frame.L pk ps pc w :: rest))
  | fuel + 1, x, Frame.R w pk ps pc :: rest =>
    if x.col = BLACK then
      match delete_case1_right x pk ps pc w rest with
      | some (pc2, Tree.node wl wk ws wc wr, rest2) =>
        if wr.col = BLACK ∧ wl.col = BLACK then
          tree_delete_fixup fuel (Tree.node (Tree.node wl wk ws RED wr) pk ps pc2 x) rest2
        else
          match delete_case3_right wl wk ws wc wr with
          | some w3 =>
            match delete_case4_right x pk ps pc2 w3 with
            | some sub => tree_delete_fixup fuel (zip sub rest2) []
            | none => none
          | none => none
      | _ => none
    else some (zip x.setBlack (Frame.R w pk ps pc :: rest))

/-- The function `tree_key_fixup`: the in-order walk that lowers every key `>= end` by
`end - start + 1`. -/
def tree_key_fixup (start end_ : Int) : Tree → Tree
  | Tree.nil => Tree.nil
  | Tree.node l k s c r =>
      Tree.node (tree_key_fixup start end_ l)
        (if k ≥ end_ then k - (end_ - start + 1) else k) s c
        (tree_key_fixup start end_ r)

/-- The function `tree_key_fixup_from_do`: the in-order walk that raises every key `>= start`
by `end - start + 1`, with the sum taken in the integers.  `Machine.tree_key_fixup_from_do`
below takes it in `int`; the two are the same walk whenever no raised key passes `INT_MAX`
(`machine_key_fixup_from_do_eq`). -/
def tree_key_fixup_from_do (start end_ : Int) : Tree → Tree
  | Tree.nil => Tree.nil
  | Tree.node l k s c r =>
      Tree.node (tree_key_fixup_from_do start end_ l)
        (if k ≥ start then k + (end_ - start + 1) else k) s c
        (tree_key_fixup_from_do start end_ r)

/-- The function `tree_key_fixup_from_do` with `x->key + (end-start+1)` computed in `int`:
each of the three operations wraps when its value leaves the `int` range. -/
def Machine.tree_key_fixup_from_do (start end_ : Int) : Tree → Tree
  | Tree.nil => Tree.nil
  | Tree.node l k s c r =>
      Tree.node (Machine.tree_key_fixup_from_do start end_ l)
        (if k ≥ start then wrap (k + wrap (wrap (end_ - start) + 1)) else k) s c
        (Machine.tree_key_fixup_from_do start end_ r)

/-- The function `tree_create`. -/
def tree_create : tree_t := ⟨Tree.nil, 0⟩

/-- The part shared by `tree_insert` and `tree_insert_from_do` when the key is absent: make
the node, descend from the root, link it, run the fix-up, count the key. -/
def insert_new (t : tree_t) (key : Int) (text_line : String) : Option tree_t :=
  let pre := insert_descend key t.root []
  match tree_insert_fixup (pre.length + 1) (make_tree_node key text_line) pre with
  | some root => some ⟨root, t.number_of_keys + 1⟩
  | none => none

/-- The assignments `y->key = key; y->text_line = text_line` on a found node. -/
def overwrite (t : tree_t) (y : Loc) (key : Int) (text_line : String) : Option tree_t :=
  match y.here with
  | Tree.nil => none
  | Tree.node l _ _ c r => some ⟨zip (Tree.node l key text_line c r) y.up, t.number_of_keys⟩

/-- The function `tree_insert_from_do`. -/
def tree_insert_from_do (t : tree_t) (key : Int) (text_line : String) : Option tree_t :=
  if key = -1 then some t
  else
    match tree_search t key with
    | some y => overwrite t y key text_line
    | none => insert_new t key text_line

/-- The assignments `x->key = to_del->key; x->text_line = to_del->text_line` seen from the
spliced position: `x` is the ancestor at depth `i` of the path. -/
def set_ancestor (key : Int) (text_line : String) : Nat → Path → Path
  | _, [] => []
  | 0, Frame.L _ _ c r :: up => Frame.L key text_line c r :: up
  | 0, Frame.R l _ _ c :: up => Frame.R l key text_line c :: up
  | i + 1, f :: up => f :: set_ancestor key text_line i up

/-- The part shared by `tree_delete` and `tree_delete_from_do` for a non-`NULL` node `x`:
choose `to_del`, splice it out, copy its fields into `x`, run the fix-up, count the key. -/
def delete_node (t : tree_t) (x : Loc) : Option tree_t :=
  match x.here with
  | Tree.nil => none
  | Tree.node l k s c r =>
    let to_del : Option Loc :=
      if l.isNil || r.isNil then some ⟨Tree.node l k s c r, x.up⟩
      else tree_predecessor ⟨Tree.node l k s c r, x.up⟩
    match to_del with
    | some ⟨Tree.node dl dk ds dc dr, dup⟩ =>
      let subt := if !dl.isNil then dl else dr
      let dup2 :=
        if l.isNil || r.isNil then dup
        else set_ancestor dk ds (dup.length - x.up.length - 1) dup
      let root :=
        if dc = BLACK then tree_delete_fixup (dup2.length + 1) subt dup2
        else some (zip subt dup2)
      match root with
      | some root2 => some ⟨root2, t.number_of_keys - 1⟩
      | none => none
    | _ => none

/-- The function `tree_delete_from_do`. -/
def tree_delete_from_do (t : tree_t) (x : Option Loc) : Option tree_t :=
  match x with
  | none => some t
  | some x1 => delete_node t x1

/-! ## Stacks -/

/-- The function `stack_create`. -/
def stack_create : stack_t := ⟨[], 0⟩

/-- The function `is_empty`. -/
def is_empty (s : stack_t) : Bool := s.top.isEmpty

/-- The function `pop`: the old top (`NULL` on an empty stack) and the stack without it. -/
def pop (s : stack_t) : Option list_of_commands_t × stack_t :=
  match s.top with
  | [] => (none, s)
  | old_top :: next => (some old_top, ⟨next, s.size⟩)

/-- The function `make_empty_stack`: pops until empty, then zeroes the counter. -/
def make_empty_stack (s : stack_t) : stack_t :=
  ⟨(s.top.foldl (fun st _ => (pop st).2) s).top, 0⟩

/-- The function `stack_push_values`. -/
def stack_push_values (s : stack_t) (begin end_ command_id : Int) (command : RecordKind)
    (text_line : String) : stack_t :=
  ⟨⟨begin, end_, command_id, command, text_line⟩ :: s.top, s.size⟩

/-- The function `stack_push_node`. -/
def stack_push_node (s : stack_t) (node : list_of_commands_t) : stack_t :=
  ⟨node :: s.top, s.size⟩

/-- The function `tree_insert`. -/
def tree_insert (t : tree_t) (key : Int) (text_line : String) (command_id : Int) (s : stack_t) :
    Option (tree_t × stack_t) :=
  match tree_search t key with
  | some y =>
    match y.here with
    | Tree.nil => none
    | Tree.node _ yk ys _ _ =>
      let s1 := stack_push_values s yk yk command_id CHANGE ys
      match overwrite t y key text_line with
      | some t1 => some (t1, stack_push_values s1 key key command_id DELETE text_line)
      | none => none
  | none =>
    match insert_new t key text_line with
    | some t1 => some (t1, stack_push_values s key key command_id DELETE text_line)
    | none => none

/-- The function `tree_delete`. -/
def tree_delete (t : tree_t) (x : Option Loc) (command_id : Int) (s : stack_t) :
    Option (tree_t × stack_t) :=
  match x with
  | none => some (t, stack_push_values s (-1) (-1) command_id CHANGE "")
  | some x1 =>
    match x1.here with
    | Tree.nil => none
    | Tree.node _ xk xs _ _ =>
      match delete_node t x1 with
      | some t1 => some (t1, stack_push_values s xk xk command_id CHANGE xs)
      | none => none

/-! ## The editor -/

/-- The variables of `main` that survive an iteration of its loop. -/
structure Editor where
  t : tree_t
  undo_stack : stack_t
  redo_stack : stack_t
  command_id : Int
  deriving DecidableEq, Repr

/-- The state of `main` before its loop. -/
def Editor.init : Editor := ⟨tree_create, stack_create, stack_create, 1⟩

/-- Moves the top record of `src` onto `dst`: `pop` followed by `stack_push_node`. -/
def move_top (src dst : stack_t) : Option (stack_t × stack_t) :=
  match pop src with
  | (some node, src1) => some (src1, stack_push_node dst node)
  | (none, _) => none

/-- The function `undo_command`. -/
def undo_command (e : Editor) : Option Editor :=
  match e.undo_stack.top with
  | [] => none
  | top :: _ =>
    let t1 : Option tree_t :=
      match top.command with
      | CHANGE => tree_insert_from_do e.t top.begin top.text_line
      | DELETE => tree_delete_from_do e.t (tree_search e.t top.begin)
      | FIX_VALUES => some ⟨tree_key_fixup_from_do top.begin top.end_ e.t.root, e.t.number_of_keys⟩
    match t1, move_top e.undo_stack e.redo_stack with
    | some t2, some (u, r) => some ⟨t2, u, r, e.command_id⟩
    | _, _ => none

/-- The function `redo_command`. -/
def redo_command (e : Editor) : Option Editor :=
  match e.redo_stack.top with
  | [] => none
  | top :: _ =>
    let t1 : Option tree_t :=
      match top.command with
      | CHANGE => tree_delete_from_do e.t (tree_search e.t top.begin)
      | DELETE => tree_insert_from_do e.t top.begin top.text_line
      | FIX_VALUES => some ⟨tree_key_fixup top.begin top.end_ e.t.root, e.t.number_of_keys⟩
    match t1, move_top e.redo_stack e.undo_stack with
    | some t2, some (r, u) => some ⟨t2, u, r, e.command_id⟩
    | _, _ => none

/-- The inner loop of an undo step:
`while (undo_stack->top != NULL && undo_stack->top->command_id == starting_command_id)`.
With no fuel left the loop test is still evaluated. -/
def undo_group (starting_command_id : Int) : Nat → Editor → Option Editor
  | 0, e =>
    match e.undo_stack.top with
    | [] => some e
    | top :: _ => if top.command_id = starting_command_id then none else some e
  | fuel + 1, e =>
    match e.undo_stack.top with
    | [] => some e
    | top :: _ =>
      if top.command_id = starting_command_id then
        match undo_command e with
        | some e1 => undo_group starting_command_id fuel e1
        | none => none
      else some e

/-- The inner loop of a redo step. -/
def redo_group (starting_command_id : Int) : Nat → Editor → Option Editor
  | 0, e =>
    match e.redo_stack.top with
    | [] => some e
    | top :: _ => if top.command_id = starting_command_id then none else some e
  | fuel + 1, e =>
    match e.redo_stack.top with
    | [] => some e
    | top :: _ =>
      if top.command_id = starting_command_id then
        match redo_command e with
        | some e1 => redo_group starting_command_id fuel e1
        | none => none
      else some e

/-- One iteration of `for (i = 0; i < start_do; i++)`: sample the top id, drain the group,
move one unit between the two counters. -/
def undo_step (e : Editor) : Option Editor :=
  match e.undo_stack.top with
  | [] => none
  | top :: _ =>
    match undo_group top.command_id e.undo_stack.top.length e with
    | some e1 =>
      some ⟨e1.t, ⟨e1.undo_stack.top, e1.undo_stack.size - 1⟩,
        ⟨e1.redo_stack.top, e1.redo_stack.size + 1⟩, e1.command_id⟩
    | none => none

/-- One iteration of `for (i = 0; i < (-start_do); i++)`. -/
def redo_step (e : Editor) : Option Editor :=
  match e.redo_stack.top with
  | [] => none
  | top :: _ =>
    match redo_group top.command_id e.redo_stack.top.length e with
    | some e1 =>
      some ⟨e1.t, ⟨e1.undo_stack.top, e1.undo_stack.size + 1⟩,
        ⟨e1.redo_stack.top, e1.redo_stack.size - 1⟩, e1.command_id⟩
    | none => none

/-- Runs a step `n` times, stopping at the first failure. -/
def iterate (f : Editor → Option Editor) : Nat → Editor → Option Editor
  | 0, e => some e
  | n + 1, e =>
    match f e with
    | some e1 => iterate f n e1
    | none => none

/-- The replay that follows the coalescing loop: `start_do` undo steps when it is positive,
`-start_do` redo steps when it is negative. -/
def apply_do (start_do : Int) (e : Editor) : Option Editor :=
  if start_do > 0 then iterate undo_step start_do.toNat e
  else if start_do < 0 then iterate redo_step (-start_do).toNat e
  else some e

/-- The three accumulators of the coalescing loop. -/
structure Pending where
  start_do : Int
  temporary_undo_stack_size : Int
  temporary_redo_stack_size : Int
  deriving DecidableEq, Repr

/-- An `UNDO`/`REDO` token with its first integer. -/
inductive DoToken where
  | UNDO (start : Int) : DoToken
  | REDO (start : Int) : DoToken
  deriving DecidableEq, Repr

/-- The accumulators before the first token of a run is counted: the displacement is zero
and the tentative counters are read from the stacks. -/
def Pending.init (e : Editor) : Pending := ⟨0, e.undo_stack.size, e.redo_stack.size⟩

/-- Counts one token of a run into the accumulators. -/
def Pending.count (p : Pending) : DoToken → Pending
  | DoToken.UNDO start =>
      let a := min start p.temporary_undo_stack_size
      ⟨p.start_do + a, p.temporary_undo_stack_size - a, p.temporary_redo_stack_size + a⟩
  | DoToken.REDO start =>
      let a := min start p.temporary_redo_stack_size
      ⟨p.start_do - a, p.temporary_undo_stack_size + a, p.temporary_redo_stack_size - a⟩

/-- The coalescing loop over a whole run of tokens. -/
def coalesce (e : Editor) (run : List DoToken) : Pending :=
  run.foldl Pending.count (Pending.init e)

/-- A run of `UNDO`/`REDO` commands as `main` executes it: coalesce, then replay. -/
def exec_run (run : List DoToken) (e : Editor) : Option Editor :=
  apply_do (coalesce e run).start_do e

/-- The body of the loop of the `CHANGE` branch (one `fgets` and one `tree_insert`) run `n`
times from `line_number` on, the line number growing by one each time. -/
def change_loop (command_id : Int) : Nat → Int → List String → tree_t → stack_t →
    Option (tree_t × stack_t)
  | 0, _, _, t, s => some (t, s)
  | _ + 1, _, [], _, _ => none
  | n + 1, line_number, text :: lines, t, s =>
    match tree_insert t line_number text command_id s with
    | some (t1, s1) => change_loop command_id n (line_number + 1) lines t1 s1
    | none => none

/-- The loop `for (line_number = start; line_number <= end; line_number++)` of the `CHANGE`
branch.  The test is evaluated before every iteration and the increment is an `int`
increment; the result is `none` when the loop is still running after `fuel` iterations, or
when the input has no line left for `fgets`. -/
def change_for (command_id end_ : Int) : Nat → Int → List String → tree_t → stack_t →
    Option (tree_t × stack_t)
  | 0, line_number, _, t, s => if line_number ≤ end_ then none else some (t, s)
  | fuel + 1, line_number, lines, t, s =>
    if line_number ≤ end_ then
      match lines with
      | [] => none
      | text :: rest =>
        match tree_insert t line_number text command_id s with
        | some (t1, s1) => change_for command_id end_ fuel (wrap (line_number + 1)) rest t1 s1
        | none => none
    else some (t, s)

/-- The `CHANGE` branch of `main`.  The fuel `end - start + 1` is the number of iterations
of a loop that ends; with `end = INT_MAX` the test `line_number <= end` never fails and
there is no result. -/
def exec_change (start end_ : Int) (lines : List String) (e : Editor) : Option Editor :=
  match change_for e.command_id end_ (end_ - start + 1).toNat start lines e.t e.undo_stack with
  | some (t1, s1) =>
      some ⟨t1, ⟨s1.top, s1.size + 1⟩, make_empty_stack e.redo_stack, e.command_id + 1⟩
  | none => none

/-- The body of the loop of the `DELETE` branch run `n` times from `line_number` on, the
line number growing by one each time. -/
def delete_loop (command_id tree_number_of_keys : Int) : Nat → Int → tree_t → stack_t →
    Option (tree_t × stack_t)
  | 0, _, t, s => some (t, s)
  | n + 1, line_number, t, s =>
    if line_number > tree_number_of_keys ∨ line_number < 1 then
      delete_loop command_id tree_number_of_keys n (line_number + 1) t
        (stack_push_values s (-1) (-1) command_id CHANGE "")
    else
      match tree_delete t (tree_search t line_number) command_id s with
      | some (t1, s1) => delete_loop command_id tree_number_of_keys n (line_number + 1) t1 s1
      | none => none

/-- The loop `for (line_number = start; line_number <= end; line_number++)` of the `DELETE`
branch, with the test before every iteration and the `int` increment; `none` when the loop
is still running after `fuel` iterations. -/
def delete_for (command_id tree_number_of_keys end_ : Int) : Nat → Int → tree_t → stack_t →
    Option (tree_t × stack_t)
  | 0, line_number, t, s => if line_number ≤ end_ then none else some (t, s)
  | fuel + 1, line_number, t, s =>
    if line_number ≤ end_ then
      if line_number > tree_number_of_keys ∨ line_number < 1 then
        delete_for command_id tree_number_of_keys end_ fuel (wrap (line_number + 1)) t
          (stack_push_values s (-1) (-1) command_id CHANGE "")
      else
        match tree_delete t (tree_search t line_number) command_id s with
        | some (t1, s1) =>
          delete_for command_id tree_number_of_keys end_ fuel (wrap (line_number + 1)) t1 s1
        | none => none
    else some (t, s)

/-- The `DELETE` branch of `main`.  The fuel `end - start + 1` is the number of iterations
of a loop that ends; with `end = INT_MAX` the loop never ends and there is no result. -/
def exec_delete (start end_ : Int) (e : Editor) : Option Editor :=
  let tree_number_of_keys := e.t.number_of_keys
  match delete_for e.command_id tree_number_of_keys end_ (end_ - start + 1).toNat start e.t
      e.undo_stack with
  | some (t1, s1) =>
    let ts : tree_t × stack_t :=
      if end_ < tree_number_of_keys then
        (⟨tree_key_fixup start end_ t1.root, t1.number_of_keys⟩,
          stack_push_values s1 start end_ e.command_id FIX_VALUES "")
      else (t1, s1)
    some ⟨ts.1, ⟨ts.2.top, ts.2.size + 1⟩, make_empty_stack e.redo_stack, e.command_id + 1⟩
  | none => none

/-- The output of `fputc_unlocked(POINT); fputc_unlocked(NEWLINE)`. -/
def POINT_NEWLINE : String := ".\n"

/-- The body of the loop of `in_order_iterative` (one `fputs` and one `tree_successor`) run
`n` times from the node `x` on. -/
def in_order_loop : Nat → Option Loc → Option (List String)
  | 0, _ => some []
  | _ + 1, none => none
  | n + 1, some x =>
    match x.here with
    | Tree.nil => none
    | Tree.node _ _ text _ _ =>
      match in_order_loop n (tree_successor x) with
      | some out => some (text :: out)
      | none => none

/-- The function `in_order_iterative`: the loop
`while ((start <= end) && (start <= t->number_of_keys))` with the test before every
iteration and the `int` increment of `start`; `none` when the loop is still running after
`fuel` iterations, or when `x` is not a node whose text can be written. -/
def in_order_iterative (t : tree_t) : Nat → Option Loc → Int → Int → Option (List String)
  | 0, _, start, end_ =>
    if start ≤ end_ ∧ start ≤ t.number_of_keys then none else some []
  | fuel + 1, x, start, end_ =>
    if start ≤ end_ ∧ start ≤ t.number_of_keys then
      match x with
      | none => none
      | some x =>
        match x.here with
        | Tree.nil => none
        | Tree.node _ _ text _ _ =>
          match in_order_iterative t fuel (tree_successor x) (wrap (start + 1)) end_ with
          | some out => some (text :: out)
          | none => none
    else some []

/-- The loop `for (i = start; i <= end; i++)` that writes one dot line per iteration, with
the test before every iteration and the `int` increment; `none` when the loop is still
running after `fuel` iterations. -/
def point_for (end_ : Int) : Nat → Int → Option (List String)
  | 0, i => if i ≤ end_ then none else some []
  | fuel + 1, i =>
    if i ≤ end_ then
      match point_for end_ fuel (wrap (i + 1)) with
      | some out => some (POINT_NEWLINE :: out)
      | none => none
    else some []

/-- The `PRINT` branch of `main`: what it writes to `stdout`, one entry per `fputs` or per
`.`-newline pair.  The fuel of each loop is the number of iterations of a loop that ends.
When the first line to print is past the end of the document and `end = INT_MAX`, the loop
of dot lines never ends and there is no result.  The last loop,
`for (i = t->number_of_keys; i < end; i++)`, ends for every `int`. -/
def exec_print (start end_ : Int) (t : tree_t) : Option (List String) :=
  let pad := List.replicate (1 - start).toNat POINT_NEWLINE
  let start1 := if start < 1 then 1 else start
  if start1 > t.number_of_keys then
    match point_for end_ (end_ - start1 + 1).toNat start1 with
    | some out => some (pad ++ out)
    | none => none
  else
    match in_order_iterative t (min end_ t.number_of_keys - start1 + 1).toNat
        (tree_search t start1) start1 end_ with
    | some out => some (pad ++ out ++ List.replicate (end_ - t.number_of_keys).toNat POINT_NEWLINE)
    | none => none

/-- A command line of the input; `CHANGE` carries the lines that `fgets` will read. -/
inductive Command where
  | CHANGE (start end_ : Int) (lines : List String) : Command
  | DELETE (start end_ : Int) : Command
  | PRINT (start end_ : Int) : Command
  | UNDO (start : Int) : Command
  | REDO (start : Int) : Command
  | QUIT : Command
  deriving DecidableEq, Repr

/-- The replay of the pending displacement when the coalescing loop meets a command that is
neither `UNDO` nor `REDO`. -/
def flush (pending : Option Pending) (e : Editor) : Option Editor :=
  match pending with
  | none => some e
  | some p => apply_do p.start_do e

/-- The loop of `main` over the command lines; `pending` holds the accumulators while the
coalescing loop is reading a run.  The result is the final state and everything printed.
When the input ends without `QUIT`, every further `scanf` fails, `command` is never `QUIT`
and the loop does not end: there is no result. -/
def main_loop : List Command → Option Pending → Editor → List String →
    Option (Editor × List String)
  | [], _, _, _ => none
  | Command.UNDO start :: cs, pending, e, out =>
    main_loop cs (some ((pending.getD (Pending.init e)).count (DoToken.UNDO start))) e out
  | Command.REDO start :: cs, pending, e, out =>
    main_loop cs (some ((pending.getD (Pending.init e)).count (DoToken.REDO start))) e out
  | Command.CHANGE start end_ lines :: cs, pending, e, out =>
    match flush pending e with
    | some e1 =>
      match exec_change start end_ lines e1 with
      | some e2 => main_loop cs none e2 out
      | none => none
    | none => none
  | Command.DELETE start end_ :: cs, pending, e, out =>
    match flush pending e with
    | some e1 =>
      match exec_delete start end_ e1 with
      | some e2 => main_loop cs none e2 out
      | none => none
    | none => none
  | Command.PRINT start end_ :: cs, pending, e, out =>
    match flush pending e with
    | some e1 =>
      match exec_print start end_ e1.t with
      | some lines => main_loop cs none e1 (out ++ lines)
      | none => none
    | none => none
  | Command.QUIT :: _, pending, e, out =>
    match flush pending e with
    | some e1 => some (e1, out)
    | none => none

/-- The program: `main` run on a list of command lines from the initial state. -/
def main (input : List Command) : Option (Editor × List String) :=
  main_loop input none Editor.init []

/-! ## Specification vocabulary -/

/-- The in-order sequence of `(key, text_line)` pairs of a tree. -/
def toList : Tree → List (Int × String)
  | Tree.nil => []
  | Tree.node l k s _ r => toList l ++ (k, s) :: toList r

/-- The in-order contents that precede a location, read off its ancestors. -/
def pathL : Path → List (Int × String)
  | [] => []
  | Frame.L _ _ _ _ :: up => pathL up
  | Frame.R l k s _ :: up => pathL up ++ (toList l ++ [(k, s)])

/-- The in-order contents that follow a location, read off its ancestors. -/
def pathR : Path → List (Int × String)
  | [] => []
  | Frame.L k s _ r :: up => (k, s) :: toList r ++ pathR up
  | Frame.R _ _ _ _ :: up => pathR up

/-- The predicate `isRB t n`: no red node of `t` has a red child, and every path from the root
of `t` down to a sentinel crosses exactly `n` black nodes.  The root itself may be red. -/
def isRB : Tree → Nat → Prop
  | Tree.nil, n => n = 0
  | Tree.node l _ _ RED r, n => l.col = BLACK ∧ r.col = BLACK ∧ isRB l n ∧ isRB r n
  | Tree.node _ _ _ BLACK _, 0 => False
  | Tree.node l _ _ BLACK r, n + 1 => isRB l n ∧ isRB r n

/-- A red-black tree: black root, no red-red edge, equal black counts. -/
def RBRoot (t : Tree) : Prop := t.col = BLACK ∧ ∃ n, isRB t n

/-- The sibling subtree stored in a frame. -/
def Frame.sib : Frame → Tree
  | Frame.L _ _ _ r => r
  | Frame.R l _ _ _ => l

/-- The nearest ancestor exists and is black. -/
def parentBlack : Path → Prop
  | [] => False
  | f :: _ => f.col = BLACK

/-- The ancestors of a location form a red-black tree around a hole that expects a subtree of
black count `n`: siblings are balanced, a red ancestor has a black sibling-side child and a
black parent, and the root is black. -/
def pathRB : Path → Nat → Prop
  | [], _ => True
  | f :: up, n =>
    isRB f.sib n ∧
      (match f.col with
       | BLACK => pathRB up (n + 1)
       | RED => f.sib.col = BLACK ∧ parentBlack up ∧ pathRB up n)

/-- The subtree at a location respects the colour of its parent (and is black at the root). -/
def holeOK : Path → Tree → Prop
  | [], x => x.col = BLACK
  | f :: _, x => f.col = RED → x.col = BLACK

/-- What `tree_delete_fixup` assumes of the node `x` whose subtree is one black node short:
a black `x` is balanced with count `n`; a red `x` becomes balanced with count `n + 1` once
painted black. -/
def delOK (x : Tree) (n : Nat) : Prop :=
  (x.col = RED → isRB x.setBlack (n + 1)) ∧ (x.col = BLACK → isRB x n)

/-- Iterations that `tree_delete_fixup` needs at `x` under the ancestors `up`. -/
def delNeed (x : Tree) (up : Path) : Nat :=
  if x.col = RED then 1
  else match up with
    | [] => 1
    | f :: rest => if f.col = RED then 2 else rest.length + 2

/-- A location inside a red-black tree: subtree and ancestors fit together. -/
def LocOK (x : Tree) (up : Path) : Prop :=
  ∃ n, isRB x n ∧ pathRB up n ∧ holeOK up x

/-- Strictly increasing keys. -/
def SortedK (l : List (Int × String)) : Prop :=
  l.Pairwise (fun a b => a.1 < b.1)

/-- The document: the `(key, text_line)` pairs in key order. -/
abbrev Doc := List (Int × String)

/-- Sets line `k` to `s`, creating it if absent (sorted insertion or replacement). -/
def Doc.upsert (k : Int) (s : String) : Doc → Doc
  | [] => [(k, s)]
  | (j, v) :: l =>
    if k < j then (k, s) :: (j, v) :: l
    else if k = j then (k, s) :: l
    else (j, v) :: Doc.upsert k s l

/-- Removes line `k`, without renumbering. -/
def Doc.remove (k : Int) (D : Doc) : Doc := D.filter (fun p => decide (p.1 ≠ k))

/-- The renumbering of `tree_key_fixup` on the list of lines. -/
def Doc.key_fixup (start end_ : Int) (D : Doc) : Doc :=
  D.map (fun p => (if p.1 ≥ end_ then p.1 - (end_ - start + 1) else p.1, p.2))

/-- The renumbering of `tree_key_fixup_from_do` on the list of lines. -/
def Doc.key_fixup_from_do (start end_ : Int) (D : Doc) : Doc :=
  D.map (fun p => (if p.1 ≥ start then p.1 + (end_ - start + 1) else p.1, p.2))

/-- The text stored for key `k`, if any. -/
def Doc.lookup (k : Int) : Doc → Option String
  | [] => none
  | (j, v) :: l => if j = k then some v else Doc.lookup k l

/-- A well-formed `tree_t`: a red-black tree with strictly increasing keys in order, whose
counter is the number of nodes. -/
structure TreeOK (t : tree_t) : Prop where
  rb : RBRoot t.root
  sorted : SortedK (toList t.root)
  count : t.number_of_keys = (toList t.root).length

/-- What `undo_command` does to the document for a record on top of the undo stack. -/
def Doc.undo_record (r : list_of_commands_t) (D : Doc) : Doc :=
  match r.command with
  | CHANGE => if r.begin = -1 then D else Doc.upsert r.begin r.text_line D
  | DELETE => Doc.remove r.begin D
  | FIX_VALUES => Doc.key_fixup_from_do r.begin r.end_ D

/-- What `redo_command` does to the document for a record on top of the redo stack. -/
def Doc.redo_record (r : list_of_commands_t) (D : Doc) : Doc :=
  match r.command with
  | CHANGE => Doc.remove r.begin D
  | DELETE => if r.begin = -1 then D else Doc.upsert r.begin r.text_line D
  | FIX_VALUES => Doc.key_fixup r.begin r.end_ D

/-- A document the editor can hold: strictly increasing keys, all at least 1. -/
def DocOK (D : Doc) : Prop := SortedK D ∧ ∀ p ∈ D, 1 ≤ p.1

/-- The record `r` links the documents `D1` (older) and `D2` (newer): undoing it on `D2` gives
`D1`, redoing it on `D1` gives `D2`. -/
def RecOK (r : list_of_commands_t) (D1 D2 : Doc) : Prop :=
  DocOK D1 ∧ DocOK D2 ∧ Doc.undo_record r D2 = D1 ∧ Doc.redo_record r D1 = D2

/-- The records `rs` (newest first) link `D` (oldest) to `D2` (newest), one record at a time. -/
def Linked : Doc → List list_of_commands_t → Doc → Prop
  | D, [], D2 => D = D2
  | D, r :: rs, D2 => ∃ Dm, Linked D rs Dm ∧ RecOK r Dm D2

/-- The two records that `tree_insert` pushes when it overwrites line `k`, newest first. -/
def overwrite_records (k : Int) (s0 s : String) (id : Int) : List list_of_commands_t :=
  [⟨k, k, id, DELETE, s⟩, ⟨k, k, id, CHANGE, s0⟩]

/-- The effect of `CHANGE` on the document: one upsert per line, first line at `k`. -/
def Doc.change : Int → List String → Doc → Doc
  | _, [], D => D
  | k, s :: ss, D => Doc.change (k + 1) ss (Doc.upsert k s D)

/-- The lines that the loop of `DELETE` leaves: those whose key is not both inside
`[start, end]` and at most the line count `n0` sampled before the loop. -/
def Doc.delete_range (start end_ n0 : Int) (D : Doc) : Doc :=
  D.filter (fun p => decide (¬ (start ≤ p.1 ∧ p.1 ≤ end_ ∧ p.1 ≤ n0)))

/-- The effect of `DELETE` on the document. -/
def Doc.delete (start end_ : Int) (D : Doc) : Doc :=
  if end_ < (D.length : Int) then
    Doc.key_fixup start end_ (Doc.delete_range start end_ D.length D)
  else Doc.delete_range start end_ D.length D

/-- One mutating command in the history: its group id, the records it pushed (newest first),
and the document before and after it. -/
structure Entry where
  id : Int
  records : List list_of_commands_t
  before : Doc
  after : Doc

/-- The group is non-empty, carries one id, and its records link `before` to `after`. -/
def EntryOK (x : Entry) : Prop :=
  x.records ≠ [] ∧ (∀ r ∈ x.records, r.command_id = x.id) ∧
    Linked x.before x.records x.after ∧ DocOK x.before

/-- The commands not yet undone, newest first, end at the document `D` and start from the
empty document. -/
def PastOK : List Entry → Doc → Prop
  | [], D => D = []
  | x :: p, D => x.after = D ∧ EntryOK x ∧ PastOK p x.before

/-- The undone commands, next to redo first, start at the document `D`. -/
def FutureOK : Doc → List Entry → Prop
  | _, [] => True
  | D, x :: f => x.before = D ∧ EntryOK x ∧ FutureOK x.after f

/-- The records of the undo stack, top first. -/
def undoRecords : List Entry → List list_of_commands_t
  | [] => []
  | x :: p => x.records ++ undoRecords p

/-- The records of the redo stack, top first. -/
def redoRecords : List Entry → List list_of_commands_t
  | [] => []
  | x :: f => x.records.reverse ++ redoRecords f

/-- The group ids of the whole history in the order the commands were issued. -/
def timelineIds (past future : List Entry) : List Int :=
  (past.reverse ++ future).map Entry.id

/-- The editor state `e` stands at the point of the history where `past` has been applied and
`future` has been undone; `P` holds of the document at every command boundary. -/
structure Rep (P : Doc → Prop) (past future : List Entry) (e : Editor) : Prop where
  tree : TreeOK e.t
  docOK : DocOK (toList e.t.root)
  pastOK : PastOK past (toList e.t.root)
  futureOK : FutureOK (toList e.t.root) future
  ids : (timelineIds past future).Pairwise (fun a b => a < b)
  fresh : ∀ i ∈ timelineIds past future, i < e.command_id
  undo_top : e.undo_stack.top = undoRecords past
  redo_top : e.redo_stack.top = redoRecords future
  undo_size : e.undo_stack.size = past.length
  redo_size : e.redo_stack.size = future.length
  cur : P (toList e.t.root)
  bound : ∀ x ∈ past.reverse ++ future, P x.before ∧ P x.after

/-- The editor state `e` stands at position `j` of the timeline `T`: the first `j` commands
of `T` are applied, the others are undone. -/
def At (P : Doc → Prop) (T : List Entry) (j : Nat) (e : Editor) : Prop :=
  ∃ past future, T = past.reverse ++ future ∧ past.length = j ∧ Rep P past future e

/-- What the specification calls the document and the history of an editor state: the lines
in key order, the line count, both stacks with their counters, and the next group id. -/
structure View where
  doc : Doc
  number_of_keys : Int
  undo_stack : stack_t
  redo_stack : stack_t
  command_id : Int

/-- The view of an editor state. -/
def Editor.view (e : Editor) : View :=
  ⟨toList e.t.root, e.t.number_of_keys, e.undo_stack, e.redo_stack, e.command_id⟩

/-- The first integer of a token. -/
def DoToken.start : DoToken → Int
  | DoToken.UNDO n => n
  | DoToken.REDO n => n

/-- One `UNDO`/`REDO` command executed on its own: `min(n, |U|_g)` undo steps, respectively
`min(n, |R|_g)` redo steps, on the current state. -/
def exec_token : DoToken → Editor → Option Editor
  | DoToken.UNDO n, e => iterate undo_step (min n e.undo_stack.size).toNat e
  | DoToken.REDO n, e => iterate redo_step (min n e.redo_stack.size).toNat e

/-- Specification of a run of `UNDO`/`REDO` commands: each command is executed in turn on
the state the previous one left. -/
def one_at_a_time : List DoToken → Editor → Option Editor
  | [], e => some e
  | tok :: run, e =>
    match exec_token tok e with
    | some e1 => one_at_a_time run e1
    | none => none

/-- The tentative counters describe position `j - start_do` of a history of `n` groups when
the run started at position `j`. -/
def PendingOK (j n : Nat) (p : Pending) : Prop :=
  p.temporary_undo_stack_size = (j : Int) - p.start_do ∧
    p.temporary_redo_stack_size = ((n : Int) - j) + p.start_do ∧
    0 ≤ p.temporary_undo_stack_size ∧ 0 ≤ p.temporary_redo_stack_size

/-- What `main` executes between two reads of its outer loop: a mutating command, a print,
or a whole run of `UNDO`/`REDO` commands. -/
inductive Input where
  | CHANGE (start end_ : Int) (lines : List String) : Input
  | DELETE (start end_ : Int) : Input
  | PRINT (start end_ : Int) : Input
  | RUN (run : List DoToken) : Input

/-- Well-formed input: `CHANGE(a,b)` with `1 <= a <= b` and `b - a + 1` lines, `DELETE(a,b)`
with `1 <= a <= b`, and `UNDO(n)`/`REDO(n)` with `n >= 0`. -/
def Input.WF : Input → Prop
  | Input.CHANGE start end_ lines =>
      1 ≤ start ∧ start ≤ end_ ∧ lines.length = (end_ - start + 1).toNat
  | Input.DELETE start end_ => 1 ≤ start ∧ start ≤ end_
  | Input.PRINT _ _ => True
  | Input.RUN run => ∀ tok ∈ run, 0 ≤ tok.start

/-- Inputs whose last line number is below `INT_MAX`: on these the loops of `main` over the
line numbers `start .. end` reach the end of their range and stop. -/
def Input.bounded : Input → Prop
  | Input.CHANGE _ end_ _ => end_ < INT_MAX
  | Input.DELETE _ end_ => end_ < INT_MAX
  | Input.PRINT _ end_ => end_ < INT_MAX
  | Input.RUN _ => True

/-- The state after one input; `PRINT` leaves the state alone when it does not fail. -/
def step : Input → Editor → Option Editor
  | Input.CHANGE start end_ lines, e => exec_change start end_ lines e
  | Input.DELETE start end_, e => exec_delete start end_ e
  | Input.PRINT start end_, e =>
    match exec_print start end_ e.t with
    | some _ => some e
    | none => none
  | Input.RUN run, e => exec_run run e

/-- The states reached from the initial state through inputs accepted by `ok`. -/
inductive ReachableBy (ok : Editor → Input → Prop) : Editor → Prop where
  | init : ReachableBy ok Editor.init
  | step {e e1 : Editor} {i : Input} :
      ReachableBy ok e → ok e i → step i e = some e1 → ReachableBy ok e1

/-- The states reached from the empty editor by well-formed commands. -/
def Reachable : Editor → Prop := ReachableBy (fun _ i => i.WF)

/-- The command line of an `UNDO`/`REDO` token. -/
def DoToken.command : DoToken → Command
  | DoToken.UNDO start => Command.UNDO start
  | DoToken.REDO start => Command.REDO start

/-- The text of the node that `tree_search` returns for `key`. -/
def lookup (t : tree_t) (key : Int) : Option String :=
  match tree_search t key with
  | some ⟨Tree.node _ _ s _ _, _⟩ => some s
  | _ => none

/-- The document of an editor state: the map from line index to payload, and the line
count `number_of_keys`. -/
def document (e : Editor) : (Int → Option String) × Int :=
  (lookup e.t, e.t.number_of_keys)

/-- The commands that change the document: `CHANGE` and `DELETE`. -/
def Input.mutating : Input → Prop
  | Input.CHANGE _ _ _ => True
  | Input.DELETE _ _ => True
  | _ => False

/-- The state after `1,1c` with the line `hello`. -/
def state_hello : Editor :=
  ⟨⟨Tree.node Tree.nil 1 "hello\n" BLACK Tree.nil, 1⟩,
    ⟨[⟨1, 1, 1, DELETE, "hello\n"⟩], 1⟩, ⟨[], 0⟩, 2⟩

/-- The state after `1,1c hello` and `1,1c world`. -/
def state_world : Editor :=
  ⟨⟨Tree.node Tree.nil 1 "world\n" BLACK Tree.nil, 1⟩,
    ⟨[⟨1, 1, 2, DELETE, "world\n"⟩, ⟨1, 1, 2, CHANGE, "hello\n"⟩,
      ⟨1, 1, 1, DELETE, "hello\n"⟩], 2⟩, ⟨[], 0⟩, 3⟩

/-- The state after `1,1c hello`, `1,1c world`, `1,1u`: the redo stack holds the undone
group. -/
def state_undone : Editor :=
  ⟨⟨Tree.node Tree.nil 1 "hello\n" BLACK Tree.nil, 1⟩,
    ⟨[⟨1, 1, 1, DELETE, "hello\n"⟩], 1⟩,
    ⟨[⟨1, 1, 2, CHANGE, "hello\n"⟩, ⟨1, 1, 2, DELETE, "world\n"⟩], 1⟩, 3⟩

/-- The state of scenario S5 after the new `1,1c mars`. -/
def state_mars : Editor :=
  ⟨⟨Tree.node Tree.nil 1 "mars\n" BLACK Tree.nil, 1⟩,
    ⟨[⟨1, 1, 3, DELETE, "mars\n"⟩, ⟨1, 1, 3, CHANGE, "hello\n"⟩,
      ⟨1, 1, 1, DELETE, "hello\n"⟩], 2⟩, ⟨[], 0⟩, 4⟩

/-- The number of distinct `command_id` values among the records of a stack. -/
def distinct_ids (s : stack_t) : Nat :=
  (s.top.map (fun r => r.command_id)).toFinset.card

/-- What one `UNDO`/`REDO` command means for the pair (mutating commands not yet undone,
undone commands neither redone nor invalidated). -/
def history_token : Nat × Nat → DoToken → Nat × Nat
  | (d, u), DoToken.UNDO n => (d - Nat.min n.toNat d, u + Nat.min n.toNat d)
  | (d, u), DoToken.REDO n => (d + Nat.min n.toNat u, u - Nat.min n.toNat u)

/-- What one input means for that pair: a mutating command adds one command and invalidates
the undone ones; a print changes nothing; a run is read one command at a time. -/
def history_step : Input → Nat × Nat → Nat × Nat
  | Input.CHANGE _ _ _, (d, _) => (d + 1, 0)
  | Input.DELETE _ _, (d, _) => (d + 1, 0)
  | Input.PRINT _ _, h => h
  | Input.RUN run, h => run.foldl history_token h

/-- The states reachable by well-formed commands, each with the pair (commands not yet
undone, undone commands not redone or invalidated) that the command sequence determines. -/
inductive ReachableCounting : Editor → Nat × Nat → Prop where
  | init : ReachableCounting Editor.init (0, 0)
  | step {e e1 : Editor} {i : Input} {h : Nat × Nat} :
      ReachableCounting e h → i.WF → step i e = some e1 →
      ReachableCounting e1 (history_step i h)

/-- The keys of a document are exactly `1, ..., N` for `N` its number of lines. -/
def Doc.Dense (D : Doc) : Prop :=
  ∀ k : Int, (∃ s, (k, s) ∈ D) ↔ (1 ≤ k ∧ k ≤ (D.length : Int))

/-- The keys of the live nodes of a tree, in order. -/
def live_keys (t : tree_t) : List Int := (toList t.root).map Prod.fst

/-- Density of the line store: the set of keys of the live nodes is exactly
`{1, ..., number_of_keys}`. -/
def dense (t : tree_t) : Prop :=
  ∀ k : Int, k ∈ live_keys t ↔ (1 ≤ k ∧ k ≤ t.number_of_keys)

/-- The line count after `DELETE(a,b)` on a dense document of `n` lines: `n` minus the
number of indices of `[a, b]` that lie in `[1, n]`. -/
def count_after_delete (a b n : Int) : Int := n - max 0 (Min.min b n - a + 1)

/-- The inputs of a contiguous edit session: well-formed, and every `CHANGE(a,b)` starts at
most one line past the end of the document, `a <= N + 1`. -/
def contiguous (e : Editor) (i : Input) : Prop :=
  i.WF ∧ ∀ start end_ lines, i = Input.CHANGE start end_ lines → start ≤ e.t.number_of_keys + 1

/-- The state after `1,5c` with the lines `A` to `E`. -/
def state_five : Editor :=
  ⟨⟨Tree.node (Tree.node Tree.nil 1 "A\n" BLACK Tree.nil) 2 "B\n" BLACK
      (Tree.node (Tree.node Tree.nil 3 "C\n" RED Tree.nil) 4 "D\n" BLACK
        (Tree.node Tree.nil 5 "E\n" RED Tree.nil)), 5⟩,
    ⟨[⟨5, 5, 1, DELETE, "E\n"⟩, ⟨4, 4, 1, DELETE, "D\n"⟩, ⟨3, 3, 1, DELETE, "C\n"⟩,
      ⟨2, 2, 1, DELETE, "B\n"⟩, ⟨1, 1, 1, DELETE, "A\n"⟩], 1⟩, ⟨[], 0⟩, 2⟩

/-- The state after `3,3c` on the empty editor. -/
def state_gap : Editor :=
  ⟨⟨Tree.node Tree.nil 3 "x\n" BLACK Tree.nil, 1⟩, ⟨[⟨3, 3, 1, DELETE, "x\n"⟩], 1⟩, ⟨[], 0⟩, 2⟩

/-- The state after `1,5c` and `3,1d`: every key was raised by one. -/
def state_raised : Editor :=
  ⟨⟨Tree.node (Tree.node Tree.nil 2 "A\n" BLACK Tree.nil) 3 "B\n" BLACK
      (Tree.node (Tree.node Tree.nil 4 "C\n" RED Tree.nil) 5 "D\n" BLACK
        (Tree.node Tree.nil 6 "E\n" RED Tree.nil)), 5⟩,
    ⟨[⟨3, 1, 2, FIX_VALUES, ""⟩, ⟨5, 5, 1, DELETE, "E\n"⟩, ⟨4, 4, 1, DELETE, "D\n"⟩,
      ⟨3, 3, 1, DELETE, "C\n"⟩, ⟨2, 2, 1, DELETE, "B\n"⟩, ⟨1, 1, 1, DELETE, "A\n"⟩], 2⟩,
    ⟨[], 0⟩, 3⟩

/-- The state after `1,1c` with the line `a`. -/
def state_a : Editor :=
  ⟨⟨Tree.node Tree.nil 1 "a\n" BLACK Tree.nil, 1⟩, ⟨[⟨1, 1, 1, DELETE, "a\n"⟩], 1⟩, ⟨[], 0⟩, 2⟩

/-- The state after `1,1c a` and `2,2c b`. -/
def state_ab : Editor :=
  ⟨⟨Tree.node Tree.nil 1 "a\n" BLACK (Tree.node Tree.nil 2 "b\n" RED Tree.nil), 2⟩,
    ⟨[⟨2, 2, 2, DELETE, "b\n"⟩, ⟨1, 1, 1, DELETE, "a\n"⟩], 2⟩, ⟨[], 0⟩, 3⟩

/-- The state after `1,1c a`, `2,2c b` and `3,3c c`: three groups on the undo stack. -/
def state_abc : Editor :=
  ⟨⟨Tree.node (Tree.node Tree.nil 1 "a\n" RED Tree.nil) 2 "b\n" BLACK
      (Tree.node Tree.nil 3 "c\n" RED Tree.nil), 3⟩,
    ⟨[⟨3, 3, 3, DELETE, "c\n"⟩, ⟨2, 2, 2, DELETE, "b\n"⟩, ⟨1, 1, 1, DELETE, "a\n"⟩], 3⟩,
    ⟨[], 0⟩, 4⟩

/-- The topmost group of a stack: the records from the top down that carry the command id
of the top record. -/
def top_group (s : List list_of_commands_t) : List list_of_commands_t :=
  match s with
  | [] => []
  | r :: _ => s.takeWhile (fun x => decide (x.command_id = r.command_id))

/-- The records of a stack below its topmost group. -/
def below_top_group (s : List list_of_commands_t) : List list_of_commands_t :=
  match s with
  | [] => []
  | r :: _ => s.dropWhile (fun x => decide (x.command_id = r.command_id))

/-- The tree with every key overwritten by 0: what is left is the shape of the tree, the
colours and the payloads. -/
def forget_keys : Tree → Tree
  | Tree.nil => Tree.nil
  | Tree.node l _ s c r => Tree.node (forget_keys l) 0 s c (forget_keys r)

/-- The records of the whole history in the order the commands were issued: the undo stack
from its bottom to its top, then the redo stack from its top to its bottom. -/
def timeline_records (e : Editor) : List list_of_commands_t :=
  e.undo_stack.top.reverse ++ e.redo_stack.top

/-- The records of a sequence of command groups, oldest record first. -/
def recordsOf : List Entry → List list_of_commands_t
  | [] => []
  | x :: L => x.records.reverse ++ recordsOf L

/-- The number of live (non-nil) nodes of a tree. -/
def count_nodes : Tree → Nat
  | Tree.nil => 0
  | Tree.node l _ _ _ r => count_nodes l + 1 + count_nodes r

/-- The trees reachable from `tree_create` by calls of `tree_insert`, `tree_insert_from_do`,
`tree_delete` and `tree_delete_from_do`; the two deletions get the node that `tree_search`
returns, as at every call in the program. -/
inductive TreeReachable : tree_t → Prop where
  | create : TreeReachable tree_create
  | insert {t t1 : tree_t} {k : Int} {s : String} {i : Int} {U V : stack_t} :
      TreeReachable t → tree_insert t k s i U = some (t1, V) → TreeReachable t1
  | insert_from_do {t t1 : tree_t} {k : Int} {s : String} :
      TreeReachable t → tree_insert_from_do t k s = some t1 → TreeReachable t1
  | delete {t t1 : tree_t} {k : Int} {i : Int} {U V : stack_t} :
      TreeReachable t → tree_delete t (tree_search t k) i U = some (t1, V) →
      TreeReachable t1
  | delete_from_do {t t1 : tree_t} {k : Int} :
      TreeReachable t → tree_delete_from_do t (tree_search t k) = some t1 → TreeReachable t1

/-- No red node has a red child. -/
def no_red_red : Tree → Prop
  | Tree.nil => True
  | Tree.node l _ _ c r =>
      (c = RED → l.col = BLACK ∧ r.col = BLACK) ∧ no_red_red l ∧ no_red_red r

/-- The number of black nodes on each path from the root down to a sentinel, one entry per
path. -/
def black_counts : Tree → List Nat
  | Tree.nil => [0]
  | Tree.node l _ _ c r =>
      (black_counts l ++ black_counts r).map (fun m => m + if c = BLACK then 1 else 0)

/-- The number of nodes on the longest path from the root down to a sentinel. -/
def height : Tree → Nat
  | Tree.nil => 0
  | Tree.node l _ _ _ r => max (height l) (height r) + 1

/-! ## In-order contents -/

theorem toList_zip (x : Tree) (up : Path) :
    toList (zip x up) = pathL up ++ toList x ++ pathR up := by
  induction up generalizing x with
  | nil => simp [zip, pathL, pathR]
  | cons f up ih =>
    cases f <;> simp [zip, Frame.plug, toList, pathL, pathR, ih]

theorem toList_zip_congr {a b : Tree} (up : Path) (h : toList a = toList b) :
    toList (zip a up) = toList (zip b up) := by
  simp [toList_zip, h]

theorem toList_setBlack (x : Tree) : toList x.setBlack = toList x := by
  cases x <;> simp [Tree.setBlack, toList]

theorem left_rotate_toList {x t : Tree} (h : left_rotate x = some t) : toList t = toList x := by
  unfold left_rotate at h
  split at h
  · cases h; simp [toList]
  · cases h

theorem right_rotate_toList {x t : Tree} (h : right_rotate x = some t) : toList t = toList x := by
  unfold right_rotate at h
  split at h
  · cases h; simp [toList]
  · cases h

theorem insert_case2_left_toList {z : Tree} {p : Frame} {z2 : Tree} {p2 : Frame}
    (h : insert_case2_left z p = some (z2, p2)) (c : Color) :
    toList ((p2.setCol c).plug z2) = toList ((p.setCol c).plug z) := by
  cases p with
  | L pk ps pc pr => simp [insert_case2_left] at h; obtain ⟨rfl, rfl⟩ := h; rfl
  | R pl pk ps pc =>
    cases z with
    | nil => simp [insert_case2_left, left_rotate] at h
    | node zl zk zs zc zr =>
      simp [insert_case2_left, left_rotate] at h
      obtain ⟨rfl, rfl⟩ := h
      simp [Frame.setCol, Frame.plug, toList]

theorem insert_case2_right_toList {z : Tree} {p : Frame} {z2 : Tree} {p2 : Frame}
    (h : insert_case2_right z p = some (z2, p2)) (c : Color) :
    toList ((p2.setCol c).plug z2) = toList ((p.setCol c).plug z) := by
  cases p with
  | R pl pk ps pc => simp [insert_case2_right] at h; obtain ⟨rfl, rfl⟩ := h; rfl
  | L pk ps pc pr =>
    cases z with
    | nil => simp [insert_case2_right, right_rotate] at h
    | node zl zk zs zc zr =>
      simp [insert_case2_right, right_rotate] at h
      obtain ⟨rfl, rfl⟩ := h
      simp [Frame.setCol, Frame.plug, toList]

theorem insert_case3_left_toList {z : Tree} {p : Frame} {gk : Int} {gs : String} {y : Tree}
    {rest : Path} {z3 : Tree} {up3 : Path}
    (h : insert_case3_left z p gk gs y rest = some (z3, up3)) (gc : Color) :
    toList (zip z3 up3) = toList (zip (Tree.node (p.plug z) gk gs gc y) rest) := by
  cases p <;> cases z <;>
    simp [insert_case3_left, right_rotate, Frame.setCol, Frame.plug] at h <;>
    obtain ⟨rfl, rfl⟩ := h <;>
    simp [toList_zip, toList, Frame.plug, pathL, pathR]

theorem insert_case3_right_toList {z : Tree} {p : Frame} {gk : Int} {gs : String} {y : Tree}
    {rest : Path} {z3 : Tree} {up3 : Path}
    (h : insert_case3_right z p gk gs y rest = some (z3, up3)) (gc : Color) :
    toList (zip z3 up3) = toList (zip (Tree.node y gk gs gc (p.plug z)) rest) := by
  cases p <;> cases z <;>
    simp [insert_case3_right, left_rotate, Frame.setCol, Frame.plug] at h <;>
    obtain ⟨rfl, rfl⟩ := h <;>
    simp [toList_zip, toList, Frame.plug, pathL, pathR]

theorem plug_L (k : Int) (s : String) (c : Color) (r x : Tree) :
    (Frame.L k s c r).plug x = Tree.node x k s c r := rfl

theorem plug_R (l : Tree) (k : Int) (s : String) (c : Color) (x : Tree) :
    (Frame.R l k s c).plug x = Tree.node l k s c x := rfl

theorem toList_plug_setCol (p : Frame) (c : Color) (z : Tree) :
    toList ((p.setCol c).plug z) = toList (p.plug z) := by
  cases p <;> simp [Frame.setCol, Frame.plug, toList]

theorem tree_insert_fixup_toList (fuel : Nat) (z : Tree) (up : Path) (t : Tree)
    (h : tree_insert_fixup fuel z up = some t) : toList t = toList (zip z up) := by
  induction fuel generalizing z up t with
  | zero => simp [tree_insert_fixup] at h
  | succ n ih =>
    rcases up with _ | ⟨p, _ | ⟨g, rest⟩⟩
    · simp only [tree_insert_fixup] at h
      cases h; simp [toList_setBlack, zip]
    · simp only [tree_insert_fixup] at h
      split at h
      · cases h
      · cases h; simp [toList_setBlack]
    · cases g with
      | L gk gs gc y =>
        simp only [tree_insert_fixup] at h
        split at h
        · split at h
          · rw [ih _ _ _ h]
            simp [zip, plug_L, plug_R, toList_zip, toList, toList_setBlack, toList_plug_setCol]
          · split at h
            · rename_i z2 p2 h2
              split at h
              · rename_i z3 up3 h3
                rw [ih _ _ _ h, insert_case3_left_toList h3 gc]
                have := insert_case2_left_toList h2 gc
                simp only [toList_plug_setCol] at this
                simp [zip, toList_zip, toList, this, plug_L, plug_R]
              · cases h
            · cases h
        · cases h; simp [toList_setBlack]
      | R y gk gs gc =>
        simp only [tree_insert_fixup] at h
        split at h
        · split at h
          · rw [ih _ _ _ h]
            simp [zip, plug_L, plug_R, toList_zip, toList, toList_setBlack, toList_plug_setCol]
          · split at h
            · rename_i z2 p2 h2
              split at h
              · rename_i z3 up3 h3
                rw [ih _ _ _ h, insert_case3_right_toList h3 gc]
                have := insert_case2_right_toList h2 gc
                simp only [toList_plug_setCol] at this
                simp [zip, toList_zip, toList, this, plug_L, plug_R]
              · cases h
            · cases h
        · cases h; simp [toList_setBlack]

theorem delete_case1_left_toList {x : Tree} {pk : Int} {ps : String} {pc : Color} {w : Tree}
    {rest : Path} {pc2 : Color} {w2 : Tree} {rest2 : Path}
    (h : delete_case1_left x pk ps pc w rest = some (pc2, w2, rest2)) (c : Color) :
    toList (zip (Tree.node x pk ps c w2) rest2) = toList (zip (Tree.node x pk ps pc w) rest) := by
  unfold delete_case1_left at h
  split at h
  · cases w <;> simp [Tree.setBlack, left_rotate] at h
    obtain ⟨rfl, rfl, rfl⟩ := h
    simp [toList_zip, toList, pathL, pathR]
  · simp at h
    obtain ⟨rfl, rfl, rfl⟩ := h
    simp [toList_zip, toList]

theorem delete_case1_right_toList {x : Tree} {pk : Int} {ps : String} {pc : Color} {w : Tree}
    {rest : Path} {pc2 : Color} {w2 : Tree} {rest2 : Path}
    (h : delete_case1_right x pk ps pc w rest = some (pc2, w2, rest2)) (c : Color) :
    toList (zip (Tree.node w2 pk ps c x) rest2) = toList (zip (Tree.node w pk ps pc x) rest) := by
  unfold delete_case1_right at h
  split at h
  · cases w <;> simp [Tree.setBlack, right_rotate] at h
    obtain ⟨rfl, rfl, rfl⟩ := h
    simp [toList_zip, toList, pathL, pathR]
  · simp at h
    obtain ⟨rfl, rfl, rfl⟩ := h
    simp [toList_zip, toList]

theorem delete_case3_left_toList {wl : Tree} {wk : Int} {ws : String} {wc : Color} {wr w3 : Tree}
    (h : delete_case3_left wl wk ws wc wr = some w3) :
    toList w3 = toList (Tree.node wl wk ws wc wr) := by
  unfold delete_case3_left at h
  split at h
  · rw [right_rotate_toList h]; simp [toList, toList_setBlack]
  · cases h; rfl

theorem delete_case3_right_toList {wl : Tree} {wk : Int} {ws : String} {wc : Color} {wr w3 : Tree}
    (h : delete_case3_right wl wk ws wc wr = some w3) :
    toList w3 = toList (Tree.node wl wk ws wc wr) := by
  unfold delete_case3_right at h
  split at h
  · rw [left_rotate_toList h]; simp [toList, toList_setBlack]
  · cases h; rfl

theorem delete_case4_left_toList {x : Tree} {pk : Int} {ps : String} {pc : Color} {w3 sub : Tree}
    (h : delete_case4_left x pk ps pc w3 = some sub) (c : Color) :
    toList sub = toList (Tree.node x pk ps c w3) := by
  cases w3 with
  | nil => simp [delete_case4_left] at h
  | node vl vk vs vc vr =>
    simp only [delete_case4_left] at h
    rw [left_rotate_toList h]; simp [toList, toList_setBlack]

theorem delete_case4_right_toList {x : Tree} {pk : Int} {ps : String} {pc : Color} {w3 sub : Tree}
    (h : delete_case4_right x pk ps pc w3 = some sub) (c : Color) :
    toList sub = toList (Tree.node w3 pk ps c x) := by
  cases w3 with
  | nil => simp [delete_case4_right] at h
  | node vl vk vs vc vr =>
    simp only [delete_case4_right] at h
    rw [right_rotate_toList h]; simp [toList, toList_setBlack]

theorem tree_delete_fixup_toList (fuel : Nat) (x : Tree) (up : Path) (t : Tree)
    (h : tree_delete_fixup fuel x up = some t) : toList t = toList (zip x up) := by
  induction fuel generalizing x up t with
  | zero => simp [tree_delete_fixup] at h
  | succ n ih =>
    rcases up with _ | ⟨p, rest⟩
    · simp only [tree_delete_fixup] at h
      cases h; simp [toList_setBlack, zip]
    · cases p with
      | L pk ps pc w =>
        simp only [tree_delete_fixup] at h
        split at h
        · split at h
          · rename_i pc2 wl wk ws wc wr rest2 h1
            have e1 := delete_case1_left_toList h1 pc2
            split at h
            · rw [ih _ _ _ h, zip, plug_L, ← e1]
              simp [toList_zip, toList]
            · split at h
              · rename_i w3 h3
                split at h
                · rename_i sub h4
                  rw [ih _ _ _ h, zip, zip, plug_L, ← e1]
                  apply toList_zip_congr
                  rw [delete_case4_left_toList h4 pc2]
                  simp [toList, delete_case3_left_toList h3]
                · cases h
              · cases h
          · cases h
        · cases h
          simp [zip, toList_zip, plug_L, toList, toList_setBlack]
      | R w pk ps pc =>
        simp only [tree_delete_fixup] at h
        split at h
        · split at h
          · rename_i pc2 wl wk ws wc wr rest2 h1
            have e1 := delete_case1_right_toList h1 pc2
            split at h
            · rw [ih _ _ _ h, zip, plug_R, ← e1]
              simp [toList_zip, toList]
            · split at h
              · rename_i w3 h3
                split at h
                · rename_i sub h4
                  rw [ih _ _ _ h, zip, zip, plug_R, ← e1]
                  apply toList_zip_congr
                  rw [delete_case4_right_toList h4 pc2]
                  simp [toList, delete_case3_right_toList h3]
                · cases h
              · cases h
          · cases h
        · cases h
          simp [zip, toList_zip, plug_R, toList, toList_setBlack]

/-! ## Red-black invariants -/

@[simp] theorem isRB_nil (n : Nat) : isRB Tree.nil n ↔ n = 0 := by simp [isRB]

@[simp] theorem isRB_red (l r : Tree) (k : Int) (s : String) (n : Nat) :
    isRB (Tree.node l k s RED r) n ↔ l.col = BLACK ∧ r.col = BLACK ∧ isRB l n ∧ isRB r n := by
  simp [isRB]

@[simp] theorem isRB_black_zero (l r : Tree) (k : Int) (s : String) :
    ¬ isRB (Tree.node l k s BLACK r) 0 := by simp [isRB]

@[simp] theorem isRB_black_succ (l r : Tree) (k : Int) (s : String) (n : Nat) :
    isRB (Tree.node l k s BLACK r) (n + 1) ↔ isRB l n ∧ isRB r n := by simp [isRB]

theorem isRB_black (l r : Tree) (k : Int) (s : String) (n : Nat) :
    isRB (Tree.node l k s BLACK r) n ↔ ∃ m, n = m + 1 ∧ isRB l m ∧ isRB r m := by
  cases n <;> simp

@[simp] theorem col_nil : Tree.nil.col = BLACK := rfl

@[simp] theorem col_node (l r : Tree) (k : Int) (s : String) (c : Color) :
    (Tree.node l k s c r).col = c := rfl

@[simp] theorem setBlack_node (l r : Tree) (k : Int) (s : String) (c : Color) :
    (Tree.node l k s c r).setBlack = Tree.node l k s BLACK r := rfl

@[simp] theorem setBlack_nil : Tree.nil.setBlack = Tree.nil := rfl

@[simp] theorem col_setBlack (x : Tree) : x.setBlack.col = BLACK := by cases x <;> rfl

theorem color_cases (c : Color) : c = RED ∨ c = BLACK := by cases c <;> simp

theorem not_red {c : Color} : ¬ c = RED ↔ c = BLACK := by cases c <;> simp

theorem not_black {c : Color} : ¬ c = BLACK ↔ c = RED := by cases c <;> simp

theorem setBlack_of_black {x : Tree} (h : x.col = BLACK) : x.setBlack = x := by
  cases x with
  | nil => rfl
  | node l k s c r => simp at h; subst h; rfl

theorem isRB_setBlack_red {x : Tree} {n : Nat} (hc : x.col = RED) (h : isRB x n) :
    isRB x.setBlack (n + 1) := by
  cases x with
  | nil => simp at hc
  | node l k s c r =>
    simp at hc; subst hc
    simp at h ⊢
    exact ⟨h.2.2.1, h.2.2.2⟩

theorem isRB_setBlack (x : Tree) (n : Nat) (h : isRB x n) : ∃ m, isRB x.setBlack m := by
  rcases color_cases x.col with hc | hc
  · exact ⟨n + 1, isRB_setBlack_red hc h⟩
  · exact ⟨n, by rw [setBlack_of_black hc]; exact h⟩

theorem RBRoot_zip {x : Tree} {up : Path} {n : Nat} (hp : pathRB up n) (hx : isRB x n)
    (hh : holeOK up x) : RBRoot (zip x up) := by
  induction up generalizing x n with
  | nil => exact ⟨hh, n, hx⟩
  | cons f up ih =>
    simp only [zip]
    cases f with
    | L k s c r =>
      cases c with
      | RED =>
        simp only [pathRB, Frame.sib, Frame.col, holeOK] at hp hh
        obtain ⟨h1, h2, h3, h4⟩ := hp
        refine ih h4 (by simp [plug_L, hh, h1, h2, hx]) ?_
        cases up with
        | nil => exact h3.elim
        | cons g up => simp only [holeOK]; intro hg; simp [parentBlack, hg] at h3
      | BLACK =>
        simp only [pathRB, Frame.sib, Frame.col] at hp
        refine ih hp.2 (by simp [plug_L, hp.1, hx]) ?_
        cases up <;> simp [holeOK, plug_L]
    | R l k s c =>
      cases c with
      | RED =>
        simp only [pathRB, Frame.sib, Frame.col, holeOK] at hp hh
        obtain ⟨h1, h2, h3, h4⟩ := hp
        refine ih h4 (by simp [plug_R, hh, h1, h2, hx]) ?_
        cases up with
        | nil => exact h3.elim
        | cons g up => simp only [holeOK]; intro hg; simp [parentBlack, hg] at h3
      | BLACK =>
        simp only [pathRB, Frame.sib, Frame.col] at hp
        refine ih hp.2 (by simp [plug_R, hp.1, hx]) ?_
        cases up <;> simp [holeOK, plug_R]

theorem pathRB_cons_red {f : Frame} (up : Path) (n : Nat) (h : f.col = RED) :
    pathRB (f :: up) n ↔ isRB f.sib n ∧ f.sib.col = BLACK ∧ parentBlack up ∧ pathRB up n := by
  simp only [pathRB, h]

theorem pathRB_cons_black {f : Frame} (up : Path) (n : Nat) (h : f.col = BLACK) :
    pathRB (f :: up) n ↔ isRB f.sib n ∧ pathRB up (n + 1) := by
  simp only [pathRB, h]

theorem tree_insert_fixup_RB (fuel : Nat) (z : Tree) (up : Path) (n : Nat)
    (hf : up.length + 1 ≤ fuel) (hc : z.col = RED) (hz : isRB z n) (hp : pathRB up n) :
    ∃ t, tree_insert_fixup fuel z up = some t ∧ RBRoot t := by
  induction fuel generalizing z up n with
  | zero => omega
  | succ fuel ih =>
    rcases up with _ | ⟨p, _ | ⟨g, rest⟩⟩
    · refine ⟨_, rfl, by simp, ?_⟩
      exact ⟨_, isRB_setBlack_red hc hz⟩
    · rcases color_cases p.col with hpc | hpc
      · simp [pathRB, hpc, parentBlack] at hp
      · have := RBRoot_zip hp hz (by simp [holeOK, hpc])
        refine ⟨_, by simp only [tree_insert_fixup, hpc]; rfl, ?_⟩
        rw [setBlack_of_black this.1]; exact this
    · rcases color_cases p.col with hpc | hpc
      · simp only [List.length_cons] at hf
        cases g with
        | L gk gs gc y =>
          rw [pathRB_cons_red _ _ hpc] at hp
          obtain ⟨hsib, hsibc, hgc, hrest⟩ := hp
          simp only [parentBlack, Frame.col] at hgc
          subst hgc
          simp only [pathRB, Frame.col, Frame.sib] at hrest
          obtain ⟨hy, hg⟩ := hrest
          rcases color_cases y.col with hyc | hyc
          · simp only [tree_insert_fixup, hpc, hyc, if_true]
            refine ih _ _ (n + 1) (by omega) rfl ?_ hg
            cases p <;> simp_all [Frame.setCol, plug_L, plug_R, Frame.col, Frame.sib] <;>
              exact isRB_setBlack_red hyc hy
          · cases p with
            | L pk ps pc pr =>
              simp only [Frame.col] at hpc; subst hpc
              simp only [tree_insert_fixup, hyc, insert_case2_left, insert_case3_left,
                Frame.setCol, plug_L, right_rotate, Frame.col]
              simp only [Frame.sib] at hsib hsibc
              refine ih _ _ n (by simp; omega) hc hz ?_
              simp [pathRB, Frame.sib, Frame.col, hsib, hsibc, hyc, hy, hg]
            | R pl pk ps pc =>
              simp only [Frame.col] at hpc; subst hpc
              cases z with
              | nil => simp at hc
              | node zl zk zs zc zr =>
                simp only [col_node] at hc; subst hc
                simp only [tree_insert_fixup, hyc, insert_case2_left, insert_case3_left,
                  Frame.setCol, plug_L, right_rotate, left_rotate, Frame.col]
                simp only [Frame.sib] at hsib hsibc
                simp only [isRB_red] at hz
                refine ih _ _ n (by simp; omega) rfl ?_ ?_
                · simp [hsib, hsibc, hz]
                · simp [pathRB, Frame.sib, Frame.col, hyc, hy, hg, hz]
        | R y gk gs gc =>
          rw [pathRB_cons_red _ _ hpc] at hp
          obtain ⟨hsib, hsibc, hgc, hrest⟩ := hp
          simp only [parentBlack, Frame.col] at hgc
          subst hgc
          simp only [pathRB, Frame.col, Frame.sib] at hrest
          obtain ⟨hy, hg⟩ := hrest
          rcases color_cases y.col with hyc | hyc
          · simp only [tree_insert_fixup, hpc, hyc, if_true]
            refine ih _ _ (n + 1) (by omega) rfl ?_ hg
            cases p <;> simp_all [Frame.setCol, plug_L, plug_R, Frame.col, Frame.sib] <;>
              exact isRB_setBlack_red hyc hy
          · cases p with
            | R pl pk ps pc =>
              simp only [Frame.col] at hpc; subst hpc
              simp only [tree_insert_fixup, hyc, insert_case2_right, insert_case3_right,
                Frame.setCol, plug_R, left_rotate, Frame.col]
              simp only [Frame.sib] at hsib hsibc
              refine ih _ _ n (by simp; omega) hc hz ?_
              simp [pathRB, Frame.sib, Frame.col, hsib, hsibc, hyc, hy, hg]
            | L pk ps pc pr =>
              simp only [Frame.col] at hpc; subst hpc
              cases z with
              | nil => simp at hc
              | node zl zk zs zc zr =>
                simp only [col_node] at hc; subst hc
                simp only [tree_insert_fixup, hyc, insert_case2_right, insert_case3_right,
                  Frame.setCol, plug_R, right_rotate, left_rotate, Frame.col]
                simp only [Frame.sib] at hsib hsibc
                simp only [isRB_red] at hz
                refine ih _ _ n (by simp; omega) rfl ?_ ?_
                · simp [hsib, hsibc, hz]
                · simp [pathRB, Frame.sib, Frame.col, hyc, hy, hg, hz]
      · have := RBRoot_zip hp hz (by simp [holeOK, hpc])
        cases g <;>
        · refine ⟨_, by simp only [tree_insert_fixup, hpc]; rfl, ?_⟩
          rw [setBlack_of_black this.1]; exact this

theorem delNeed_le (x : Tree) (up : Path) : delNeed x up ≤ up.length + 1 := by
  unfold delNeed
  split
  · omega
  · cases up with
    | nil => simp
    | cons f rest => simp only [List.length_cons]; split <;> omega

theorem holeOK_plug {f : Frame} {rest : Path} {n : Nat} (hp : pathRB (f :: rest) n) (x : Tree) :
    holeOK rest (f.plug x) := by
  have hcol : (f.plug x).col = f.col := by cases f <;> rfl
  rcases color_cases f.col with hc | hc
  · rw [pathRB_cons_red _ _ hc] at hp
    cases rest with
    | nil => exact hp.2.2.1.elim
    | cons g rest =>
      simp only [holeOK]
      intro hg
      have := hp.2.2.1
      simp [parentBlack, hg] at this
  · cases rest with
    | nil => simp [holeOK, hcol, hc]
    | cons g rest => simp [holeOK, hcol, hc]

theorem black_node_of_isRB_succ {w : Tree} {n : Nat} (hc : w.col = BLACK) (h : isRB w (n + 1)) :
    ∃ wl wk ws wr, w = Tree.node wl wk ws BLACK wr ∧ isRB wl n ∧ isRB wr n := by
  cases w with
  | nil => simp at h
  | node wl wk ws wc wr =>
    simp at hc; subst hc
    exact ⟨wl, wk, ws, wr, rfl, by simpa using h⟩

theorem red_node_of_col {w : Tree} (hc : w.col = RED) :
    ∃ wl wk ws wr, w = Tree.node wl wk ws RED wr := by
  cases w with
  | nil => simp at hc
  | node wl wk ws wc wr => simp at hc; subst hc; exact ⟨wl, wk, ws, wr, rfl⟩

theorem delete_fixup_stepL (fuel : Nat)
    (ih : ∀ (x : Tree) (up : Path) (n : Nat), delNeed x up ≤ fuel → delOK x n →
      pathRB up (n + 1) → ∃ t, tree_delete_fixup fuel x up = some t ∧ RBRoot t)
    (x : Tree) (pk : Int) (ps : String) (pc : Color) (w : Tree) (rest : Path) (n : Nat)
    (hxc : x.col = BLACK) (hx : isRB x n) (hwc : w.col = BLACK)
    (hp : pathRB (Frame.L pk ps pc w :: rest) (n + 1))
    (hf : delNeed x (Frame.L pk ps pc w :: rest) ≤ fuel + 1) :
    ∃ t, tree_delete_fixup (fuel + 1) x (Frame.L pk ps pc w :: rest) = some t ∧ RBRoot t := by
  have hole := holeOK_plug hp
  have hw : isRB w (n + 1) := hp.1
  obtain ⟨wl, wk, ws, wr, rfl, hwl, hwr⟩ := black_node_of_isRB_succ hwc hw
  have hneed : delNeed x (Frame.L pk ps pc (Tree.node wl wk ws BLACK wr) :: rest) =
      if pc = RED then 2 else rest.length + 2 := by
    simp [delNeed, hxc, Frame.col]
  rw [hneed] at hf
  have hf1 : 1 ≤ fuel := by
    split at hf <;> omega
  obtain ⟨fuel, rfl⟩ : ∃ k, fuel = k + 1 := ⟨fuel - 1, by omega⟩
  simp only [tree_delete_fixup, hxc, delete_case1_left, col_node, if_true]
  simp only [show ¬ (BLACK = RED) by decide, if_false]
  by_cases h2 : wl.col = BLACK ∧ wr.col = BLACK
  · simp only [h2, and_self, if_true]
    cases pc with
    | RED =>
      simp only [pathRB, Frame.col, Frame.sib] at hp
      refine ih _ _ n (by simp [delNeed]) ?_ hp.2.2.2
      simp [delOK, hx, h2, hwl, hwr]
    | BLACK =>
      simp only [pathRB, Frame.col, Frame.sib] at hp
      refine ih _ _ (n + 1) ?_ ?_ hp.2
      · have := delNeed_le (Tree.node x pk ps BLACK (Tree.node wl wk ws RED wr)) rest
        simp at hf
        omega
      · simp [delOK, hx, h2, hwl, hwr]
  · simp only [h2, if_false]
    have key : ∀ sub : Tree, sub.col = pc →
        (∀ m, (pc = BLACK → m = n + 2) → (pc = RED → m = n + 1) → isRB sub m) →
        ∃ t, tree_delete_fixup (fuel + 1) (zip sub rest) [] = some t ∧ RBRoot t := by
      intro sub hsc hsub
      have hz : RBRoot (zip sub rest) := by
        cases pc with
        | RED =>
          simp only [pathRB, Frame.col, Frame.sib] at hp
          refine RBRoot_zip hp.2.2.2 (hsub _ (by simp) (by simp)) ?_
          have := hole sub
          cases rest with
          | nil => simp [holeOK, plug_L] at this
          | cons g rest => simpa [holeOK, plug_L, hsc] using this
        | BLACK =>
          simp only [pathRB, Frame.col, Frame.sib] at hp
          refine RBRoot_zip hp.2 (hsub _ (by simp) (by simp)) ?_
          cases rest <;> simp [holeOK, hsc]
      exact ⟨_, rfl, by rw [setBlack_of_black hz.1]; exact hz⟩
    rcases color_cases wr.col with hwrc | hwrc
    · simp only [delete_case3_left, hwrc, show ¬ (RED = BLACK) by decide, if_false,
        delete_case4_left, left_rotate]
      refine key _ rfl ?_
      intro m hb hr
      cases pc with
      | RED => simp [hr, hx, hwl, hxc, isRB_setBlack_red hwrc hwr]
      | BLACK => simp [hb, hx, hwl, isRB_setBlack_red hwrc hwr]
    · have hwlc : wl.col = RED := by
        rcases color_cases wl.col with h | h
        · exact h
        · exact absurd ⟨h, hwrc⟩ h2
      obtain ⟨a, k, s, b, rfl⟩ := red_node_of_col hwlc
      simp only [isRB_red] at hwl
      simp only [delete_case3_left, hwrc, if_true, setBlack_node, right_rotate,
        delete_case4_left, left_rotate]
      refine key _ rfl ?_
      intro m hb hr
      cases pc with
      | RED => simp [hr, hx, hwl, hxc, hwr]
      | BLACK => simp [hb, hx, hwl, hwr]

theorem delete_fixup_stepR (fuel : Nat)
    (ih : ∀ (x : Tree) (up : Path) (n : Nat), delNeed x up ≤ fuel → delOK x n →
      pathRB up (n + 1) → ∃ t, tree_delete_fixup fuel x up = some t ∧ RBRoot t)
    (x : Tree) (pk : Int) (ps : String) (pc : Color) (w : Tree) (rest : Path) (n : Nat)
    (hxc : x.col = BLACK) (hx : isRB x n) (hwc : w.col = BLACK)
    (hp : pathRB (Frame.R w pk ps pc :: rest) (n + 1))
    (hf : delNeed x (Frame.R w pk ps pc :: rest) ≤ fuel + 1) :
    ∃ t, tree_delete_fixup (fuel + 1) x (Frame.R w pk ps pc :: rest) = some t ∧ RBRoot t := by
  have hole := holeOK_plug hp
  have hw : isRB w (n + 1) := hp.1
  obtain ⟨wl, wk, ws, wr, rfl, hwl, hwr⟩ := black_node_of_isRB_succ hwc hw
  have hneed : delNeed x (Frame.R (Tree.node wl wk ws BLACK wr) pk ps pc :: rest) =
      if pc = RED then 2 else rest.length + 2 := by
    simp [delNeed, hxc, Frame.col]
  rw [hneed] at hf
  have hf1 : 1 ≤ fuel := by
    split at hf <;> omega
  obtain ⟨fuel, rfl⟩ : ∃ k, fuel = k + 1 := ⟨fuel - 1, by omega⟩
  simp only [tree_delete_fixup, hxc, delete_case1_right, col_node, if_true]
  simp only [show ¬ (BLACK = RED) by decide, if_false]
  by_cases h2 : wr.col = BLACK ∧ wl.col = BLACK
  · simp only [h2, and_self, if_true]
    cases pc with
    | RED =>
      simp only [pathRB, Frame.col, Frame.sib] at hp
      refine ih _ _ n (by simp [delNeed]) ?_ hp.2.2.2
      simp [delOK, hx, h2, hwl, hwr]
    | BLACK =>
      simp only [pathRB, Frame.col, Frame.sib] at hp
      refine ih _ _ (n + 1) ?_ ?_ hp.2
      · have := delNeed_le (Tree.node (Tree.node wl wk ws RED wr) pk ps BLACK x) rest
        simp at hf
        omega
      · simp [delOK, hx, h2, hwl, hwr]
  · simp only [h2, if_false]
    have key : ∀ sub : Tree, sub.col = pc →
        (∀ m, (pc = BLACK → m = n + 2) → (pc = RED → m = n + 1) → isRB sub m) →
        ∃ t, tree_delete_fixup (fuel + 1) (zip sub rest) [] = some t ∧ RBRoot t := by
      intro sub hsc hsub
      have hz : RBRoot (zip sub rest) := by
        cases pc with
        | RED =>
          simp only [pathRB, Frame.col, Frame.sib] at hp
          refine RBRoot_zip hp.2.2.2 (hsub _ (by simp) (by simp)) ?_
          have := hole sub
          cases rest with
          | nil => simp [holeOK, plug_R] at this
          | cons g rest => simpa [holeOK, plug_R, hsc] using this
        | BLACK =>
          simp only [pathRB, Frame.col, Frame.sib] at hp
          refine RBRoot_zip hp.2 (hsub _ (by simp) (by simp)) ?_
          cases rest <;> simp [holeOK, hsc]
      exact ⟨_, rfl, by rw [setBlack_of_black hz.1]; exact hz⟩
    rcases color_cases wl.col with hwlc | hwlc
    · simp only [delete_case3_right, hwlc, show ¬ (RED = BLACK) by decide, if_false,
        delete_case4_right, right_rotate]
      refine key _ rfl ?_
      intro m hb hr
      cases pc with
      | RED => simp [hr, hx, hwr, hxc, isRB_setBlack_red hwlc hwl]
      | BLACK => simp [hb, hx, hwr, isRB_setBlack_red hwlc hwl]
    · have hwrc : wr.col = RED := by
        rcases color_cases wr.col with h | h
        · exact h
        · exact absurd ⟨h, hwlc⟩ h2
      obtain ⟨a, k, s, b, rfl⟩ := red_node_of_col hwrc
      simp only [isRB_red] at hwr
      simp only [delete_case3_right, hwlc, if_true, setBlack_node, right_rotate,
        delete_case4_right, left_rotate]
      refine key _ rfl ?_
      intro m hb hr
      cases pc with
      | RED => simp [hr, hx, hwl, hxc, hwr]
      | BLACK => simp [hb, hx, hwl, hwr]

theorem tree_delete_fixup_RB_need (fuel : Nat) (x : Tree) (up : Path) (n : Nat)
    (hf : delNeed x up ≤ fuel) (hx : delOK x n) (hp : pathRB up (n + 1)) :
    ∃ t, tree_delete_fixup fuel x up = some t ∧ RBRoot t := by
  induction fuel generalizing x up n with
  | zero =>
    exfalso
    unfold delNeed at hf
    split at hf
    · omega
    · cases up with
      | nil => simp at hf
      | cons f rest => simp only at hf; split at hf <;> omega
  | succ fuel ih =>
    rcases up with _ | ⟨f, rest⟩
    · refine ⟨_, rfl, col_setBlack _, ?_⟩
      rcases color_cases x.col with hxc | hxc
      · exact ⟨_, hx.1 hxc⟩
      · exact ⟨n, by rw [setBlack_of_black hxc]; exact hx.2 hxc⟩
    · rcases color_cases x.col with hxc | hxc
      · have := RBRoot_zip hp (hx.1 hxc) (by cases f <;> simp [holeOK])
        cases f <;>
        · refine ⟨_, ?_, this⟩
          simp [tree_delete_fixup, hxc]
      · have hx1 := hx.2 hxc
        cases f with
        | L pk ps pc w =>
          rcases color_cases w.col with hwc | hwc
          · obtain ⟨wl, wk, ws, wr, rfl⟩ := red_node_of_col hwc
            have hpc : pc = BLACK := by
              rcases color_cases pc with h | h
              · subst h; simp [pathRB, Frame.col, Frame.sib] at hp
              · exact h
            subst hpc
            simp only [pathRB, Frame.col, Frame.sib, isRB_red] at hp
            obtain ⟨⟨hwlc, hwrc, hwl, hwr⟩, hrest⟩ := hp
            have e : tree_delete_fixup (fuel + 1) x
                (Frame.L pk ps BLACK (Tree.node wl wk ws RED wr) :: rest) =
                tree_delete_fixup (fuel + 1) x
                  (Frame.L pk ps RED wl :: Frame.L wk ws BLACK wr :: rest) := by
              simp [tree_delete_fixup, delete_case1_left, hxc, left_rotate, hwlc]
            rw [e]
            refine delete_fixup_stepL fuel ih x pk ps RED wl _ n hxc hx1 hwlc ?_ ?_
            · simp [pathRB, Frame.col, Frame.sib, hwl, hwlc, hwr, hrest, parentBlack]
            · simp only [delNeed, hxc, Frame.col] at hf ⊢
              simp at hf ⊢
              omega
          · exact delete_fixup_stepL fuel ih x pk ps pc w rest n hxc hx1 hwc hp hf
        | R w pk ps pc =>
          rcases color_cases w.col with hwc | hwc
          · obtain ⟨wl, wk, ws, wr, rfl⟩ := red_node_of_col hwc
            have hpc : pc = BLACK := by
              rcases color_cases pc with h | h
              · subst h; simp [pathRB, Frame.col, Frame.sib] at hp
              · exact h
            subst hpc
            simp only [pathRB, Frame.col, Frame.sib, isRB_red] at hp
            obtain ⟨⟨hwlc, hwrc, hwl, hwr⟩, hrest⟩ := hp
            have e : tree_delete_fixup (fuel + 1) x
                (Frame.R (Tree.node wl wk ws RED wr) pk ps BLACK :: rest) =
                tree_delete_fixup (fuel + 1) x
                  (Frame.R wr pk ps RED :: Frame.R wl wk ws BLACK :: rest) := by
              simp [tree_delete_fixup, delete_case1_right, hxc, right_rotate, hwrc]
            rw [e]
            refine delete_fixup_stepR fuel ih x pk ps RED wr _ n hxc hx1 hwrc ?_ ?_
            · simp [pathRB, Frame.col, Frame.sib, hwl, hwrc, hwr, hrest, parentBlack]
            · simp only [delNeed, hxc, Frame.col] at hf ⊢
              simp at hf ⊢
              omega
          · exact delete_fixup_stepR fuel ih x pk ps pc w rest n hxc hx1 hwc hp hf

theorem tree_delete_fixup_RB (x : Tree) (up : Path) (n : Nat)
    (hx : delOK x n) (hp : pathRB up (n + 1)) :
    ∃ t, tree_delete_fixup (up.length + 1) x up = some t ∧ RBRoot t :=
  tree_delete_fixup_RB_need _ x up n (delNeed_le x up) hx hp

/-! ## Locations, search and descent -/

theorem LocOK_root {t : Tree} (h : RBRoot t) : LocOK t [] := by
  obtain ⟨hc, n, hn⟩ := h
  exact ⟨n, hn, trivial, hc⟩

theorem LocOK_zip {x : Tree} {up : Path} (h : LocOK x up) : RBRoot (zip x up) := by
  obtain ⟨n, h1, h2, h3⟩ := h
  exact RBRoot_zip h2 h1 h3

theorem parentBlack_of_holeOK_red {up : Path} {l r : Tree} {k : Int} {s : String}
    (h : holeOK up (Tree.node l k s RED r)) : parentBlack up := by
  cases up with
  | nil => simp [holeOK] at h
  | cons f up =>
    simp only [holeOK, col_node] at h
    rcases color_cases f.col with hc | hc
    · exact absurd (h hc) (by decide)
    · exact hc

theorem LocOK_left {l r : Tree} {k : Int} {s : String} {c : Color} {up : Path}
    (h : LocOK (Tree.node l k s c r) up) : LocOK l (Frame.L k s c r :: up) := by
  obtain ⟨n, h1, h2, h3⟩ := h
  cases c with
  | RED =>
    simp only [isRB_red] at h1
    exact ⟨n, h1.2.2.1, by
      simp [pathRB, Frame.sib, Frame.col, h1, h2, parentBlack_of_holeOK_red h3],
      by simp [holeOK, h1.1]⟩
  | BLACK =>
    obtain ⟨m, rfl, hl, hr⟩ := (isRB_black _ _ _ _ _).1 h1
    exact ⟨m, hl, by simp [pathRB, Frame.sib, Frame.col, hr, h2], by simp [holeOK, Frame.col]⟩

theorem LocOK_right {l r : Tree} {k : Int} {s : String} {c : Color} {up : Path}
    (h : LocOK (Tree.node l k s c r) up) : LocOK r (Frame.R l k s c :: up) := by
  obtain ⟨n, h1, h2, h3⟩ := h
  cases c with
  | RED =>
    simp only [isRB_red] at h1
    exact ⟨n, h1.2.2.2, by
      simp [pathRB, Frame.sib, Frame.col, h1, h2, parentBlack_of_holeOK_red h3],
      by simp [holeOK, h1.2.1]⟩
  | BLACK =>
    obtain ⟨m, rfl, hl, hr⟩ := (isRB_black _ _ _ _ _).1 h1
    exact ⟨m, hr, by simp [pathRB, Frame.sib, Frame.col, hl, h2], by simp [holeOK, Frame.col]⟩

theorem tree_search_loop_some {key : Int} {x : Tree} {up : Path} {y : Loc}
    (h : tree_search_loop key x up = some y) :
    (∃ l s c r, y.here = Tree.node l key s c r) ∧ zip y.here y.up = zip x up ∧
      (LocOK x up → LocOK y.here y.up) := by
  induction x generalizing up with
  | nil => simp [tree_search_loop] at h
  | node l k s c r ihl ihr =>
    simp only [tree_search_loop] at h
    split at h
    · cases h
      have : key = k := by omega
      subst this
      exact ⟨⟨l, s, c, r, rfl⟩, rfl, id⟩
    · split at h
      · obtain ⟨h1, h2, h3⟩ := ihl h
        exact ⟨h1, by rw [h2]; rfl, fun hx => h3 (LocOK_left hx)⟩
      · obtain ⟨h1, h2, h3⟩ := ihr h
        exact ⟨h1, by rw [h2]; rfl, fun hx => h3 (LocOK_right hx)⟩

theorem SortedK_append {A B : List (Int × String)} :
    SortedK (A ++ B) ↔ SortedK A ∧ SortedK B ∧ ∀ a ∈ A, ∀ b ∈ B, a.1 < b.1 := by
  simp only [SortedK, List.pairwise_append]

theorem SortedK_cons {a : Int × String} {B : List (Int × String)} :
    SortedK (a :: B) ↔ (∀ b ∈ B, a.1 < b.1) ∧ SortedK B := by
  simp only [SortedK, List.pairwise_cons]

theorem SortedK_node {l r : Tree} {k : Int} {s : String} {c : Color}
    (h : SortedK (toList (Tree.node l k s c r))) :
    SortedK (toList l) ∧ SortedK (toList r) ∧ (∀ p ∈ toList l, p.1 < k) ∧
      (∀ p ∈ toList r, k < p.1) := by
  simp only [toList, SortedK_append, SortedK_cons] at h
  obtain ⟨h1, ⟨h2, h3⟩, h4⟩ := h
  exact ⟨h1, h3, fun p hp => h4 p hp (k, s) (by simp), h2⟩

theorem tree_search_loop_none {key : Int} {x : Tree} {up : Path}
    (hs : SortedK (toList x)) (h : tree_search_loop key x up = none) :
    ∀ p ∈ toList x, p.1 ≠ key := by
  induction x generalizing up with
  | nil => simp [toList]
  | node l k s c r ihl ihr =>
    obtain ⟨hl, hr, hlk, hrk⟩ := SortedK_node hs
    simp only [tree_search_loop] at h
    split at h
    · cases h
    · rename_i hne
      split at h
      · rename_i hlt
        intro p hp
        simp only [toList, List.mem_append, List.mem_cons] at hp
        rcases hp with hp | rfl | hp
        · exact ihl hl h p hp
        · simp; omega
        · have := hrk p hp; omega
      · rename_i hlt
        intro p hp
        simp only [toList, List.mem_append, List.mem_cons] at hp
        rcases hp with hp | rfl | hp
        · have := hlk p hp; omega
        · simp; omega
        · exact ihr hr h p hp

theorem insert_descend_spec (key : Int) (x : Tree) (up : Path)
    (hs : SortedK (toList x)) (hk : ∀ p ∈ toList x, p.1 ≠ key) :
    ∃ A B, toList x = A ++ B ∧ (∀ p ∈ A, p.1 < key) ∧ (∀ p ∈ B, key < p.1) ∧
      pathL (insert_descend key x up) = pathL up ++ A ∧
      pathR (insert_descend key x up) = B ++ pathR up := by
  induction x generalizing up with
  | nil => exact ⟨[], [], by simp [toList, insert_descend]⟩
  | node l k s c r ihl ihr =>
    obtain ⟨hl, hr, hlk, hrk⟩ := SortedK_node hs
    have hkk : k ≠ key := hk (k, s) (by simp [toList])
    simp only [insert_descend]
    split
    · rename_i hlt
      obtain ⟨A, B, e, hA, hB, eL, eR⟩ := ihl (Frame.L k s c r :: up) hl
        (fun p hp => hk p (by simp [toList, hp]))
      refine ⟨A, B ++ (k, s) :: toList r, by simp [toList, e], hA, ?_, ?_, ?_⟩
      · intro p hp
        simp only [List.mem_append, List.mem_cons] at hp
        rcases hp with hp | rfl | hp
        · exact hB p hp
        · exact hlt
        · have := hrk p hp; omega
      · rw [eL]; rfl
      · rw [eR]; simp [pathR]
    · rename_i hlt
      obtain ⟨A, B, e, hA, hB, eL, eR⟩ := ihr (Frame.R l k s c :: up) hr
        (fun p hp => hk p (by simp [toList, hp]))
      refine ⟨toList l ++ (k, s) :: A, B, by simp [toList, e], ?_, hB, ?_, ?_⟩
      · intro p hp
        simp only [List.mem_append, List.mem_cons] at hp
        rcases hp with hp | rfl | hp
        · have := hlk p hp; omega
        · simp; omega
        · exact hA p hp
      · rw [eL]; simp [pathL]
      · rw [eR]; rfl

theorem insert_descend_RB (key : Int) (x : Tree) (up : Path) (h : LocOK x up) :
    pathRB (insert_descend key x up) 0 := by
  induction x generalizing up with
  | nil =>
    obtain ⟨n, h1, h2, _⟩ := h
    simp only [isRB_nil] at h1
    subst h1
    exact h2
  | node l k s c r ihl ihr =>
    simp only [insert_descend]
    split
    · exact ihl _ (LocOK_left h)
    · exact ihr _ (LocOK_right h)

theorem insert_descend_length (key : Int) (x : Tree) (up : Path) :
    up.length ≤ (insert_descend key x up).length := by
  induction x generalizing up with
  | nil => simp [insert_descend]
  | node l k s c r ihl ihr =>
    simp only [insert_descend]
    split
    · exact le_trans (by simp) (ihl _)
    · exact le_trans (by simp) (ihr _)

/-! ## The document as a list of lines -/

theorem Doc.upsert_new {A B : Doc} {k : Int} (s : String) (hA : ∀ p ∈ A, p.1 < k)
    (hB : ∀ p ∈ B, k < p.1) : Doc.upsert k s (A ++ B) = A ++ (k, s) :: B := by
  induction A with
  | nil =>
    cases B with
    | nil => rfl
    | cons b B =>
      have := hB b (by simp)
      obtain ⟨j, v⟩ := b
      simp only [List.nil_append, Doc.upsert]
      simp at this
      simp [this]
  | cons a A ih =>
    have h1 := hA a (by simp)
    obtain ⟨j, v⟩ := a
    simp at h1
    have h2 : ¬ k < j := by omega
    have h3 : ¬ k = j := by omega
    have e := ih (fun p hp => hA p (by simp [hp]))
    simp only [List.cons_append, Doc.upsert, h2, h3, if_false]
    exact congrArg (List.cons (j, v)) e

theorem Doc.upsert_old {A B : Doc} {k : Int} (s s0 : String) (hA : ∀ p ∈ A, p.1 < k) :
    Doc.upsert k s (A ++ (k, s0) :: B) = A ++ (k, s) :: B := by
  induction A with
  | nil => simp [Doc.upsert]
  | cons a A ih =>
    have h1 := hA a (by simp)
    obtain ⟨j, v⟩ := a
    simp at h1
    have h2 : ¬ k < j := by omega
    have h3 : ¬ k = j := by omega
    have e := ih (fun p hp => hA p (by simp [hp]))
    simp only [List.cons_append, Doc.upsert, h2, h3, if_false]
    exact congrArg (List.cons (j, v)) e

theorem Doc.remove_split {A B : Doc} {k : Int} (s0 : String) (hA : ∀ p ∈ A, p.1 ≠ k)
    (hB : ∀ p ∈ B, p.1 ≠ k) : Doc.remove k (A ++ (k, s0) :: B) = A ++ B := by
  simp only [Doc.remove, List.filter_append, List.filter_cons]
  simp only [ne_eq, not_true_eq_false, decide_False, Bool.false_eq_true, if_false]
  congr 1
  · exact List.filter_eq_self.2 (fun p hp => by simpa using hA p hp)
  · exact List.filter_eq_self.2 (fun p hp => by simpa using hB p hp)

theorem Doc.remove_absent {D : Doc} {k : Int} (h : ∀ p ∈ D, p.1 ≠ k) : Doc.remove k D = D :=
  List.filter_eq_self.2 (fun p hp => by simpa using h p hp)

theorem Doc.split_of_mem {D : Doc} {k : Int} {s0 : String} (hs : SortedK D)
    (hm : (k, s0) ∈ D) :
    ∃ A B, D = A ++ (k, s0) :: B ∧ (∀ p ∈ A, p.1 < k) ∧ (∀ p ∈ B, k < p.1) := by
  obtain ⟨A, B, rfl⟩ := List.append_of_mem hm
  rw [SortedK_append, SortedK_cons] at hs
  exact ⟨A, B, rfl, fun p hp => hs.2.2 p hp (k, s0) (by simp), hs.2.1.1⟩

theorem Doc.split_of_not_mem (D : Doc) (k : Int) (hs : SortedK D) (hk : ∀ p ∈ D, p.1 ≠ k) :
    ∃ A B, D = A ++ B ∧ (∀ p ∈ A, p.1 < k) ∧ (∀ p ∈ B, k < p.1) := by
  induction D with
  | nil => exact ⟨[], [], rfl, by simp, by simp⟩
  | cons a D ih =>
    rw [SortedK_cons] at hs
    by_cases h : a.1 < k
    · obtain ⟨A, B, e, hA, hB⟩ := ih hs.2 (fun p hp => hk p (by simp [hp]))
      refine ⟨a :: A, B, by simp [e], ?_, hB⟩
      intro p hp
      simp only [List.mem_cons] at hp
      rcases hp with rfl | hp
      · exact h
      · exact hA p hp
    · have hne := hk a (by simp)
      refine ⟨[], a :: D, rfl, by simp, ?_⟩
      intro p hp
      simp only [List.mem_cons] at hp
      rcases hp with rfl | hp
      · omega
      · have := hs.1 p hp; omega

theorem Doc.mem_or_not (D : Doc) (k : Int) : (∃ s0, (k, s0) ∈ D) ∨ ∀ p ∈ D, p.1 ≠ k := by
  by_cases h : ∃ s0, (k, s0) ∈ D
  · exact Or.inl h
  · refine Or.inr (fun p hp e => h ⟨p.2, ?_⟩)
    subst e
    exact hp

theorem Doc.upsert_sorted {D : Doc} (k : Int) (s : String) (hs : SortedK D) :
    SortedK (Doc.upsert k s D) := by
  rcases Doc.mem_or_not D k with ⟨s0, hm⟩ | hk
  · obtain ⟨A, B, rfl, hA, hB⟩ := Doc.split_of_mem hs hm
    rw [Doc.upsert_old s s0 hA]
    rw [SortedK_append, SortedK_cons] at hs ⊢
    refine ⟨hs.1, ⟨hB, hs.2.1.2⟩, fun a ha b hb => ?_⟩
    simp only [List.mem_cons] at hb
    rcases hb with rfl | hb
    · exact hA a ha
    · exact hs.2.2 a ha b (by simp [hb])
  · obtain ⟨A, B, rfl, hA, hB⟩ := Doc.split_of_not_mem D k hs hk
    rw [Doc.upsert_new s hA hB]
    rw [SortedK_append] at hs
    rw [SortedK_append, SortedK_cons]
    refine ⟨hs.1, ⟨hB, hs.2.1⟩, fun a ha b hb => ?_⟩
    simp only [List.mem_cons] at hb
    rcases hb with rfl | hb
    · exact hA a ha
    · exact hs.2.2 a ha b hb

theorem Doc.remove_sorted {D : Doc} (k : Int) (hs : SortedK D) : SortedK (Doc.remove k D) :=
  List.Pairwise.filter _ hs

theorem Doc.upsert_remove {D : Doc} (k : Int) (s : String) (hs : SortedK D) :
    Doc.upsert k s (Doc.remove k D) = Doc.upsert k s D := by
  rcases Doc.mem_or_not D k with ⟨s0, hm⟩ | hk
  · obtain ⟨A, B, rfl, hA, hB⟩ := Doc.split_of_mem hs hm
    rw [Doc.remove_split s0 (fun p hp => by have := hA p hp; omega)
      (fun p hp => by have := hB p hp; omega), Doc.upsert_new s hA hB, Doc.upsert_old s s0 hA]
  · rw [Doc.remove_absent hk]

theorem Doc.remove_upsert {D : Doc} (k : Int) (s : String) (hs : SortedK D) :
    Doc.remove k (Doc.upsert k s D) = Doc.remove k D := by
  rcases Doc.mem_or_not D k with ⟨s0, hm⟩ | hk
  · obtain ⟨A, B, rfl, hA, hB⟩ := Doc.split_of_mem hs hm
    have h1 : ∀ p ∈ A, p.1 ≠ k := fun p hp => by have := hA p hp; omega
    have h2 : ∀ p ∈ B, p.1 ≠ k := fun p hp => by have := hB p hp; omega
    rw [Doc.upsert_old s s0 hA, Doc.remove_split s h1 h2, Doc.remove_split s0 h1 h2]
  · obtain ⟨A, B, rfl, hA, hB⟩ := Doc.split_of_not_mem D k hs hk
    have h1 : ∀ p ∈ A, p.1 ≠ k := fun p hp => by have := hA p hp; omega
    have h2 : ∀ p ∈ B, p.1 ≠ k := fun p hp => by have := hB p hp; omega
    rw [Doc.upsert_new s hA hB, Doc.remove_split s h1 h2, Doc.remove_absent hk]

theorem Doc.upsert_same {D : Doc} {k : Int} {s0 : String} (hs : SortedK D)
    (hm : (k, s0) ∈ D) : Doc.upsert k s0 D = D := by
  obtain ⟨A, B, rfl, hA, hB⟩ := Doc.split_of_mem hs hm
  rw [Doc.upsert_old s0 s0 hA]

theorem Doc.upsert_remove_same {D : Doc} {k : Int} {s0 : String} (hs : SortedK D)
    (hm : (k, s0) ∈ D) : Doc.upsert k s0 (Doc.remove k D) = D := by
  rw [Doc.upsert_remove k s0 hs, Doc.upsert_same hs hm]

/-! ## The tree operations on well-formed trees -/

theorem tree_search_found {t : tree_t} {key : Int} {y : Loc} (ht : TreeOK t)
    (h : tree_search t key = some y) :
    ∃ l s0 c r, y.here = Tree.node l key s0 c r ∧ LocOK y.here y.up ∧
      toList t.root = (pathL y.up ++ toList l) ++ (key, s0) :: (toList r ++ pathR y.up) ∧
      (∀ p ∈ pathL y.up ++ toList l, p.1 < key) ∧
      (∀ p ∈ toList r ++ pathR y.up, key < p.1) := by
  obtain ⟨⟨l, s0, c, r, e⟩, hz, hl⟩ := tree_search_loop_some h
  have hD : toList t.root = (pathL y.up ++ toList l) ++ (key, s0) :: (toList r ++ pathR y.up) := by
    have := congrArg toList hz
    rw [toList_zip, e] at this
    simp only [zip] at this
    rw [← this]
    simp [toList]
  have hs := ht.sorted
  rw [hD, SortedK_append, SortedK_cons] at hs
  exact ⟨l, s0, c, r, e, hl (LocOK_root ht.rb), hD,
    fun p hp => hs.2.2 p hp (key, s0) (by simp), hs.2.1.1⟩

theorem tree_search_none {t : tree_t} {key : Int} (ht : TreeOK t)
    (h : tree_search t key = none) : ∀ p ∈ toList t.root, p.1 ≠ key :=
  tree_search_loop_none ht.sorted h

theorem tree_search_mem {t : tree_t} {key : Int} {y : Loc} (ht : TreeOK t)
    (h : tree_search t key = some y) :
    ∃ l s0 c r, y.here = Tree.node l key s0 c r ∧ (key, s0) ∈ toList t.root := by
  obtain ⟨l, s0, c, r, e, _, hD, _, _⟩ := tree_search_found ht h
  exact ⟨l, s0, c, r, e, by rw [hD]; simp⟩

theorem LocOK_retag {l r : Tree} {k k2 : Int} {s s2 : String} {c : Color} {up : Path}
    (h : LocOK (Tree.node l k s c r) up) : LocOK (Tree.node l k2 s2 c r) up := by
  obtain ⟨n, h1, h2, h3⟩ := h
  refine ⟨n, ?_, h2, ?_⟩
  · cases c with
    | RED => simpa using h1
    | BLACK => rw [isRB_black] at h1 ⊢; exact h1
  · cases up with
    | nil => simpa [holeOK] using h3
    | cons f up => simpa [holeOK] using h3

theorem overwrite_spec {t : tree_t} {key : Int} {y : Loc} (s : String) (ht : TreeOK t)
    (h : tree_search t key = some y) :
    ∃ t1, overwrite t y key s = some t1 ∧ TreeOK t1 ∧
      toList t1.root = Doc.upsert key s (toList t.root) := by
  obtain ⟨l, s0, c, r, e, hloc, hD, hA, hB⟩ := tree_search_found ht h
  have hlist : toList (zip (Tree.node l key s c r) y.up) = Doc.upsert key s (toList t.root) := by
    rw [hD, Doc.upsert_old s s0 hA, toList_zip]
    simp [toList]
  refine ⟨⟨zip (Tree.node l key s c r) y.up, t.number_of_keys⟩, by simp [overwrite, e], ?_, hlist⟩
  rw [e] at hloc
  refine ⟨LocOK_zip (LocOK_retag hloc), ?_, ?_⟩
  · simp only [hlist]; exact Doc.upsert_sorted key s ht.sorted
  · simp only [hlist]
    rw [ht.count, hD, Doc.upsert_old s s0 hA]
    simp

theorem insert_new_spec {t : tree_t} {key : Int} (s : String) (ht : TreeOK t)
    (h : tree_search t key = none) :
    ∃ t1, insert_new t key s = some t1 ∧ TreeOK t1 ∧
      toList t1.root = Doc.upsert key s (toList t.root) ∧
      t1.number_of_keys = t.number_of_keys + 1 := by
  have hk := tree_search_none ht h
  obtain ⟨A, B, e, hA, hB, eL, eR⟩ := insert_descend_spec key t.root [] ht.sorted hk
  obtain ⟨root, hfix, hrb⟩ := tree_insert_fixup_RB ((insert_descend key t.root []).length + 1)
    (make_tree_node key s) (insert_descend key t.root []) 0 (le_refl _) rfl
    (by simp [make_tree_node]) (insert_descend_RB key t.root [] (LocOK_root ht.rb))
  have hlist : toList root = Doc.upsert key s (toList t.root) := by
    rw [tree_insert_fixup_toList _ _ _ _ hfix, toList_zip, eL, eR, e, Doc.upsert_new s hA hB]
    simp [make_tree_node, toList, pathL, pathR]
  refine ⟨⟨root, t.number_of_keys + 1⟩, by simp [insert_new, hfix], ⟨hrb, ?_, ?_⟩, hlist, rfl⟩
  · simp only [hlist]; exact Doc.upsert_sorted key s ht.sorted
  · simp only [hlist]
    rw [ht.count, e, Doc.upsert_new s hA hB]
    simp
    omega

theorem tree_insert_from_do_spec {t : tree_t} (key : Int) (s : String) (ht : TreeOK t)
    (hkey : key ≠ -1) :
    ∃ t1, tree_insert_from_do t key s = some t1 ∧ TreeOK t1 ∧
      toList t1.root = Doc.upsert key s (toList t.root) := by
  simp only [tree_insert_from_do, hkey, if_false]
  cases h : tree_search t key with
  | some y => exact overwrite_spec s ht h
  | none =>
    obtain ⟨t1, h1, h2, h3, _⟩ := insert_new_spec s ht h
    exact ⟨t1, h1, h2, h3⟩

/-! ### Deletion -/

theorem set_ancestor_append (k2 : Int) (s2 : String) (rel : Path) (k : Int) (s : String)
    (c : Color) (r : Tree) (up : Path) :
    set_ancestor k2 s2 rel.length (rel ++ Frame.L k s c r :: up) =
      rel ++ Frame.L k2 s2 c r :: up := by
  induction rel with
  | nil => rfl
  | cons f rel ih =>
    simp only [List.length_cons, List.cons_append, set_ancestor]
    exact congrArg (List.cons f) ih

theorem tree_maximum_spec (t : Tree) (ht : t.isNil = false) :
    ∃ dl dk ds dc rel relL,
      (∀ base, tree_maximum t base = some ⟨Tree.node dl dk ds dc Tree.nil, rel ++ base⟩) ∧
      (∀ base, pathR (rel ++ base) = pathR base) ∧
      (∀ base, pathL (rel ++ base) = pathL base ++ relL) ∧
      toList t = relL ++ toList dl ++ [(dk, ds)] ∧
      (∀ base, LocOK t base → LocOK (Tree.node dl dk ds dc Tree.nil) (rel ++ base)) := by
  induction t with
  | nil => simp [Tree.isNil] at ht
  | node l k s c r _ ihr =>
    cases r with
    | nil =>
      exact ⟨l, k, s, c, [], [], fun base => rfl, fun base => rfl, fun base => by simp,
        by simp [toList], fun base h => h⟩
    | node rl rk rs rc rr =>
      obtain ⟨dl, dk, ds, dc, rel, relL, h1, h2, h3, h4, h6⟩ := ihr rfl
      refine ⟨dl, dk, ds, dc, rel ++ [Frame.R l k s c], toList l ++ (k, s) :: relL,
        ?_, ?_, ?_, ?_, ?_⟩
      · intro base
        simp only [tree_maximum, h1, List.append_assoc, List.singleton_append]
      · intro base
        simp only [List.append_assoc, List.singleton_append, h2, pathR]
      · intro base
        simp only [List.append_assoc, List.singleton_append, h3, pathL]
      · simp only [toList] at h4 ⊢
        rw [h4]; simp
      · intro base h
        have := h6 _ (LocOK_right h)
        simpa using this

/-- The splice of `tree_delete`: the node `to_del`, which has a sentinel child, is replaced by
its other child `subt`, and the fix-up runs when `to_del` was black. -/
theorem splice_spec (dl : Tree) (dk : Int) (ds : String) (dc : Color) (dr : Tree) (dup : Path)
    (hnil : dl.isNil = true ∨ dr.isNil = true)
    (hloc : LocOK (Tree.node dl dk ds dc dr) dup) :
    ∃ root,
      (if dc = BLACK then
          tree_delete_fixup (dup.length + 1) (if !dl.isNil then dl else dr) dup
        else some (zip (if !dl.isNil then dl else dr) dup)) = some root ∧
      RBRoot root ∧ toList root = pathL dup ++ (toList dl ++ toList dr) ++ pathR dup := by
  have hsub : toList (if !dl.isNil then dl else dr) = toList dl ++ toList dr := by
    cases dl with
    | nil => simp [Tree.isNil, toList]
    | node a b c d e =>
      cases dr with
      | nil => simp [Tree.isNil, toList]
      | node _ _ _ _ _ => simp [Tree.isNil] at hnil
  obtain ⟨n, h1, h2, h3⟩ := hloc
  have hsubRB : ∀ m, isRB dl m → isRB dr m → m = 0 ∧ isRB (if !dl.isNil then dl else dr) 0 := by
    intro m hl hr
    cases dl with
    | nil =>
      simp only [isRB_nil] at hl; subst hl
      exact ⟨rfl, by simpa [Tree.isNil] using hr⟩
    | node a b c d e =>
      cases dr with
      | nil =>
        simp only [isRB_nil] at hr; subst hr
        exact ⟨rfl, by simpa [Tree.isNil] using hl⟩
      | node _ _ _ _ _ => simp [Tree.isNil] at hnil
  cases dc with
  | BLACK =>
    obtain ⟨m, rfl, hl, hr⟩ := (isRB_black _ _ _ _ _).1 h1
    obtain ⟨rfl, hs⟩ := hsubRB m hl hr
    have hdel : delOK (if !dl.isNil then dl else dr) 0 :=
      ⟨fun hc => isRB_setBlack_red hc hs, fun _ => hs⟩
    obtain ⟨root, hr1, hr2⟩ := tree_delete_fixup_RB _ dup 0 hdel h2
    refine ⟨root, by simpa using hr1, hr2, ?_⟩
    rw [tree_delete_fixup_toList _ _ _ _ hr1, toList_zip, hsub]
  | RED =>
    simp only [isRB_red] at h1
    obtain ⟨hlc, hrc, hl, hr⟩ := h1
    obtain ⟨rfl, hs⟩ := hsubRB n hl hr
    have hcol : (if !dl.isNil then dl else dr).col = BLACK := by
      split <;> assumption
    refine ⟨_, by simp, RBRoot_zip h2 hs ?_, by rw [toList_zip, hsub]⟩
    cases dup with
    | nil => exact hcol
    | cons f up => intro _; exact hcol

theorem delete_node_spec {t : tree_t} {key : Int} {x : Loc} (ht : TreeOK t)
    (h : tree_search t key = some x) :
    ∃ t1, delete_node t x = some t1 ∧ TreeOK t1 ∧
      toList t1.root = Doc.remove key (toList t.root) ∧
      t1.number_of_keys = t.number_of_keys - 1 := by
  obtain ⟨l, s0, c, r, e, hloc, hD, hA, hB⟩ := tree_search_found ht h
  have hrem : Doc.remove key (toList t.root) = (pathL x.up ++ toList l) ++ (toList r ++ pathR x.up) := by
    rw [hD]
    exact Doc.remove_split s0 (fun p hp => by have := hA p hp; omega)
      (fun p hp => by have := hB p hp; omega)
  have hfin : ∀ root, RBRoot root →
      toList root = (pathL x.up ++ toList l) ++ (toList r ++ pathR x.up) →
      TreeOK ⟨root, t.number_of_keys - 1⟩ ∧
        toList root = Doc.remove key (toList t.root) := by
    intro root hrb hl
    refine ⟨⟨hrb, ?_, ?_⟩, by rw [hrem, hl]⟩
    · simp only [hl, ← hrem]; exact Doc.remove_sorted key ht.sorted
    · simp only [hl, ht.count, hD]
      simp
      omega
  rw [e] at hloc
  cases hcase : (l.isNil || r.isNil) with
  | true =>
    have hnil : l.isNil = true ∨ r.isNil = true := by simpa using hcase
    obtain ⟨root, hr1, hr2, hr3⟩ := splice_spec l key s0 c r x.up hnil hloc
    have := hfin root hr2 (by rw [hr3]; simp)
    refine ⟨⟨root, t.number_of_keys - 1⟩, ?_, this.1, this.2, rfl⟩
    simp only [delete_node, e, hcase, if_true]
    rw [hr1]
  | false =>
    have hl : l.isNil = false := by
      cases hh : l.isNil <;> simp [hh] at hcase ⊢
    have hr : r.isNil = false := by
      cases hh : r.isNil <;> simp [hh] at hcase ⊢
    obtain ⟨dl, dk, ds, dc, rel, relL, h1, h2, h3, h4, h6⟩ := tree_maximum_spec l hl
    have hloc2 := h6 (Frame.L dk ds c r :: x.up) (LocOK_left (LocOK_retag hloc))
    obtain ⟨root, hr1, hr2, hr3⟩ := splice_spec dl dk ds dc Tree.nil
      (rel ++ Frame.L dk ds c r :: x.up) (Or.inr rfl) hloc2
    have := hfin root hr2 (by
      rw [hr3, h2, h3, h4]
      simp [pathL, pathR, toList])
    refine ⟨⟨root, t.number_of_keys - 1⟩, ?_, this.1, this.2, rfl⟩
    have hidx : (rel ++ Frame.L key s0 c r :: x.up).length - x.up.length - 1 = rel.length := by
      simp
      omega
    simp only [delete_node, e, tree_predecessor, hl, hr, h1, Bool.or_self, Bool.not_false,
      if_true, Bool.false_eq_true, if_false, hidx, set_ancestor_append]
    rw [hr1]

theorem tree_delete_from_do_spec {t : tree_t} (key : Int) (ht : TreeOK t) :
    ∃ t1, tree_delete_from_do t (tree_search t key) = some t1 ∧ TreeOK t1 ∧
      toList t1.root = Doc.remove key (toList t.root) := by
  cases h : tree_search t key with
  | none =>
    refine ⟨t, rfl, ht, ?_⟩
    rw [Doc.remove_absent (tree_search_none ht h)]
  | some x =>
    obtain ⟨t1, h1, h2, h3, _⟩ := delete_node_spec ht h
    exact ⟨t1, h1, h2, h3⟩

/-! ### Renumbering -/

theorem tree_key_fixup_toList (a b : Int) (t : Tree) :
    toList (tree_key_fixup a b t) = Doc.key_fixup a b (toList t) := by
  induction t with
  | nil => rfl
  | node l k s c r ihl ihr => simp [tree_key_fixup, toList, Doc.key_fixup, ihl, ihr] at *

theorem tree_key_fixup_from_do_toList (a b : Int) (t : Tree) :
    toList (tree_key_fixup_from_do a b t) = Doc.key_fixup_from_do a b (toList t) := by
  induction t with
  | nil => rfl
  | node l k s c r ihl ihr =>
    simp [tree_key_fixup_from_do, toList, Doc.key_fixup_from_do, ihl, ihr] at *

theorem tree_key_fixup_col (a b : Int) (t : Tree) : (tree_key_fixup a b t).col = t.col := by
  cases t <;> rfl

theorem tree_key_fixup_from_do_col (a b : Int) (t : Tree) :
    (tree_key_fixup_from_do a b t).col = t.col := by
  cases t <;> rfl

theorem tree_key_fixup_isRB (a b : Int) (t : Tree) (n : Nat) :
    isRB (tree_key_fixup a b t) n ↔ isRB t n := by
  induction t generalizing n with
  | nil => simp [tree_key_fixup]
  | node l k s c r ihl ihr =>
    cases c with
    | RED => simp [tree_key_fixup, ihl, ihr, tree_key_fixup_col]
    | BLACK => cases n <;> simp [tree_key_fixup, ihl, ihr]

theorem tree_key_fixup_from_do_isRB (a b : Int) (t : Tree) (n : Nat) :
    isRB (tree_key_fixup_from_do a b t) n ↔ isRB t n := by
  induction t generalizing n with
  | nil => simp [tree_key_fixup_from_do]
  | node l k s c r ihl ihr =>
    cases c with
    | RED => simp [tree_key_fixup_from_do, ihl, ihr, tree_key_fixup_from_do_col]
    | BLACK => cases n <;> simp [tree_key_fixup_from_do, ihl, ihr]

theorem tree_key_fixup_RB {a b : Int} {t : Tree} (h : RBRoot t) : RBRoot (tree_key_fixup a b t) :=
  ⟨by rw [tree_key_fixup_col]; exact h.1, h.2.imp fun n hn => (tree_key_fixup_isRB a b t n).2 hn⟩

theorem tree_key_fixup_from_do_RB {a b : Int} {t : Tree} (h : RBRoot t) :
    RBRoot (tree_key_fixup_from_do a b t) :=
  ⟨by rw [tree_key_fixup_from_do_col]; exact h.1,
    h.2.imp fun n hn => (tree_key_fixup_from_do_isRB a b t n).2 hn⟩

/-! ## Replaying one record -/

theorem Linked_append {D Dm D2 : Doc} {rs new : List list_of_commands_t}
    (h1 : Linked D rs Dm) (h2 : Linked Dm new D2) : Linked D (new ++ rs) D2 := by
  induction new generalizing D2 with
  | nil => simp only [Linked] at h2; subst h2; exact h1
  | cons r new ih =>
    obtain ⟨Dk, h3, h4⟩ := h2
    exact ⟨Dk, ih h3, h4⟩

theorem Linked_snoc {D D2 : Doc} {rs : List list_of_commands_t} {r : list_of_commands_t} :
    Linked D (rs ++ [r]) D2 ↔ ∃ Dm, RecOK r D Dm ∧ Linked Dm rs D2 := by
  induction rs generalizing D2 with
  | nil =>
    simp only [List.nil_append, Linked]
    constructor
    · rintro ⟨Dm, rfl, h⟩; exact ⟨D2, h, rfl⟩
    · rintro ⟨Dm, h, rfl⟩; exact ⟨D, rfl, h⟩
  | cons q rs ih =>
    simp only [List.cons_append, Linked]
    constructor
    · rintro ⟨Dk, h1, h2⟩
      obtain ⟨Dm, h3, h4⟩ := ih.1 h1
      exact ⟨Dm, h3, Dk, h4, h2⟩
    · rintro ⟨Dm, h3, Dk, h4, h2⟩
      exact ⟨Dk, ih.2 ⟨Dm, h3, h4⟩, h2⟩

theorem DocOK_upsert {D : Doc} {k : Int} (s : String) (h : DocOK D) (hk : 1 ≤ k) :
    DocOK (Doc.upsert k s D) := by
  refine ⟨Doc.upsert_sorted k s h.1, ?_⟩
  rcases Doc.mem_or_not D k with ⟨s0, hm⟩ | hn
  · obtain ⟨A, B, rfl, hA, hB⟩ := Doc.split_of_mem h.1 hm
    rw [Doc.upsert_old s s0 hA]
    intro p hp
    simp only [List.mem_append, List.mem_cons] at hp
    rcases hp with hp | rfl | hp
    · exact h.2 p (by simp [hp])
    · exact hk
    · exact h.2 p (by simp [hp])
  · obtain ⟨A, B, rfl, hA, hB⟩ := Doc.split_of_not_mem D k h.1 hn
    rw [Doc.upsert_new s hA hB]
    intro p hp
    simp only [List.mem_append, List.mem_cons] at hp
    rcases hp with hp | rfl | hp
    · exact h.2 p (by simp [hp])
    · exact hk
    · exact h.2 p (by simp [hp])

theorem DocOK_remove {D : Doc} (k : Int) (h : DocOK D) : DocOK (Doc.remove k D) :=
  ⟨Doc.remove_sorted k h.1, fun p hp => h.2 p (List.mem_of_mem_filter hp)⟩

theorem Linked_overwrite {D : Doc} {k : Int} {s0 : String} (s : String) (id : Int)
    (h : DocOK D) (hk : 1 ≤ k) (hm : (k, s0) ∈ D) :
    Linked D (overwrite_records k s0 s id) (Doc.upsert k s D) := by
  have hne : k ≠ -1 := by omega
  refine ⟨Doc.remove k D, ⟨D, rfl, h, DocOK_remove k h, ?_, ?_⟩,
    DocOK_remove k h, DocOK_upsert s h hk, ?_, ?_⟩
  · simp only [Doc.undo_record, hne, if_false]
    exact Doc.upsert_remove_same h.1 hm
  · rfl
  · simp only [Doc.undo_record]
    exact Doc.remove_upsert k s h.1
  · simp only [Doc.redo_record, hne, if_false]
    exact Doc.upsert_remove k s h.1

theorem Linked_create {D : Doc} {k : Int} (s : String) (id : Int)
    (h : DocOK D) (hk : 1 ≤ k) (hn : ∀ p ∈ D, p.1 ≠ k) :
    Linked D [⟨k, k, id, DELETE, s⟩] (Doc.upsert k s D) := by
  have hne : k ≠ -1 := by omega
  refine ⟨D, rfl, h, DocOK_upsert s h hk, ?_, ?_⟩
  · simp only [Doc.undo_record]
    rw [Doc.remove_upsert k s h.1, Doc.remove_absent hn]
  · simp only [Doc.redo_record, hne, if_false]

theorem Linked_removed {D : Doc} {k : Int} {s0 : String} (id : Int)
    (h : DocOK D) (hm : (k, s0) ∈ D) :
    Linked D [⟨k, k, id, CHANGE, s0⟩] (Doc.remove k D) := by
  have hne : k ≠ -1 := by have := h.2 _ hm; simp at this; omega
  refine ⟨D, rfl, h, DocOK_remove k h, ?_, rfl⟩
  simp only [Doc.undo_record, hne, if_false]
  exact Doc.upsert_remove_same h.1 hm

theorem Linked_sentinel {D : Doc} (id : Int) (h : DocOK D) :
    Linked D [⟨-1, -1, id, CHANGE, ""⟩] D := by
  refine ⟨D, rfl, h, h, ?_, ?_⟩
  · simp [Doc.undo_record]
  · simp only [Doc.redo_record]
    exact Doc.remove_absent (fun p hp => by have := h.2 p hp; omega)

theorem Doc.key_fixup_inverse {D : Doc} {a b : Int} (hab : a ≤ b)
    (hgap : ∀ p ∈ D, ¬ (a ≤ p.1 ∧ p.1 ≤ b)) :
    Doc.key_fixup_from_do a b (Doc.key_fixup a b D) = D := by
  simp only [Doc.key_fixup, Doc.key_fixup_from_do, List.map_map]
  conv_rhs => rw [← List.map_id D]
  apply List.map_congr_left
  intro p hp
  have := hgap p hp
  obtain ⟨k, v⟩ := p
  simp only [Function.comp, id, Prod.mk.injEq, and_true]
  simp only at this
  split <;> split <;> omega

theorem Doc.key_fixup_ok {D : Doc} {a b : Int} (hD : DocOK D) (ha : 1 ≤ a) (hab : a ≤ b)
    (hgap : ∀ p ∈ D, ¬ (a ≤ p.1 ∧ p.1 ≤ b)) : DocOK (Doc.key_fixup a b D) := by
  constructor
  · simp only [SortedK, Doc.key_fixup, List.pairwise_map]
    refine List.Pairwise.imp_of_mem ?_ hD.1
    intro p q hp hq hpq
    have h1 := hgap p hp
    have h2 := hgap q hq
    split <;> split <;> omega
  · intro p hp
    simp only [Doc.key_fixup, List.mem_map] at hp
    obtain ⟨q, hq, rfl⟩ := hp
    have h1 := hgap q hq
    have h2 := hD.2 q hq
    simp only
    split <;> omega

theorem Linked_fix {D : Doc} {a b : Int} (id : Int) (hD : DocOK D) (ha : 1 ≤ a) (hab : a ≤ b)
    (hgap : ∀ p ∈ D, ¬ (a ≤ p.1 ∧ p.1 ≤ b)) :
    Linked D [⟨a, b, id, FIX_VALUES, ""⟩] (Doc.key_fixup a b D) :=
  ⟨D, rfl, hD, Doc.key_fixup_ok hD ha hab hgap, Doc.key_fixup_inverse hab hgap, rfl⟩

theorem Linked_DocOK {D D2 : Doc} {rs : List list_of_commands_t} (h : Linked D rs D2)
    (hD : DocOK D) : DocOK D2 := by
  cases rs with
  | nil => simp only [Linked] at h; subst h; exact hD
  | cons r rs => obtain ⟨Dm, _, h2⟩ := h; exact h2.2.1

/-! ## The forward primitives with their history records -/

theorem tree_insert_spec {t : tree_t} (key : Int) (s : String) (id : Int) (st : stack_t)
    (ht : TreeOK t) (hD : DocOK (toList t.root)) (hk : 1 ≤ key) :
    ∃ t1 new, tree_insert t key s id st = some (t1, ⟨new ++ st.top, st.size⟩) ∧ TreeOK t1 ∧
      toList t1.root = Doc.upsert key s (toList t.root) ∧
      Linked (toList t.root) new (toList t1.root) ∧ new ≠ [] ∧
      (∀ r ∈ new, r.command_id = id) := by
  cases h : tree_search t key with
  | some y =>
    obtain ⟨l, s0, c, r, e, hm⟩ := tree_search_mem ht h
    obtain ⟨t1, h1, h2, h3⟩ := overwrite_spec s ht h
    refine ⟨t1, overwrite_records key s0 s id, ?_, h2, h3, ?_, by simp [overwrite_records], ?_⟩
    · simp [tree_insert, h, e, h1, stack_push_values, overwrite_records]
    · rw [h3]; exact Linked_overwrite s id hD hk hm
    · intro r hr
      simp only [overwrite_records, List.mem_cons, List.mem_singleton, List.not_mem_nil,
        or_false] at hr
      rcases hr with rfl | rfl <;> rfl
  | none =>
    obtain ⟨t1, h1, h2, h3, _⟩ := insert_new_spec s ht h
    refine ⟨t1, [⟨key, key, id, DELETE, s⟩], ?_, h2, h3, ?_, by simp, ?_⟩
    · simp [tree_insert, h, h1, stack_push_values]
    · rw [h3]; exact Linked_create s id hD hk (tree_search_none ht h)
    · intro r hr
      simp only [List.mem_singleton] at hr
      subst hr; rfl

theorem tree_delete_spec {t : tree_t} (key : Int) (id : Int) (st : stack_t)
    (ht : TreeOK t) (hD : DocOK (toList t.root)) :
    ∃ t1 r, tree_delete t (tree_search t key) id st = some (t1, ⟨r :: st.top, st.size⟩) ∧
      TreeOK t1 ∧ toList t1.root = Doc.remove key (toList t.root) ∧
      Linked (toList t.root) [r] (toList t1.root) ∧ r.command_id = id ∧
      r.command = CHANGE := by
  cases h : tree_search t key with
  | some y =>
    obtain ⟨l, s0, c, r, e, hm⟩ := tree_search_mem ht h
    obtain ⟨t1, h1, h2, h3, _⟩ := delete_node_spec ht h
    refine ⟨t1, ⟨key, key, id, CHANGE, s0⟩, ?_, h2, h3, ?_, rfl, rfl⟩
    · simp [tree_delete, e, h1, stack_push_values]
    · rw [h3]; exact Linked_removed id hD hm
  | none =>
    refine ⟨t, ⟨-1, -1, id, CHANGE, ""⟩, rfl, ht, ?_, Linked_sentinel id hD, rfl, rfl⟩
    rw [Doc.remove_absent (tree_search_none ht h)]

/-! ## The loops over line numbers -/

theorem wrap_of_range {x : Int} (h1 : INT_MIN ≤ x) (h2 : x ≤ INT_MAX) : wrap x = x := by
  simp only [INT_MIN, INT_MAX] at h1 h2
  simp only [wrap]
  omega

theorem wrap_range (x : Int) : INT_MIN ≤ wrap x ∧ wrap x ≤ INT_MAX := by
  simp only [INT_MIN, INT_MAX, wrap]
  omega

theorem change_for_eq (id end_ : Int) (n : Nat) (line : Int) (lines : List String)
    (t : tree_t) (s : stack_t) (h1 : INT_MIN ≤ line) (h2 : line + n = end_ + 1)
    (h3 : end_ < INT_MAX) :
    change_for id end_ n line lines t s = change_loop id n line lines t s := by
  induction n generalizing line lines t s with
  | zero =>
    have : ¬ line ≤ end_ := by simp only [Nat.cast_zero] at h2; omega
    simp only [change_for, this, if_false, change_loop]
  | succ n ih =>
    have hle : line ≤ end_ := by push_cast at h2; omega
    have hw : wrap (line + 1) = line + 1 :=
      wrap_of_range (by simp only [INT_MIN] at h1 ⊢; omega) (by omega)
    cases lines with
    | nil => simp only [change_for, hle, if_true, change_loop]
    | cons text rest =>
      simp only [change_for, hle, if_true, change_loop, hw]
      cases tree_insert t line text id s with
      | none => rfl
      | some p =>
        obtain ⟨t1, s1⟩ := p
        exact ih (line + 1) rest t1 s1 (by simp only [INT_MIN] at h1 ⊢; omega)
          (by push_cast at h2; omega)

theorem change_for_none (id end_ : Int) (fuel : Nat) (line : Int) (lines : List String)
    (t : tree_t) (s : stack_t) (h1 : line ≤ end_) (h2 : INT_MAX ≤ end_) :
    change_for id end_ fuel line lines t s = none := by
  induction fuel generalizing line lines t s with
  | zero => simp only [change_for, h1, if_true]
  | succ n ih =>
    cases lines with
    | nil => simp only [change_for, h1, if_true]
    | cons text rest =>
      simp only [change_for, h1, if_true]
      cases tree_insert t line text id s with
      | none => rfl
      | some p =>
        obtain ⟨t1, s1⟩ := p
        exact ih (wrap (line + 1)) rest t1 s1 (le_trans (wrap_range _).2 h2)

theorem exec_change_bound {start end_ : Int} {lines : List String} {e e1 : Editor}
    (h : start ≤ end_) (hs : exec_change start end_ lines e = some e1) : end_ < INT_MAX := by
  by_contra hn
  have := change_for_none e.command_id end_ (end_ - start + 1).toNat start lines e.t
    e.undo_stack h (by omega)
  simp only [exec_change, this] at hs
  exact absurd hs (by simp)

theorem delete_for_eq (id n0 end_ : Int) (n : Nat) (line : Int) (t : tree_t) (s : stack_t)
    (h1 : INT_MIN ≤ line) (h2 : line + n = end_ + 1) (h3 : end_ < INT_MAX) :
    delete_for id n0 end_ n line t s = delete_loop id n0 n line t s := by
  induction n generalizing line t s with
  | zero =>
    have : ¬ line ≤ end_ := by simp only [Nat.cast_zero] at h2; omega
    simp only [delete_for, this, if_false, delete_loop]
  | succ n ih =>
    have hle : line ≤ end_ := by push_cast at h2; omega
    have hw : wrap (line + 1) = line + 1 :=
      wrap_of_range (by simp only [INT_MIN] at h1 ⊢; omega) (by omega)
    have hr : INT_MIN ≤ line + 1 := by simp only [INT_MIN] at h1 ⊢; omega
    have hn : line + 1 + (n : Int) = end_ + 1 := by push_cast at h2; omega
    simp only [delete_for, hle, if_true, delete_loop, hw]
    split
    · exact ih (line + 1) t _ hr hn
    · cases tree_delete t (tree_search t line) id s with
      | none => rfl
      | some p =>
        obtain ⟨t1, s1⟩ := p
        exact ih (line + 1) t1 s1 hr hn

theorem delete_for_none (id n0 end_ : Int) (fuel : Nat) (line : Int) (t : tree_t) (s : stack_t)
    (h1 : line ≤ end_) (h2 : INT_MAX ≤ end_) :
    delete_for id n0 end_ fuel line t s = none := by
  induction fuel generalizing line t s with
  | zero => simp only [delete_for, h1, if_true]
  | succ n ih =>
    simp only [delete_for, h1, if_true]
    split
    · exact ih (wrap (line + 1)) t _ (le_trans (wrap_range _).2 h2)
    · cases tree_delete t (tree_search t line) id s with
      | none => rfl
      | some p =>
        obtain ⟨t1, s1⟩ := p
        exact ih (wrap (line + 1)) t1 s1 (le_trans (wrap_range _).2 h2)

theorem exec_delete_bound {start end_ : Int} {e e1 : Editor}
    (h : start ≤ end_) (hs : exec_delete start end_ e = some e1) : end_ < INT_MAX := by
  by_contra hn
  have := delete_for_none e.command_id e.t.number_of_keys end_ (end_ - start + 1).toNat start
    e.t e.undo_stack h (by omega)
  simp only [exec_delete, this] at hs
  exact absurd hs (by simp)

theorem point_for_eq (end_ : Int) (n : Nat) (i : Int) (h1 : INT_MIN ≤ i)
    (h2 : i + n = end_ + 1) (h3 : end_ < INT_MAX) :
    point_for end_ n i = some (List.replicate n POINT_NEWLINE) := by
  induction n generalizing i with
  | zero =>
    have : ¬ i ≤ end_ := by simp only [Nat.cast_zero] at h2; omega
    simp only [point_for, this, if_false, List.replicate_zero]
  | succ n ih =>
    have hle : i ≤ end_ := by push_cast at h2; omega
    have hw : wrap (i + 1) = i + 1 :=
      wrap_of_range (by simp only [INT_MIN] at h1 ⊢; omega) (by omega)
    simp only [point_for, hle, if_true, hw,
      ih (i + 1) (by simp only [INT_MIN] at h1 ⊢; omega) (by push_cast at h2; omega),
      List.replicate_succ]

theorem point_for_past (end_ : Int) (n : Nat) (i : Int) (h : end_ < i) :
    point_for end_ n i = some [] := by
  have : ¬ i ≤ end_ := by omega
  cases n <;> simp only [point_for, this, if_false]

theorem point_for_none (end_ : Int) (fuel : Nat) (i : Int) (h1 : i ≤ end_)
    (h2 : INT_MAX ≤ end_) : point_for end_ fuel i = none := by
  induction fuel generalizing i with
  | zero => simp only [point_for, h1, if_true]
  | succ n ih =>
    simp only [point_for, h1, if_true, ih (wrap (i + 1)) (le_trans (wrap_range _).2 h2)]

theorem point_for_spec (end_ i : Int) (h1 : INT_MIN ≤ i) (h3 : end_ < INT_MAX) :
    point_for end_ (end_ - i + 1).toNat i =
      some (List.replicate (end_ - i + 1).toNat POINT_NEWLINE) := by
  by_cases h : i ≤ end_ + 1
  · exact point_for_eq end_ _ i h1 (by omega) h3
  · have h0 : (end_ - i + 1).toNat = 0 := by omega
    rw [h0, point_for_past end_ 0 i (by omega)]
    rfl

theorem in_order_iterative_eq (t : tree_t) (n : Nat) (x : Option Loc) (start end_ : Int)
    (h1 : INT_MIN ≤ start) (h2 : start + n = min end_ t.number_of_keys + 1)
    (h3 : min end_ t.number_of_keys < INT_MAX) :
    in_order_iterative t n x start end_ = in_order_loop n x := by
  induction n generalizing x start with
  | zero =>
    have : ¬ (start ≤ end_ ∧ start ≤ t.number_of_keys) := by
      simp only [min] at h2; split at h2 <;> omega
    simp only [in_order_iterative, this, if_false, in_order_loop]
  | succ n ih =>
    have hc : start ≤ end_ ∧ start ≤ t.number_of_keys := by
      simp only [min] at h2; split at h2 <;> (push_cast at h2; omega)
    have hlt : start < INT_MAX := by
      simp only [min] at h3; split at h3 <;> omega
    have hw : wrap (start + 1) = start + 1 :=
      wrap_of_range (by simp only [INT_MIN] at h1 ⊢; omega) (by omega)
    cases x with
    | none => simp only [in_order_iterative, hc, and_self, if_true, in_order_loop]
    | some x =>
      simp only [in_order_iterative, hc, and_self, if_true, in_order_loop, hw,
        ih (tree_successor x) (start + 1) (by simp only [INT_MIN] at h1 ⊢; omega)
          (by push_cast at h2; omega)]

/-! ## The mutating commands -/

theorem make_empty_stack_eq (s : stack_t) : make_empty_stack s = ⟨[], 0⟩ := by
  have key : ∀ (l : List list_of_commands_t) (st : stack_t), st.top = l →
      (l.foldl (fun st _ => (pop st).2) st).top = [] := by
    intro l
    induction l with
    | nil => intro st h; simpa using h
    | cons r l ih =>
      intro st h
      simp only [List.foldl_cons]
      apply ih
      simp [pop, h]
  simp [make_empty_stack, key s.top s rfl]

theorem change_loop_spec (id : Int) (n : Nat) (line : Int) (lines : List String) (t : tree_t)
    (st : stack_t) (hn : lines.length = n) (ht : TreeOK t) (hD : DocOK (toList t.root))
    (hl : 1 ≤ line) :
    ∃ t1 new, change_loop id n line lines t st = some (t1, ⟨new ++ st.top, st.size⟩) ∧
      TreeOK t1 ∧ toList t1.root = Doc.change line lines (toList t.root) ∧
      Linked (toList t.root) new (toList t1.root) ∧ (1 ≤ n → new ≠ []) ∧
      (∀ r ∈ new, r.command_id = id) := by
  induction n generalizing line lines t st with
  | zero =>
    have : lines = [] := List.length_eq_zero.1 hn
    subst this
    exact ⟨t, [], rfl, ht, rfl, rfl, by simp, by simp⟩
  | succ n ih =>
    cases lines with
    | nil => simp at hn
    | cons s ss =>
      simp only [List.length_cons, Nat.add_right_cancel_iff] at hn
      obtain ⟨t1, new1, h1, h2, h3, h4, h5, h6⟩ := tree_insert_spec line s id st ht hD hl
      have hD1 : DocOK (toList t1.root) := Linked_DocOK h4 hD
      obtain ⟨t2, new2, g1, g2, g3, g4, _, g6⟩ :=
        ih (line + 1) ss t1 ⟨new1 ++ st.top, st.size⟩ hn h2 hD1 (by omega)
      refine ⟨t2, new2 ++ new1, ?_, g2, ?_, Linked_append h4 g4, ?_, ?_⟩
      · simp only [change_loop, h1, g1, List.append_assoc]
      · rw [g3, h3]; rfl
      · intro _; simp [h5]
      · intro r hr
        simp only [List.mem_append] at hr
        rcases hr with hr | hr
        · exact g6 r hr
        · exact h6 r hr

theorem exec_change_spec (start end_ : Int) (lines : List String) (e : Editor)
    (ht : TreeOK e.t) (hD : DocOK (toList e.t.root)) (h1 : 1 ≤ start) (h2 : start ≤ end_)
    (h3 : end_ < INT_MAX) (hn : lines.length = (end_ - start + 1).toNat) :
    ∃ t1 new, exec_change start end_ lines e =
        some ⟨t1, ⟨new ++ e.undo_stack.top, e.undo_stack.size + 1⟩, ⟨[], 0⟩, e.command_id + 1⟩ ∧
      TreeOK t1 ∧ toList t1.root = Doc.change start lines (toList e.t.root) ∧
      Linked (toList e.t.root) new (toList t1.root) ∧ new ≠ [] ∧
      (∀ r ∈ new, r.command_id = e.command_id) := by
  obtain ⟨t1, new, g1, g2, g3, g4, g5, g6⟩ :=
    change_loop_spec e.command_id _ start lines e.t e.undo_stack hn ht hD h1
  have hfor := change_for_eq e.command_id end_ (end_ - start + 1).toNat start lines e.t
    e.undo_stack (by simp only [INT_MIN]; omega) (by omega) h3
  refine ⟨t1, new, ?_, g2, g3, g4, g5 (by omega), g6⟩
  simp [exec_change, hfor, g1, make_empty_stack_eq]

theorem delete_loop_spec (id n0 : Int) (n : Nat) (line : Int) (t : tree_t) (st : stack_t)
    (ht : TreeOK t) (hD : DocOK (toList t.root)) (hl : 1 ≤ line) :
    ∃ t1 new, delete_loop id n0 n line t st = some (t1, ⟨new ++ st.top, st.size⟩) ∧
      TreeOK t1 ∧
      toList t1.root = (toList t.root).filter
        (fun p => decide (¬ (line ≤ p.1 ∧ p.1 < line + n ∧ p.1 ≤ n0))) ∧
      Linked (toList t.root) new (toList t1.root) ∧ new.length = n ∧
      (∀ r ∈ new, r.command_id = id ∧ r.command = CHANGE) := by
  induction n generalizing line t st with
  | zero =>
    refine ⟨t, [], rfl, ht, ?_, rfl, rfl, by simp⟩
    symm
    apply List.filter_eq_self.2
    intro p _
    simp only [decide_eq_true_eq]
    push_cast
    omega
  | succ n ih =>
    by_cases hc : line > n0 ∨ line < 1
    · obtain ⟨t2, new2, g1, g2, g3, g4, g5, g6⟩ :=
        ih (line + 1) t (stack_push_values st (-1) (-1) id CHANGE "") ht hD (by omega)
      refine ⟨t2, new2 ++ [⟨-1, -1, id, CHANGE, ""⟩], ?_, g2, ?_,
        Linked_append (Linked_sentinel id hD) g4, by simp [g5], ?_⟩
      · simp only [stack_push_values] at g1
        simp only [delete_loop, hc, if_true, stack_push_values, g1, List.append_assoc,
          List.singleton_append]
      · rw [g3]
        apply List.filter_congr
        intro p _
        simp only [decide_eq_decide]
        push_cast
        constructor <;> intro h <;> omega
      · intro r hr
        simp only [List.mem_append, List.mem_singleton] at hr
        rcases hr with hr | rfl
        · exact g6 r hr
        · exact ⟨rfl, rfl⟩
    · obtain ⟨t1, r1, h1, h2, h3, h4, h5, h5b⟩ := tree_delete_spec line id st ht hD
      have hD1 : DocOK (toList t1.root) := Linked_DocOK h4 hD
      obtain ⟨t2, new2, g1, g2, g3, g4, g5, g6⟩ :=
        ih (line + 1) t1 ⟨r1 :: st.top, st.size⟩ h2 hD1 (by omega)
      refine ⟨t2, new2 ++ [r1], ?_, g2, ?_, Linked_append h4 g4, by simp [g5], ?_⟩
      · simp only [delete_loop, hc, if_false, h1, g1, List.append_assoc, List.singleton_append]
      · rw [g3, h3, Doc.remove, List.filter_filter]
        apply List.filter_congr
        intro p _
        rw [Bool.eq_iff_iff]
        simp only [Bool.and_eq_true, decide_eq_true_eq]
        push_cast
        constructor <;> intro h <;> omega
      · intro r hr
        simp only [List.mem_append, List.mem_singleton] at hr
        rcases hr with hr | rfl
        · exact g6 r hr
        · exact ⟨h5, h5b⟩

theorem exec_delete_spec (start end_ : Int) (e : Editor)
    (ht : TreeOK e.t) (hD : DocOK (toList e.t.root)) (h1 : 1 ≤ start) (h2 : start ≤ end_)
    (h3 : end_ < INT_MAX) :
    ∃ t1 new, exec_delete start end_ e =
        some ⟨t1, ⟨new ++ e.undo_stack.top, e.undo_stack.size + 1⟩, ⟨[], 0⟩, e.command_id + 1⟩ ∧
      TreeOK t1 ∧ toList t1.root = Doc.delete start end_ (toList e.t.root) ∧
      Linked (toList e.t.root) new (toList t1.root) ∧ new ≠ [] ∧
      (∀ r ∈ new, r.command_id = e.command_id) := by
  obtain ⟨t1, new, g1, g2, g3, g4, g5, g6⟩ :=
    delete_loop_spec e.command_id e.t.number_of_keys (end_ - start + 1).toNat start e.t
      e.undo_stack ht hD h1
  have hfor := delete_for_eq e.command_id e.t.number_of_keys end_ (end_ - start + 1).toNat
    start e.t e.undo_stack (by simp only [INT_MIN]; omega) (by omega) h3
  have hD1 : DocOK (toList t1.root) := Linked_DocOK g4 hD
  have hrange : toList t1.root =
      Doc.delete_range start end_ (toList e.t.root).length (toList e.t.root) := by
    rw [g3, Doc.delete_range, ← ht.count]
    apply List.filter_congr
    intro p _
    simp only [decide_eq_decide]
    rw [Int.toNat_of_nonneg (by omega)]
    constructor <;> intro h <;> omega
  have hne : new ≠ [] := by
    intro h
    rw [h] at g5
    simp at g5
    omega
  by_cases hc : end_ < e.t.number_of_keys
  · have hgap : ∀ p ∈ toList t1.root, ¬ (start ≤ p.1 ∧ p.1 ≤ end_) := by
      intro p hp
      rw [g3] at hp
      have := (List.mem_filter.1 hp).2
      simp only [decide_eq_true_eq] at this
      omega
    refine ⟨⟨tree_key_fixup start end_ t1.root, t1.number_of_keys⟩,
      ⟨start, end_, e.command_id, FIX_VALUES, ""⟩ :: new, ?_, ⟨tree_key_fixup_RB g2.rb, ?_, ?_⟩,
      ?_, ?_, by simp, ?_⟩
    · simp [exec_delete, hfor, g1, hc, make_empty_stack_eq, stack_push_values]
    · simp only [tree_key_fixup_toList]
      exact (Doc.key_fixup_ok hD1 h1 h2 hgap).1
    · simp only [tree_key_fixup_toList, Doc.key_fixup, List.length_map]
      exact g2.count
    · simp only [tree_key_fixup_toList, Doc.delete, ← ht.count, hc, if_true, hrange]
    · have hfix := Linked_fix e.command_id hD1 h1 h2 hgap
      rw [← tree_key_fixup_toList] at hfix
      exact Linked_append g4 hfix
    · intro r hr
      simp only [List.mem_cons] at hr
      rcases hr with rfl | hr
      · rfl
      · exact (g6 r hr).1
  · refine ⟨t1, new, ?_, g2, ?_, g4, hne, fun r hr => (g6 r hr).1⟩
    · simp [exec_delete, hfor, g1, hc, make_empty_stack_eq]
    · simp only [Doc.delete, ← ht.count, hc, if_false, hrange]

/-! ## Replaying records on the tree -/

theorem undo_command_spec {e : Editor} {r : list_of_commands_t} {rs : List list_of_commands_t}
    {Dm : Doc} (ht : TreeOK e.t) (htop : e.undo_stack.top = r :: rs)
    (hr : RecOK r Dm (toList e.t.root)) :
    ∃ e1, undo_command e = some e1 ∧ TreeOK e1.t ∧ toList e1.t.root = Dm ∧
      e1.undo_stack = ⟨rs, e.undo_stack.size⟩ ∧
      e1.redo_stack = ⟨r :: e.redo_stack.top, e.redo_stack.size⟩ ∧
      e1.command_id = e.command_id := by
  obtain ⟨hDm, hD, hu, _⟩ := hr
  have hmove : move_top e.undo_stack e.redo_stack =
      some (⟨rs, e.undo_stack.size⟩, ⟨r :: e.redo_stack.top, e.redo_stack.size⟩) := by
    simp [move_top, pop, htop, stack_push_node]
  have htree : ∃ t1, (match r.command with
      | CHANGE => tree_insert_from_do e.t r.begin r.text_line
      | DELETE => tree_delete_from_do e.t (tree_search e.t r.begin)
      | FIX_VALUES =>
        some ⟨tree_key_fixup_from_do r.begin r.end_ e.t.root, e.t.number_of_keys⟩) = some t1 ∧
      TreeOK t1 ∧ toList t1.root = Dm := by
    cases hc : r.command with
    | CHANGE =>
      simp only [Doc.undo_record, hc] at hu
      by_cases hb : r.begin = -1
      · simp only [hb, if_true] at hu
        exact ⟨e.t, by simp [tree_insert_from_do, hb], ht, hu⟩
      · simp only [hb, if_false] at hu
        obtain ⟨t1, h1, h2, h3⟩ := tree_insert_from_do_spec r.begin r.text_line ht hb
        exact ⟨t1, h1, h2, by rw [h3, hu]⟩
    | DELETE =>
      simp only [Doc.undo_record, hc] at hu
      obtain ⟨t1, h1, h2, h3⟩ := tree_delete_from_do_spec r.begin ht
      exact ⟨t1, h1, h2, by rw [h3, hu]⟩
    | FIX_VALUES =>
      simp only [Doc.undo_record, hc] at hu
      refine ⟨_, rfl, ⟨tree_key_fixup_from_do_RB ht.rb, ?_, ?_⟩, ?_⟩
      · simp only [tree_key_fixup_from_do_toList, hu]; exact hDm.1
      · simp only [tree_key_fixup_from_do_toList, Doc.key_fixup_from_do, List.length_map]
        exact ht.count
      · simp only [tree_key_fixup_from_do_toList, hu]
  obtain ⟨t1, h1, h2, h3⟩ := htree
  refine ⟨⟨t1, ⟨rs, e.undo_stack.size⟩, ⟨r :: e.redo_stack.top, e.redo_stack.size⟩,
    e.command_id⟩, ?_, h2, h3, rfl, rfl, rfl⟩
  simp only [undo_command, htop, h1, hmove]

theorem redo_command_spec {e : Editor} {r : list_of_commands_t} {rs : List list_of_commands_t}
    {Dm : Doc} (ht : TreeOK e.t) (htop : e.redo_stack.top = r :: rs)
    (hr : RecOK r (toList e.t.root) Dm) :
    ∃ e1, redo_command e = some e1 ∧ TreeOK e1.t ∧ toList e1.t.root = Dm ∧
      e1.redo_stack = ⟨rs, e.redo_stack.size⟩ ∧
      e1.undo_stack = ⟨r :: e.undo_stack.top, e.undo_stack.size⟩ ∧
      e1.command_id = e.command_id := by
  obtain ⟨hD, hDm, _, hu⟩ := hr
  have hmove : move_top e.redo_stack e.undo_stack =
      some (⟨rs, e.redo_stack.size⟩, ⟨r :: e.undo_stack.top, e.undo_stack.size⟩) := by
    simp [move_top, pop, htop, stack_push_node]
  have htree : ∃ t1, (match r.command with
      | CHANGE => tree_delete_from_do e.t (tree_search e.t r.begin)
      | DELETE => tree_insert_from_do e.t r.begin r.text_line
      | FIX_VALUES =>
        some ⟨tree_key_fixup r.begin r.end_ e.t.root, e.t.number_of_keys⟩) = some t1 ∧
      TreeOK t1 ∧ toList t1.root = Dm := by
    cases hc : r.command with
    | DELETE =>
      simp only [Doc.redo_record, hc] at hu
      by_cases hb : r.begin = -1
      · simp only [hb, if_true] at hu
        exact ⟨e.t, by simp [tree_insert_from_do, hb], ht, hu⟩
      · simp only [hb, if_false] at hu
        obtain ⟨t1, h1, h2, h3⟩ := tree_insert_from_do_spec r.begin r.text_line ht hb
        exact ⟨t1, h1, h2, by rw [h3, hu]⟩
    | CHANGE =>
      simp only [Doc.redo_record, hc] at hu
      obtain ⟨t1, h1, h2, h3⟩ := tree_delete_from_do_spec r.begin ht
      exact ⟨t1, h1, h2, by rw [h3, hu]⟩
    | FIX_VALUES =>
      simp only [Doc.redo_record, hc] at hu
      refine ⟨_, rfl, ⟨tree_key_fixup_RB ht.rb, ?_, ?_⟩, ?_⟩
      · simp only [tree_key_fixup_toList, hu]; exact hDm.1
      · simp only [tree_key_fixup_toList, Doc.key_fixup, List.length_map]
        exact ht.count
      · simp only [tree_key_fixup_toList, hu]
  obtain ⟨t1, h1, h2, h3⟩ := htree
  refine ⟨⟨t1, ⟨r :: e.undo_stack.top, e.undo_stack.size⟩, ⟨rs, e.redo_stack.size⟩,
    e.command_id⟩, ?_, h2, h3, rfl, rfl, rfl⟩
  simp only [redo_command, htop, h1, hmove]

theorem undo_group_spec (g : Int) (grp below : List list_of_commands_t) (D0 : Doc)
    (fuel : Nat) (e : Editor) (hf : grp.length ≤ fuel) (ht : TreeOK e.t)
    (htop : e.undo_stack.top = grp ++ below) (hl : Linked D0 grp (toList e.t.root))
    (hg : ∀ r ∈ grp, r.command_id = g) (hb : ∀ r ∈ below, r.command_id ≠ g) :
    ∃ e1, undo_group g fuel e = some e1 ∧ TreeOK e1.t ∧ toList e1.t.root = D0 ∧
      e1.undo_stack = ⟨below, e.undo_stack.size⟩ ∧
      e1.redo_stack = ⟨grp.reverse ++ e.redo_stack.top, e.redo_stack.size⟩ ∧
      e1.command_id = e.command_id := by
  induction grp generalizing e fuel with
  | nil =>
    simp only [Linked] at hl
    simp only [List.nil_append] at htop
    refine ⟨e, ?_, ht, hl.symm, ?_, rfl, rfl⟩
    · cases hbel : below with
      | nil => cases fuel <;> simp [undo_group, htop, hbel]
      | cons r rs =>
        have := hb r (by simp [hbel])
        cases fuel <;> simp [undo_group, htop, hbel, this]
    · cases e with
      | mk t u r c => cases u; simp at htop; simp [htop]
  | cons r rs ih =>
    obtain ⟨Dm, h1, h2⟩ := hl
    obtain ⟨fuel, rfl⟩ : ∃ k, fuel = k + 1 := ⟨fuel - 1, by simp at hf; omega⟩
    obtain ⟨e1, g1, g2, g3, g4, g5, g6⟩ := undo_command_spec ht htop h2
    obtain ⟨e2, k1, k2, k3, k4, k5, k6⟩ := ih fuel e1 (by simp at hf; omega) g2
      (by rw [g4]; rfl) (by rw [g3]; exact h1) (fun q hq => hg q (by simp [hq]))
    refine ⟨e2, ?_, k2, k3, by rw [k4, g4], by rw [k5, g5]; simp, by rw [k6, g6]⟩
    simp only [undo_group, htop, List.cons_append, hg r (by simp), if_true, g1, k1]

theorem redo_group_spec (g : Int) (rg below : List list_of_commands_t) (D2 : Doc)
    (fuel : Nat) (e : Editor) (hf : rg.length ≤ fuel) (ht : TreeOK e.t)
    (htop : e.redo_stack.top = rg ++ below) (hl : Linked (toList e.t.root) rg.reverse D2)
    (hg : ∀ r ∈ rg, r.command_id = g) (hb : ∀ r ∈ below, r.command_id ≠ g) :
    ∃ e1, redo_group g fuel e = some e1 ∧ TreeOK e1.t ∧ toList e1.t.root = D2 ∧
      e1.redo_stack = ⟨below, e.redo_stack.size⟩ ∧
      e1.undo_stack = ⟨rg.reverse ++ e.undo_stack.top, e.undo_stack.size⟩ ∧
      e1.command_id = e.command_id := by
  induction rg generalizing e fuel with
  | nil =>
    simp only [List.reverse_nil, Linked] at hl
    simp only [List.nil_append] at htop
    refine ⟨e, ?_, ht, hl, ?_, rfl, rfl⟩
    · cases hbel : below with
      | nil => cases fuel <;> simp [redo_group, htop, hbel]
      | cons r rs =>
        have := hb r (by simp [hbel])
        cases fuel <;> simp [redo_group, htop, hbel, this]
    · cases e with
      | mk t u r c => cases r; simp at htop; simp [htop]
  | cons r rs ih =>
    rw [List.reverse_cons, Linked_snoc] at hl
    obtain ⟨Dm, h2, h1⟩ := hl
    obtain ⟨fuel, rfl⟩ : ∃ k, fuel = k + 1 := ⟨fuel - 1, by simp at hf; omega⟩
    obtain ⟨e1, g1, g2, g3, g4, g5, g6⟩ := redo_command_spec ht htop h2
    obtain ⟨e2, k1, k2, k3, k4, k5, k6⟩ := ih fuel e1 (by simp at hf; omega) g2
      (by rw [g4]; rfl) (by rw [g3]; exact h1) (fun q hq => hg q (by simp [hq]))
    refine ⟨e2, ?_, k2, k3, by rw [k4, g4], by rw [k5, g5]; simp, by rw [k6, g6]⟩
    simp only [redo_group, htop, List.cons_append, hg r (by simp), if_true, g1, k1]

/-! ## The history as a sequence of command groups -/

theorem timelineIds_move (x : Entry) (past future : List Entry) :
    timelineIds (x :: past) future = timelineIds past (x :: future) := by
  simp [timelineIds]

theorem mem_undoRecords {past : List Entry} {D : Doc} (h : PastOK past D)
    {r : list_of_commands_t} (hr : r ∈ undoRecords past) :
    ∃ y ∈ past, r.command_id = y.id := by
  induction past generalizing D with
  | nil => simp [undoRecords] at hr
  | cons x p ih =>
    simp only [undoRecords, List.mem_append] at hr
    obtain ⟨_, hx, hp⟩ := h
    rcases hr with hr | hr
    · exact ⟨x, by simp, hx.2.1 r hr⟩
    · obtain ⟨y, hy, e⟩ := ih hp hr
      exact ⟨y, by simp [hy], e⟩

theorem mem_redoRecords {future : List Entry} {D : Doc} (h : FutureOK D future)
    {r : list_of_commands_t} (hr : r ∈ redoRecords future) :
    ∃ y ∈ future, r.command_id = y.id := by
  induction future generalizing D with
  | nil => simp [redoRecords] at hr
  | cons x f ih =>
    simp only [redoRecords, List.mem_append, List.mem_reverse] at hr
    obtain ⟨_, hx, hf⟩ := h
    rcases hr with hr | hr
    · exact ⟨x, by simp, hx.2.1 r hr⟩
    · obtain ⟨y, hy, e⟩ := ih hf hr
      exact ⟨y, by simp [hy], e⟩

theorem EntryOK_after {x : Entry} (h : EntryOK x) : DocOK x.after :=
  Linked_DocOK h.2.2.1 h.2.2.2

theorem undo_step_spec {P : Doc → Prop} {x : Entry} {past future : List Entry} {e : Editor}
    (h : Rep P (x :: past) future e) :
    ∃ e1, undo_step e = some e1 ∧ Rep P past (x :: future) e1 ∧
      e1.command_id = e.command_id := by
  obtain ⟨hxa, hx, hp⟩ := h.pastOK
  obtain ⟨hne, hid, hl, hD0⟩ := hx
  obtain ⟨r0, rs0, hrec⟩ := List.exists_cons_of_ne_nil hne
  have htop : e.undo_stack.top = x.records ++ undoRecords past := h.undo_top
  have hids := h.ids
  simp only [timelineIds, List.reverse_cons, List.append_assoc, List.singleton_append,
    List.map_append, List.map_cons, List.pairwise_append, List.pairwise_cons,
    List.mem_map, List.mem_reverse, List.mem_cons] at hids
  have hbelow : ∀ r ∈ undoRecords past, r.command_id ≠ x.id := by
    intro r hr
    obtain ⟨y, hy, e1⟩ := mem_undoRecords hp hr
    have := hids.2.2 y.id ⟨y, hy, rfl⟩ x.id (Or.inl rfl)
    omega
  obtain ⟨e1, g1, g2, g3, g4, g5, g6⟩ := undo_group_spec x.id x.records (undoRecords past)
    x.before e.undo_stack.top.length e (by rw [htop]; simp) h.tree htop (hxa ▸ hl) hid hbelow
  refine ⟨⟨e1.t, ⟨e1.undo_stack.top, e1.undo_stack.size - 1⟩,
    ⟨e1.redo_stack.top, e1.redo_stack.size + 1⟩, e1.command_id⟩, ?_, ?_, g6⟩
  · have h0 : r0.command_id = x.id := hid r0 (by simp [hrec])
    have htop2 : e.undo_stack.top = r0 :: (rs0 ++ undoRecords past) := by
      rw [htop, hrec]; rfl
    rw [htop2] at g1
    simp only [undo_step, htop2, h0, g1]
  · have hb := h.bound
    refine ⟨g2, by rw [g3]; exact hD0, by rw [g3]; exact hp,
      ⟨by rw [g3], ⟨hne, hid, hl, hD0⟩, by rw [hxa]; exact h.futureOK⟩, ?_, ?_, ?_, ?_, ?_, ?_,
      ?_, ?_⟩
    · rw [← timelineIds_move]; exact h.ids
    · rw [← timelineIds_move]; simp only [g6]; exact h.fresh
    · simp only [g4]
    · simp only [g5, redoRecords, h.redo_top]
    · simp only [g4, h.undo_size, List.length_cons]; push_cast; omega
    · simp only [g5, h.redo_size, List.length_cons]; push_cast; omega
    · simp only [g3]; exact (hb x (by simp)).1
    · intro y hy
      exact hb y (by simpa using hy)

theorem redo_step_spec {P : Doc → Prop} {x : Entry} {past future : List Entry} {e : Editor}
    (h : Rep P past (x :: future) e) :
    ∃ e1, redo_step e = some e1 ∧ Rep P (x :: past) future e1 ∧
      e1.command_id = e.command_id := by
  obtain ⟨hxb, hx, hf⟩ := h.futureOK
  obtain ⟨hne, hid, hl, hD0⟩ := hx
  have hne2 : x.records.reverse ≠ [] := by simpa using hne
  obtain ⟨r0, rs0, hrec⟩ := List.exists_cons_of_ne_nil hne2
  have htop : e.redo_stack.top = x.records.reverse ++ redoRecords future := h.redo_top
  have hids := h.ids
  simp only [timelineIds, List.map_append, List.map_cons, List.pairwise_append,
    List.pairwise_cons, List.mem_map, List.mem_reverse, List.mem_cons] at hids
  have hbelow : ∀ r ∈ redoRecords future, r.command_id ≠ x.id := by
    intro r hr
    obtain ⟨y, hy, e1⟩ := mem_redoRecords hf hr
    have := hids.2.1.1 y.id ⟨y, hy, rfl⟩
    omega
  obtain ⟨e1, g1, g2, g3, g4, g5, g6⟩ := redo_group_spec x.id x.records.reverse
    (redoRecords future) x.after e.redo_stack.top.length e (by rw [htop]; simp) h.tree htop
    (by rw [List.reverse_reverse, ← hxb]; exact hl)
    (fun r hr => hid r (by simpa using hr)) hbelow
  refine ⟨⟨e1.t, ⟨e1.undo_stack.top, e1.undo_stack.size + 1⟩,
    ⟨e1.redo_stack.top, e1.redo_stack.size - 1⟩, e1.command_id⟩, ?_, ?_, g6⟩
  · have h0 : r0.command_id = x.id := hid r0 (by
      have : r0 ∈ x.records.reverse := by simp [hrec]
      simpa using this)
    have htop2 : e.redo_stack.top = r0 :: (rs0 ++ redoRecords future) := by
      rw [htop, hrec]; rfl
    rw [htop2] at g1
    simp only [redo_step, htop2, h0, g1]
  · have hb := h.bound
    refine ⟨g2, by rw [g3]; exact EntryOK_after ⟨hne, hid, hl, hD0⟩,
      ⟨by rw [g3], ⟨hne, hid, hl, hD0⟩, by rw [hxb]; exact h.pastOK⟩, by rw [g3]; exact hf,
      ?_, ?_, ?_, ?_, ?_, ?_, ?_, ?_⟩
    · rw [timelineIds_move]; exact h.ids
    · rw [timelineIds_move]; simp only [g6]; exact h.fresh
    · simp only [g5, undoRecords, h.undo_top, List.reverse_reverse]
    · simp only [g4]
    · simp only [g5, h.undo_size, List.length_cons]; push_cast; omega
    · simp only [g4, h.redo_size, List.length_cons]; push_cast; omega
    · simp only [g3]; exact (hb x (by simp)).2
    · intro y hy
      exact hb y (by simpa using hy)

/-! ## Commands on the represented history -/

theorem push_Rep {P : Doc → Prop} {past future : List Entry} {e : Editor}
    (h : Rep P past future e) (t1 : tree_t) (new : List list_of_commands_t)
    (ht : TreeOK t1) (hl : Linked (toList e.t.root) new (toList t1.root)) (hne : new ≠ [])
    (hid : ∀ r ∈ new, r.command_id = e.command_id) (hP : P (toList t1.root)) :
    Rep P (⟨e.command_id, new, toList e.t.root, toList t1.root⟩ :: past) []
      ⟨t1, ⟨new ++ e.undo_stack.top, e.undo_stack.size + 1⟩, ⟨[], 0⟩, e.command_id + 1⟩ := by
  have hids := h.ids
  simp only [timelineIds, List.map_append, List.pairwise_append] at hids
  refine ⟨ht, Linked_DocOK hl h.docOK, ⟨rfl, ⟨hne, hid, hl, h.docOK⟩, h.pastOK⟩, trivial,
    ?_, ?_, ?_, rfl, ?_, rfl, hP, ?_⟩
  · simp only [timelineIds, List.reverse_cons, List.append_nil, List.map_append, List.map_cons,
      List.map_nil, List.pairwise_append, List.pairwise_cons, List.mem_singleton]
    refine ⟨hids.1, ⟨by simp, List.Pairwise.nil⟩, ?_⟩
    intro a ha b hb
    subst hb
    exact h.fresh a (by simp only [timelineIds, List.map_append, List.mem_append]; exact Or.inl ha)
  · intro i hi
    simp only [timelineIds, List.reverse_cons, List.append_nil, List.map_append, List.map_cons,
      List.map_nil, List.mem_append, List.mem_singleton] at hi
    rcases hi with hi | rfl
    · have := h.fresh i (by
        simp only [timelineIds, List.map_append, List.mem_append]; exact Or.inl hi)
      show i < e.command_id + 1
      omega
    · show e.command_id < e.command_id + 1
      omega
  · simp only [undoRecords, h.undo_top]
  · simp only [h.undo_size, List.length_cons]; push_cast; rfl
  · intro y hy
    simp only [List.reverse_cons, List.append_nil, List.mem_append, List.mem_singleton] at hy
    rcases hy with hy | rfl
    · exact h.bound y (by simp only [List.mem_append]; exact Or.inl hy)
    · exact ⟨h.cur, hP⟩

theorem exec_change_Rep {P : Doc → Prop} {past future : List Entry} {e : Editor}
    (h : Rep P past future e) (start end_ : Int) (lines : List String)
    (h1 : 1 ≤ start) (h2 : start ≤ end_) (h3 : end_ < INT_MAX)
    (hn : lines.length = (end_ - start + 1).toNat)
    (hP : P (Doc.change start lines (toList e.t.root))) :
    ∃ e1 x, exec_change start end_ lines e = some e1 ∧ Rep P (x :: past) [] e1 ∧
      x.before = toList e.t.root ∧ x.id = e.command_id ∧
      toList e1.t.root = Doc.change start lines (toList e.t.root) ∧
      e1.command_id = e.command_id + 1 := by
  obtain ⟨t1, new, g1, g2, g3, g4, g5, g6⟩ :=
    exec_change_spec start end_ lines e h.tree h.docOK h1 h2 h3 hn
  exact ⟨_, _, g1, push_Rep h t1 new g2 g4 g5 g6 (g3 ▸ hP), rfl, rfl, g3, rfl⟩

theorem exec_delete_Rep {P : Doc → Prop} {past future : List Entry} {e : Editor}
    (h : Rep P past future e) (start end_ : Int)
    (h1 : 1 ≤ start) (h2 : start ≤ end_) (h3 : end_ < INT_MAX)
    (hP : P (Doc.delete start end_ (toList e.t.root))) :
    ∃ e1 x, exec_delete start end_ e = some e1 ∧ Rep P (x :: past) [] e1 ∧
      x.before = toList e.t.root ∧ x.id = e.command_id ∧
      toList e1.t.root = Doc.delete start end_ (toList e.t.root) ∧
      e1.command_id = e.command_id + 1 := by
  obtain ⟨t1, new, g1, g2, g3, g4, g5, g6⟩ :=
    exec_delete_spec start end_ e h.tree h.docOK h1 h2 h3
  exact ⟨_, _, g1, push_Rep h t1 new g2 g4 g5 g6 (g3 ▸ hP), rfl, rfl, g3, rfl⟩

theorem At_le {P : Doc → Prop} {T : List Entry} {j : Nat} {e : Editor} (h : At P T j e) :
    j ≤ T.length := by
  obtain ⟨past, future, rfl, rfl, _⟩ := h
  simp

theorem At_sizes {P : Doc → Prop} {T : List Entry} {j : Nat} {e : Editor} (h : At P T j e) :
    e.undo_stack.size = j ∧ e.redo_stack.size = (T.length : Int) - j := by
  obtain ⟨past, future, rfl, rfl, hr⟩ := h
  refine ⟨hr.undo_size, ?_⟩
  rw [hr.redo_size]
  simp

theorem At_undo {P : Doc → Prop} {T : List Entry} {j : Nat} {e : Editor}
    (h : At P T (j + 1) e) :
    ∃ e1, undo_step e = some e1 ∧ At P T j e1 ∧ e1.command_id = e.command_id := by
  obtain ⟨past, future, hT, hj, hr⟩ := h
  cases past with
  | nil => simp at hj
  | cons x p =>
    obtain ⟨e1, g1, g2, g3⟩ := undo_step_spec hr
    exact ⟨e1, g1, ⟨p, x :: future, by simp [hT], by simpa using hj, g2⟩, g3⟩

theorem At_redo {P : Doc → Prop} {T : List Entry} {j : Nat} {e : Editor}
    (h : At P T j e) (hj : j < T.length) :
    ∃ e1, redo_step e = some e1 ∧ At P T (j + 1) e1 ∧ e1.command_id = e.command_id := by
  obtain ⟨past, future, hT, hp, hr⟩ := h
  cases future with
  | nil => subst hT; simp at hj; omega
  | cons x f =>
    obtain ⟨e1, g1, g2, g3⟩ := redo_step_spec hr
    exact ⟨e1, g1, ⟨x :: past, f, by simp [hT], by simp [hp], g2⟩, g3⟩

theorem iterate_undo_At {P : Doc → Prop} {T : List Entry} (m : Nat) {j : Nat} {e : Editor}
    (h : At P T j e) (hm : m ≤ j) :
    ∃ e1, iterate undo_step m e = some e1 ∧ At P T (j - m) e1 ∧
      e1.command_id = e.command_id := by
  induction m generalizing j e with
  | zero => exact ⟨e, rfl, h, rfl⟩
  | succ m ih =>
    obtain ⟨j, rfl⟩ : ∃ k, j = k + 1 := ⟨j - 1, by omega⟩
    obtain ⟨e1, g1, g2, g3⟩ := At_undo h
    obtain ⟨e2, k1, k2, k3⟩ := ih g2 (by omega)
    refine ⟨e2, by simp only [iterate, g1, k1], ?_, by rw [k3, g3]⟩
    have : j + 1 - (m + 1) = j - m := by omega
    rw [this]; exact k2

theorem iterate_redo_At {P : Doc → Prop} {T : List Entry} (m : Nat) {j : Nat} {e : Editor}
    (h : At P T j e) (hm : j + m ≤ T.length) :
    ∃ e1, iterate redo_step m e = some e1 ∧ At P T (j + m) e1 ∧
      e1.command_id = e.command_id := by
  induction m generalizing j e with
  | zero => exact ⟨e, rfl, h, rfl⟩
  | succ m ih =>
    obtain ⟨e1, g1, g2, g3⟩ := At_redo h (by omega)
    obtain ⟨e2, k1, k2, k3⟩ := ih g2 (by omega)
    refine ⟨e2, by simp only [iterate, g1, k1], ?_, by rw [k3, g3]⟩
    have : j + (m + 1) = j + 1 + m := by omega
    rw [this]; exact k2

theorem apply_do_At {P : Doc → Prop} {T : List Entry} {j : Nat} {e : Editor} (d : Int)
    (h : At P T j e) (h1 : -((T.length : Int) - j) ≤ d) (h2 : d ≤ j) :
    ∃ e1, apply_do d e = some e1 ∧ At P T ((j : Int) - d).toNat e1 ∧
      e1.command_id = e.command_id := by
  unfold apply_do
  by_cases hpos : d > 0
  · simp only [hpos, if_true]
    obtain ⟨e1, g1, g2, g3⟩ := iterate_undo_At d.toNat h (by omega)
    refine ⟨e1, g1, ?_, g3⟩
    have : ((j : Int) - d).toNat = j - d.toNat := by omega
    rw [this]; exact g2
  · by_cases hneg : d < 0
    · simp only [hpos, hneg, if_true, if_false]
      obtain ⟨e1, g1, g2, g3⟩ := iterate_redo_At (-d).toNat h (by omega)
      refine ⟨e1, g1, ?_, g3⟩
      have : ((j : Int) - d).toNat = j + (-d).toNat := by omega
      rw [this]; exact g2
    · simp only [hpos, hneg, if_false]
      have : d = 0 := by omega
      subst this
      exact ⟨e, rfl, by simpa using h, rfl⟩

theorem PastOK_unique {past : List Entry} {D D2 : Doc} (h1 : PastOK past D)
    (h2 : PastOK past D2) : D = D2 := by
  cases past with
  | nil => simp only [PastOK] at h1 h2; rw [h1, h2]
  | cons x p => rw [← h1.1, ← h2.1]

theorem Rep_view_unique {P : Doc → Prop} {past future : List Entry} {e e2 : Editor}
    (h1 : Rep P past future e) (h2 : Rep P past future e2)
    (hc : e.command_id = e2.command_id) : e.view = e2.view := by
  have hd := PastOK_unique h1.pastOK h2.pastOK
  have hu : e.undo_stack = e2.undo_stack := by
    have a := h1.undo_top; have b := h2.undo_top
    have c := h1.undo_size; have d := h2.undo_size
    cases hx : e.undo_stack; cases hy : e2.undo_stack
    simp only [hx, hy] at a b c d
    simp [a, b, c, d]
  have hr : e.redo_stack = e2.redo_stack := by
    have a := h1.redo_top; have b := h2.redo_top
    have c := h1.redo_size; have d := h2.redo_size
    cases hx : e.redo_stack; cases hy : e2.redo_stack
    simp only [hx, hy] at a b c d
    simp [a, b, c, d]
  simp only [Editor.view, hd, hu, hr, hc, h1.tree.count, h2.tree.count]

theorem At_view_unique {P : Doc → Prop} {T : List Entry} {j : Nat} {e e2 : Editor}
    (h1 : At P T j e) (h2 : At P T j e2) (hc : e.command_id = e2.command_id) :
    e.view = e2.view := by
  obtain ⟨p1, f1, hT1, hj1, r1⟩ := h1
  obtain ⟨p2, f2, hT2, hj2, r2⟩ := h2
  have hlen : p1.reverse.length = p2.reverse.length := by simp [hj1, hj2]
  obtain ⟨ha, hb⟩ := List.append_inj (hT1.symm.trans hT2) hlen
  have ha2 : p1 = p2 := List.reverse_injective ha
  subst ha2; subst hb
  exact Rep_view_unique r1 r2 hc

/-! ## Coalescing -/

theorem min_eq (a b : Int) : min a b = if a < b then a else b := rfl

theorem PendingOK_count {j n : Nat} {p : Pending} (tok : DoToken) (h : PendingOK j n p)
    (h0 : 0 ≤ tok.start) : PendingOK j n (p.count tok) := by
  obtain ⟨h1, h2, h3, h4⟩ := h
  cases tok with
  | UNDO s =>
    simp only [DoToken.start] at h0
    simp only [PendingOK, Pending.count, min_eq]
    split <;> refine ⟨?_, ?_, ?_, ?_⟩ <;> omega
  | REDO s =>
    simp only [DoToken.start] at h0
    simp only [PendingOK, Pending.count, min_eq]
    split <;> refine ⟨?_, ?_, ?_, ?_⟩ <;> omega

theorem PendingOK_foldl {j n : Nat} (run : List DoToken) {p : Pending} (h : PendingOK j n p)
    (h0 : ∀ tok ∈ run, 0 ≤ tok.start) : PendingOK j n (run.foldl Pending.count p) := by
  induction run generalizing p with
  | nil => exact h
  | cons tok run ih =>
    exact ih (PendingOK_count tok h (h0 tok (by simp))) (fun t ht => h0 t (by simp [ht]))

theorem PendingOK_init {P : Doc → Prop} {T : List Entry} {j : Nat} {e : Editor}
    (h : At P T j e) : PendingOK j T.length (Pending.init e) := by
  have hs := At_sizes h
  have := At_le h
  refine ⟨?_, ?_, ?_, ?_⟩ <;> simp only [Pending.init, hs] <;> omega

theorem exec_run_At {P : Doc → Prop} {T : List Entry} {j : Nat} {e : Editor}
    (run : List DoToken) (h : At P T j e) (h0 : ∀ tok ∈ run, 0 ≤ tok.start) :
    ∃ e1, exec_run run e = some e1 ∧
      At P T (coalesce e run).temporary_undo_stack_size.toNat e1 ∧
      e1.command_id = e.command_id := by
  obtain ⟨h1, h2, h3, h4⟩ := PendingOK_foldl run (PendingOK_init h) h0
  obtain ⟨e1, g1, g2, g3⟩ := apply_do_At (coalesce e run).start_do h
    (by simp only [coalesce]; omega) (by simp only [coalesce]; omega)
  refine ⟨e1, g1, ?_, g3⟩
  have : (coalesce e run).temporary_undo_stack_size = (j : Int) - (coalesce e run).start_do := h1
  rw [this]; exact g2

theorem foldl_count_shift (run : List DoToken) (p : Pending) (d : Int) :
    run.foldl Pending.count
        ⟨p.start_do + d, p.temporary_undo_stack_size, p.temporary_redo_stack_size⟩ =
      ⟨(run.foldl Pending.count p).start_do + d,
        (run.foldl Pending.count p).temporary_undo_stack_size,
        (run.foldl Pending.count p).temporary_redo_stack_size⟩ := by
  induction run generalizing p with
  | nil => rfl
  | cons tok run ih =>
    simp only [List.foldl_cons]
    have : Pending.count
        ⟨p.start_do + d, p.temporary_undo_stack_size, p.temporary_redo_stack_size⟩ tok =
        ⟨(p.count tok).start_do + d, (p.count tok).temporary_undo_stack_size,
          (p.count tok).temporary_redo_stack_size⟩ := by
      cases tok <;> simp only [Pending.count, Pending.mk.injEq, and_true] <;> omega
    rw [this, ih]

theorem one_at_a_time_At {P : Doc → Prop} {T : List Entry} {j : Nat} {e : Editor}
    (run : List DoToken) (h : At P T j e) (h0 : ∀ tok ∈ run, 0 ≤ tok.start) :
    ∃ e2, one_at_a_time run e = some e2 ∧
      At P T (coalesce e run).temporary_undo_stack_size.toNat e2 ∧
      e2.command_id = e.command_id := by
  induction run generalizing j e with
  | nil =>
    refine ⟨e, rfl, ?_, rfl⟩
    simp only [coalesce, List.foldl_nil, Pending.init, (At_sizes h).1, Int.toNat_ofNat]
    exact h
  | cons tok run ih =>
    have hs := At_sizes h
    have hle := At_le h
    have htok := h0 tok (by simp)
    have hstep : ∃ e1 j1, exec_token tok e = some e1 ∧ At P T j1 e1 ∧
        e1.command_id = e.command_id ∧
        (Pending.init e).count tok =
          ⟨(Pending.init e1).start_do + ((j : Int) - j1),
            (Pending.init e1).temporary_undo_stack_size,
            (Pending.init e1).temporary_redo_stack_size⟩ := by
      cases tok with
      | UNDO s =>
        simp only [DoToken.start] at htok
        obtain ⟨e1, g1, g2, g3⟩ := iterate_undo_At (min s e.undo_stack.size).toNat h
          (by simp only [min_eq, hs]; split <;> omega)
        refine ⟨e1, _, g1, g2, g3, ?_⟩
        have hs1 := At_sizes g2
        simp only [Pending.count, Pending.init, hs, hs1, min_eq, Pending.mk.injEq]
        split <;> refine ⟨?_, ?_, ?_⟩ <;> omega
      | REDO s =>
        simp only [DoToken.start] at htok
        obtain ⟨e1, g1, g2, g3⟩ := iterate_redo_At (min s e.redo_stack.size).toNat h
          (by simp only [min_eq, hs]; split <;> omega)
        refine ⟨e1, _, g1, g2, g3, ?_⟩
        have hs1 := At_sizes g2
        simp only [Pending.count, Pending.init, hs, hs1, min_eq, Pending.mk.injEq]
        split <;> refine ⟨?_, ?_, ?_⟩ <;> omega
    obtain ⟨e1, j1, g1, g2, g3, g4⟩ := hstep
    obtain ⟨e2, k1, k2, k3⟩ := ih g2 (fun t ht => h0 t (by simp [ht]))
    refine ⟨e2, by simp only [one_at_a_time, g1, k1], ?_, by rw [k3, g3]⟩
    simp only [coalesce, List.foldl_cons, g4, foldl_count_shift]
    exact k2

/-! ## Reachable states -/

theorem TreeOK_create : TreeOK tree_create :=
  ⟨⟨rfl, 0, by simp [tree_create]⟩, List.Pairwise.nil, rfl⟩

theorem Rep_init {P : Doc → Prop} (h0 : P []) : Rep P [] [] Editor.init :=
  ⟨TreeOK_create, ⟨List.Pairwise.nil, by simp [Editor.init, tree_create, toList]⟩, rfl, trivial,
    List.Pairwise.nil, by simp [timelineIds], rfl, rfl, rfl, rfl, h0, by simp⟩

theorem Rep_At {P : Doc → Prop} {past future : List Entry} {e : Editor}
    (h : Rep P past future e) : At P (past.reverse ++ future) past.length e :=
  ⟨past, future, rfl, rfl, h⟩

theorem ReachableBy_Rep {P : Doc → Prop} {ok : Editor → Input → Prop} (h0 : P [])
    (hwf : ∀ e i, ok e i → i.WF)
    (hchange : ∀ e start end_ lines, ok e (Input.CHANGE start end_ lines) → TreeOK e.t →
      DocOK (toList e.t.root) → P (toList e.t.root) →
      DocOK (Doc.change start lines (toList e.t.root)) →
      P (Doc.change start lines (toList e.t.root)))
    (hdelete : ∀ e start end_, ok e (Input.DELETE start end_) → TreeOK e.t →
      DocOK (toList e.t.root) → P (toList e.t.root) →
      DocOK (Doc.delete start end_ (toList e.t.root)) →
      P (Doc.delete start end_ (toList e.t.root)))
    {e : Editor} (h : ReachableBy ok e) : ∃ past future, Rep P past future e := by
  induction h with
  | init => exact ⟨[], [], Rep_init h0⟩
  | @step e e1 i _ hok hstep ih =>
    obtain ⟨past, future, hr⟩ := ih
    have hw := hwf e i hok
    cases i with
    | CHANGE start end_ lines =>
      obtain ⟨h1, h2, hn⟩ := hw
      have h3 : end_ < INT_MAX := exec_change_bound h2 hstep
      obtain ⟨t1, new, _, _, k3, k4, _⟩ :=
        exec_change_spec start end_ lines e hr.tree hr.docOK h1 h2 h3 hn
      obtain ⟨e2, x, g1, g2, _⟩ := exec_change_Rep hr start end_ lines h1 h2 h3 hn
        (hchange e start end_ lines hok hr.tree hr.docOK hr.cur
          (k3 ▸ Linked_DocOK k4 hr.docOK))
      simp only [step, g1, Option.some.injEq] at hstep
      subst hstep
      exact ⟨_, _, g2⟩
    | DELETE start end_ =>
      obtain ⟨h1, h2⟩ := hw
      have h3 : end_ < INT_MAX := exec_delete_bound h2 hstep
      obtain ⟨t1, new, _, _, k3, k4, _⟩ :=
        exec_delete_spec start end_ e hr.tree hr.docOK h1 h2 h3
      obtain ⟨e2, x, g1, g2, _⟩ := exec_delete_Rep hr start end_ h1 h2 h3
        (hdelete e start end_ hok hr.tree hr.docOK hr.cur (k3 ▸ Linked_DocOK k4 hr.docOK))
      simp only [step, g1, Option.some.injEq] at hstep
      subst hstep
      exact ⟨_, _, g2⟩
    | PRINT start end_ =>
      simp only [step] at hstep
      split at hstep
      · cases hstep; exact ⟨past, future, hr⟩
      · cases hstep
    | RUN run =>
      obtain ⟨e2, g1, ⟨p2, f2, _, _, g2⟩, _⟩ := exec_run_At run (Rep_At hr) hw
      simp only [step, g1, Option.some.injEq] at hstep
      subst hstep
      exact ⟨p2, f2, g2⟩

theorem Reachable_Rep {e : Editor} (h : Reachable e) :
    ∃ past future, Rep (fun _ => True) past future e :=
  ReachableBy_Rep trivial (fun _ _ hi => hi) (fun _ _ _ _ _ _ _ _ _ => trivial)
    (fun _ _ _ _ _ _ _ _ => trivial) h

theorem main_loop_tokens (run : List DoToken) (cs : List Command) (p : Pending) (e : Editor)
    (out : List String) :
    main_loop (run.map DoToken.command ++ cs) (some p) e out =
      main_loop cs (some (run.foldl Pending.count p)) e out := by
  induction run generalizing p with
  | nil => rfl
  | cons tok run ih =>
    cases tok <;>
      · simp only [List.map_cons, List.cons_append, DoToken.command, main_loop, Option.getD_some,
          List.foldl_cons]
        exact ih _

/-- In `main`, a maximal run of `UNDO`/`REDO` lines followed by another command is executed
as `exec_run` on the whole run, and the loop goes on from the state it gives with the
command that ended the run.  (When the input ends with the run, neither side has a
result.) -/
theorem main_loop_run (tok : DoToken) (run : List DoToken) (cs : List Command) (e : Editor)
    (out : List String) (hcs : ∀ c ∈ cs.head?, ∀ n, c ≠ Command.UNDO n ∧ c ≠ Command.REDO n) :
    main_loop ((tok :: run).map DoToken.command ++ cs) none e out =
      (exec_run (tok :: run) e).bind (fun e1 => main_loop cs none e1 out) := by
  have h1 : main_loop ((tok :: run).map DoToken.command ++ cs) none e out =
      main_loop cs (some ((tok :: run).foldl Pending.count (Pending.init e))) e out := by
    cases tok <;>
      · simp only [List.map_cons, List.cons_append, DoToken.command, main_loop, Option.getD_none,
          List.foldl_cons]
        exact main_loop_tokens run cs _ e out
  rw [h1]
  simp only [exec_run, coalesce]
  cases cs with
  | nil =>
    simp only [main_loop, flush]
    cases apply_do _ e <;> rfl
  | cons c cs =>
    cases c with
    | UNDO n => exact absurd rfl (hcs _ (by simp) n).1
    | REDO n => exact absurd rfl (hcs _ (by simp) n).2
    | CHANGE a b lines =>
      simp only [main_loop, flush]
      cases apply_do _ e <;> rfl
    | DELETE a b =>
      simp only [main_loop, flush]
      cases apply_do _ e <;> rfl
    | PRINT a b =>
      simp only [main_loop, flush]
      cases apply_do _ e <;> rfl
    | QUIT =>
      simp only [main_loop, flush]
      cases apply_do _ e <;> rfl

/-! ## The document as a map -/

theorem Doc.lookup_of_mem {D : Doc} {k : Int} {s : String} (hs : SortedK D)
    (hm : (k, s) ∈ D) : Doc.lookup k D = some s := by
  induction D with
  | nil => simp at hm
  | cons a D ih =>
    obtain ⟨j, v⟩ := a
    rw [SortedK_cons] at hs
    simp only [List.mem_cons, Prod.mk.injEq] at hm
    simp only [Doc.lookup]
    rcases hm with ⟨rfl, rfl⟩ | hm
    · simp
    · have := hs.1 _ hm
      simp only at this
      have hne : ¬ j = k := by omega
      simp only [hne, if_false]
      exact ih hs.2 hm

theorem Doc.lookup_of_not_mem {D : Doc} {k : Int} (hm : ∀ p ∈ D, p.1 ≠ k) :
    Doc.lookup k D = none := by
  induction D with
  | nil => rfl
  | cons a D ih =>
    obtain ⟨j, v⟩ := a
    have := hm (j, v) (by simp)
    simp only [Doc.lookup]
    simp only at this
    simp only [this, if_false]
    exact ih (fun p hp => hm p (by simp [hp]))

theorem Doc.lookup_some_iff {D : Doc} {k : Int} {s : String} (hs : SortedK D) :
    Doc.lookup k D = some s ↔ (k, s) ∈ D := by
  constructor
  · intro h
    rcases Doc.mem_or_not D k with ⟨s0, hm⟩ | hn
    · rw [Doc.lookup_of_mem hs hm] at h
      cases h; exact hm
    · rw [Doc.lookup_of_not_mem hn] at h
      cases h
  · exact Doc.lookup_of_mem hs

theorem lookup_eq {t : tree_t} (ht : TreeOK t) (k : Int) :
    lookup t k = Doc.lookup k (toList t.root) := by
  cases h : tree_search t k with
  | some y =>
    obtain ⟨l, s0, c, r, e, hm⟩ := tree_search_mem ht h
    rw [Doc.lookup_of_mem ht.sorted hm]
    obtain ⟨here, up⟩ := y
    simp only at e
    subst e
    simp only [lookup, h]
  | none =>
    rw [Doc.lookup_of_not_mem (tree_search_none ht h)]
    simp only [lookup, h]

theorem document_eq_of_toList {e e2 : Editor} (h1 : TreeOK e.t) (h2 : TreeOK e2.t)
    (h : toList e2.t.root = toList e.t.root) : document e2 = document e := by
  simp only [document, Prod.mk.injEq]
  refine ⟨funext fun k => ?_, ?_⟩
  · rw [lookup_eq h1, lookup_eq h2, h]
  · rw [h1.count, h2.count, h]

theorem exec_run_undo_one {e : Editor} (h : 1 ≤ e.undo_stack.size) :
    exec_run [DoToken.UNDO 1] e = iterate undo_step 1 e := by
  have : min 1 e.undo_stack.size = 1 := by
    simp only [min_eq]; split <;> omega
  simp [exec_run, coalesce, Pending.init, Pending.count, this, apply_do]

/-- C1: for every state reachable from the empty editor by well-formed commands and every
well-formed `CHANGE` or `DELETE` command `c` whose last line number is below `INT_MAX`,
executing `c` and then `UNDO(1)` succeeds and gives back the document (index-to-payload map
and line count) that preceded `c`. -/
theorem change_or_delete_then_undo_restores (e : Editor) (c : Input) (he : Reachable e)
    (hc : c.mutating) (hw : c.WF) (hb : c.bounded) :
    ∃ e1 e2, step c e = some e1 ∧ step (Input.RUN [DoToken.UNDO 1]) e1 = some e2 ∧
      document e2 = document e := by
  obtain ⟨past, future, hr⟩ := Reachable_Rep he
  have key : ∀ e1 x, Rep (fun _ => True) (x :: past) [] e1 → x.before = toList e.t.root →
      ∃ e2, step (Input.RUN [DoToken.UNDO 1]) e1 = some e2 ∧ document e2 = document e := by
    intro e1 x h1 hx
    obtain ⟨e2, g1, g2, _⟩ := undo_step_spec h1
    refine ⟨e2, ?_, document_eq_of_toList hr.tree g2.tree (by rw [← g2.futureOK.1, hx])⟩
    have hs : 1 ≤ e1.undo_stack.size := by rw [h1.undo_size]; simp
    simp only [step, exec_run_undo_one hs, iterate, g1]
  cases c with
  | CHANGE start end_ lines =>
    obtain ⟨h1, h2, h3⟩ := hw
    obtain ⟨e1, x, g1, g2, g3, _⟩ := exec_change_Rep hr start end_ lines h1 h2 hb h3 trivial
    obtain ⟨e2, k1, k2⟩ := key e1 x g2 g3
    exact ⟨e1, e2, g1, k1, k2⟩
  | DELETE start end_ =>
    obtain ⟨h1, h2⟩ := hw
    obtain ⟨e1, x, g1, g2, g3, _⟩ := exec_delete_Rep hr start end_ h1 h2 hb trivial
    obtain ⟨e2, k1, k2⟩ := key e1 x g2 g3
    exact ⟨e1, e2, g1, k1, k2⟩
  | PRINT _ _ => exact hc.elim
  | RUN _ => exact hc.elim

theorem state_hello_reachable : Reachable state_hello :=
  ReachableBy.step (i := Input.CHANGE 1 1 ["hello\n"]) ReachableBy.init
    ⟨by decide, by decide, by decide⟩ (by rfl)

/-- Witness for C1 (scenario S2): after `1,1c hello`, the command `1,1c world` followed by
`1,1u` gives back the document holding `hello`. -/
theorem change_or_delete_then_undo_restores_witness :
    ∃ e1 e2, step (Input.CHANGE 1 1 ["world\n"]) state_hello = some e1 ∧
      step (Input.RUN [DoToken.UNDO 1]) e1 = some e2 ∧ document e2 = document state_hello :=
  change_or_delete_then_undo_restores state_hello (Input.CHANGE 1 1 ["world\n"])
    state_hello_reachable trivial ⟨by decide, by decide, by decide⟩
    (by unfold Input.bounded INT_MAX; decide)

/-- Counterexample to C1 as stated: after `1,1c hello`, the well-formed command
`2147483647,2147483647c` does not complete. Its loop over the line numbers tests
`line_number <= end` with `end = INT_MAX`, which holds for every `int`, so the loop is not
left whatever the number of iterations allowed and whatever follows in the input. -/
theorem change_at_int_max_counterexample :
    Reachable state_hello ∧ (Input.CHANGE 2147483647 2147483647 ["x\n"]).mutating ∧
      (Input.CHANGE 2147483647 2147483647 ["x\n"]).WF ∧
      step (Input.CHANGE 2147483647 2147483647 ["x\n"]) state_hello = none ∧
      ∀ (fuel : Nat) (lines : List String) (t : tree_t) (s : stack_t),
        change_for state_hello.command_id 2147483647 fuel 2147483647 lines t s = none :=
  ⟨state_hello_reachable, trivial, ⟨by decide, by decide, by decide⟩, by rfl,
    fun fuel lines t s => change_for_none _ _ fuel _ lines t s (by decide)
      (by unfold INT_MAX; decide)⟩

/-- C2: in every reachable state and for every `k >= 0`, with `m = min(k, |U|_g)`, `m` undo
steps followed by `m` redo steps succeed and restore the document (map and line count), the
undo stack (records and counter) and the redo stack (records and counter). -/
theorem undo_then_redo_restores (e : Editor) (k : Int) (he : Reachable e) (hk : 0 ≤ k) :
    ∃ e1 e2, iterate undo_step (min k e.undo_stack.size).toNat e = some e1 ∧
      iterate redo_step (min k e.undo_stack.size).toNat e1 = some e2 ∧
      document e2 = document e ∧ e2.undo_stack = e.undo_stack ∧
      e2.redo_stack = e.redo_stack := by
  obtain ⟨past, future, hr⟩ := Reachable_Rep he
  have hat := Rep_At hr
  have hs := At_sizes hat
  have hm : (min k e.undo_stack.size).toNat ≤ past.length := by
    simp only [min_eq, hs]; split <;> omega
  obtain ⟨e1, g1, g2, g3⟩ := iterate_undo_At _ hat hm
  obtain ⟨e2, k1, k2, k3⟩ := iterate_redo_At (min k e.undo_stack.size).toNat g2
    (by have := At_le hat; omega)
  have hpos : past.length - (min k e.undo_stack.size).toNat + (min k e.undo_stack.size).toNat
      = past.length := by omega
  rw [hpos] at k2
  have hv := At_view_unique k2 hat (by rw [k3, g3])
  obtain ⟨_, _, _, _, r2⟩ := k2
  exact ⟨e1, e2, g1, k1, document_eq_of_toList hr.tree r2.tree (congrArg View.doc hv),
    congrArg View.undo_stack hv, congrArg View.redo_stack hv⟩

theorem state_world_reachable : Reachable state_world :=
  ReachableBy.step (i := Input.CHANGE 1 1 ["world\n"]) state_hello_reachable
    ⟨by decide, by decide, by decide⟩ (by rfl)

/-- Witness for C2: after `hello` and `world`, one undo step and one redo step restore
everything. -/
theorem undo_then_redo_restores_witness :
    ∃ e1 e2, iterate undo_step (min 1 state_world.undo_stack.size).toNat state_world = some e1 ∧
      iterate redo_step (min 1 state_world.undo_stack.size).toNat e1 = some e2 ∧
      document e2 = document state_world ∧ e2.undo_stack = state_world.undo_stack ∧
      e2.redo_stack = state_world.redo_stack :=
  undo_then_redo_restores state_world 1 state_world_reachable (by decide)

/-- C3: in every reachable state and for every run of `UNDO(n)`/`REDO(n)` commands with all
`n >= 0`, the coalesced execution of `main` and the execution of the commands one at a time
both succeed and produce the same document (lines in key order, map and line count), the
same undo and redo stacks with their counters, and the same group id. -/
theorem coalescing_refines_one_at_a_time (e : Editor) (run : List DoToken) (he : Reachable e)
    (h0 : ∀ tok ∈ run, 0 ≤ tok.start) :
    ∃ e1 e2, exec_run run e = some e1 ∧ one_at_a_time run e = some e2 ∧
      e1.view = e2.view ∧ document e1 = document e2 := by
  obtain ⟨past, future, hr⟩ := Reachable_Rep he
  have hat := Rep_At hr
  obtain ⟨e1, g1, g2, g3⟩ := exec_run_At run hat h0
  obtain ⟨e2, k1, k2, k3⟩ := one_at_a_time_At run hat h0
  have hv := At_view_unique g2 k2 (by rw [g3, k3])
  obtain ⟨_, _, _, _, r1⟩ := g2
  obtain ⟨_, _, _, _, r2⟩ := k2
  exact ⟨e1, e2, g1, k1, hv, document_eq_of_toList r2.tree r1.tree (congrArg View.doc hv)⟩

/-- Witness for C3: after `hello` and `world`, the run `5u 2r 1u` coalesced and one at a
time agree. -/
theorem coalescing_refines_one_at_a_time_witness :
    ∃ e1 e2, exec_run [DoToken.UNDO 5, DoToken.REDO 2, DoToken.UNDO 1] state_world = some e1 ∧
      one_at_a_time [DoToken.UNDO 5, DoToken.REDO 2, DoToken.UNDO 1] state_world = some e2 ∧
      e1.view = e2.view ∧ document e1 = document e2 :=
  coalescing_refines_one_at_a_time state_world [DoToken.UNDO 5, DoToken.REDO 2, DoToken.UNDO 1]
    state_world_reachable (by decide)

/-- C8: after a `CHANGE` or `DELETE` command executed from any state, the redo stack holds no
record and its counter is 0; from a reachable state a well-formed such command whose last
line number is below `INT_MAX` does execute. -/
theorem redo_cleared_by_change_or_delete (e : Editor) (c : Input) (hc : c.mutating) :
    (∀ e1, step c e = some e1 → e1.redo_stack.top = [] ∧ e1.redo_stack.size = 0) ∧
      (Reachable e → c.WF → c.bounded → ∃ e1, step c e = some e1) := by
  constructor
  · intro e1 h
    cases c with
    | CHANGE start end_ lines =>
      simp only [step, exec_change] at h
      split at h
      · cases h; simp [make_empty_stack_eq]
      · cases h
    | DELETE start end_ =>
      simp only [step, exec_delete] at h
      split at h
      · cases h; simp [make_empty_stack_eq]
      · cases h
    | PRINT _ _ => exact hc.elim
    | RUN _ => exact hc.elim
  · intro he hw hb
    obtain ⟨past, future, hr⟩ := Reachable_Rep he
    cases c with
    | CHANGE start end_ lines =>
      obtain ⟨e1, _, g1, _⟩ :=
        exec_change_Rep hr start end_ lines hw.1 hw.2.1 hb hw.2.2 trivial
      exact ⟨e1, g1⟩
    | DELETE start end_ =>
      obtain ⟨e1, _, g1, _⟩ := exec_delete_Rep hr start end_ hw.1 hw.2 hb trivial
      exact ⟨e1, g1⟩
    | PRINT _ _ => exact hc.elim
    | RUN _ => exact hc.elim

theorem state_undone_reachable : Reachable state_undone :=
  ReachableBy.step (i := Input.RUN [DoToken.UNDO 1]) state_world_reachable
    (show ∀ tok ∈ [DoToken.UNDO 1], 0 ≤ tok.start by decide) (by rfl)

/-- Witness for C8 (scenario S5): a new `CHANGE` after an undo empties the redo stack. -/
theorem redo_cleared_by_change_or_delete_witness :
    (∀ e1, step (Input.CHANGE 1 1 ["mars\n"]) state_undone = some e1 →
        e1.redo_stack.top = [] ∧ e1.redo_stack.size = 0) ∧
      (Reachable state_undone → (Input.CHANGE 1 1 ["mars\n"]).WF →
        (Input.CHANGE 1 1 ["mars\n"]).bounded →
        ∃ e1, step (Input.CHANGE 1 1 ["mars\n"]) state_undone = some e1) :=
  redo_cleared_by_change_or_delete state_undone (Input.CHANGE 1 1 ["mars\n"]) trivial

theorem apply_do_nonneg (d : Int) (e : Editor) (h : 0 ≤ d) :
    apply_do d e = iterate undo_step d.toNat e := by
  unfold apply_do
  by_cases hp : d > 0
  · simp [hp]
  · have : d = 0 := by omega
    subst this
    simp [iterate]

theorem apply_do_nonpos (d : Int) (e : Editor) (h : 0 ≤ d) :
    apply_do (0 - d) e = iterate redo_step d.toNat e := by
  unfold apply_do
  by_cases hp : d > 0
  · have h1 : ¬ (0 - d > 0) := by omega
    have h2 : 0 - d < 0 := by omega
    simp only [h1, h2, if_true, if_false]
    congr 1
    omega
  · have : d = 0 := by omega
    subst this
    simp [iterate]

theorem min_nonneg {a b : Int} (ha : 0 ≤ a) (hb : 0 ≤ b) : 0 ≤ min a b := by
  simp only [min_eq]; split <;> omega

/-- C10: in every reachable state and for every `n >= 0`, a lone `UNDO(n)` performs exactly
`min(n, |U|_g)` undo steps and a lone `REDO(n)` exactly `min(n, |R|_g)` redo steps, and both
succeed; with `|R|_g = 0` the `REDO(n)` leaves the whole state unchanged, and with
`|U|_g = 0` so does the `UNDO(n)`. -/
theorem lone_undo_redo_saturate (e : Editor) (n : Int) (he : Reachable e) (hn : 0 ≤ n) :
    (∃ e1, exec_run [DoToken.UNDO n] e = some e1 ∧
        iterate undo_step (min n e.undo_stack.size).toNat e = some e1) ∧
      (∃ e1, exec_run [DoToken.REDO n] e = some e1 ∧
        iterate redo_step (min n e.redo_stack.size).toNat e = some e1) ∧
      (e.redo_stack.size = 0 → exec_run [DoToken.REDO n] e = some e) ∧
      (e.undo_stack.size = 0 → exec_run [DoToken.UNDO n] e = some e) := by
  obtain ⟨past, future, hr⟩ := Reachable_Rep he
  have hu : 0 ≤ e.undo_stack.size := by rw [hr.undo_size]; omega
  have hd : 0 ≤ e.redo_stack.size := by rw [hr.redo_size]; omega
  have e1 : exec_run [DoToken.UNDO n] e =
      iterate undo_step (min n e.undo_stack.size).toNat e := by
    simp only [exec_run, coalesce, List.foldl_cons, List.foldl_nil, Pending.init, Pending.count,
      zero_add]
    exact apply_do_nonneg _ e (min_nonneg hn hu)
  have e2 : exec_run [DoToken.REDO n] e =
      iterate redo_step (min n e.redo_stack.size).toNat e := by
    simp only [exec_run, coalesce, List.foldl_cons, List.foldl_nil, Pending.init, Pending.count]
    exact apply_do_nonpos _ e (min_nonneg hn hd)
  have hat := Rep_At hr
  obtain ⟨a, ha, _⟩ := exec_run_At [DoToken.UNDO n] hat (by simpa [DoToken.start] using hn)
  obtain ⟨b, hb, _⟩ := exec_run_At [DoToken.REDO n] hat (by simpa [DoToken.start] using hn)
  refine ⟨⟨a, ha, by rw [← e1]; exact ha⟩, ⟨b, hb, by rw [← e2]; exact hb⟩, ?_, ?_⟩
  · intro h0
    have : min n e.redo_stack.size = 0 := by simp only [min_eq, h0]; split <;> omega
    rw [e2, this]; rfl
  · intro h0
    have : min n e.undo_stack.size = 0 := by simp only [min_eq, h0]; split <;> omega
    rw [e1, this]; rfl

theorem state_mars_reachable : Reachable state_mars :=
  ReachableBy.step (i := Input.CHANGE 1 1 ["mars\n"]) state_undone_reachable
    ⟨by decide, by decide, by decide⟩ (by rfl)

/-- Witness for C10 (scenario S5): after the new `CHANGE` writing `mars`, `REDO(1)` leaves
the state unchanged, and the whole scenario prints `mars`. -/
theorem lone_undo_redo_saturate_witness :
    exec_run [DoToken.REDO 1] state_mars = some state_mars ∧
      (main [Command.CHANGE 1 1 ["hello\n"], Command.CHANGE 1 1 ["world\n"], Command.UNDO 1,
        Command.CHANGE 1 1 ["mars\n"], Command.REDO 1, Command.PRINT 1 1, Command.QUIT]).map
        Prod.snd = some ["mars\n"] :=
  ⟨(lone_undo_redo_saturate state_mars 1 state_mars_reachable (by decide)).2.2.1 rfl, by rfl⟩

/-! ## History counters -/

theorem history_fold (run : List DoToken) (p : Pending) (d u : Nat)
    (hd : p.temporary_undo_stack_size = d) (hu : p.temporary_redo_stack_size = u)
    (h0 : ∀ tok ∈ run, 0 ≤ tok.start) :
    run.foldl history_token (d, u) =
      ((run.foldl Pending.count p).temporary_undo_stack_size.toNat,
        (run.foldl Pending.count p).temporary_redo_stack_size.toNat) := by
  induction run generalizing p d u with
  | nil => simp [hd, hu]
  | cons tok run ih =>
    have htok := h0 tok (by simp)
    simp only [List.foldl_cons]
    cases tok with
    | UNDO s =>
      simp only [DoToken.start] at htok
      refine ih (p.count (DoToken.UNDO s)) _ _ ?_ ?_ (fun t ht => h0 t (by simp [ht]))
      · simp only [Pending.count, min_eq, hd, Nat.min_def]
        split <;> split <;> omega
      · simp only [Pending.count, min_eq, hd, hu, Nat.min_def]
        split <;> split <;> omega
    | REDO s =>
      simp only [DoToken.start] at htok
      refine ih (p.count (DoToken.REDO s)) _ _ ?_ ?_ (fun t ht => h0 t (by simp [ht]))
      · simp only [Pending.count, min_eq, hd, hu, Nat.min_def]
        split <;> split <;> omega
      · simp only [Pending.count, min_eq, hu, Nat.min_def]
        split <;> split <;> omega

theorem ids_undoRecords {past : List Entry} {D : Doc} (h : PastOK past D) :
    ((undoRecords past).map (fun r => r.command_id)).toFinset =
      (past.map Entry.id).toFinset := by
  ext i
  simp only [List.mem_toFinset, List.mem_map]
  constructor
  · rintro ⟨r, hr, rfl⟩
    obtain ⟨y, hy, e⟩ := mem_undoRecords h hr
    exact ⟨y, hy, e.symm⟩
  · rintro ⟨y, hy, rfl⟩
    induction past generalizing D with
    | nil => simp at hy
    | cons x p ih =>
      obtain ⟨_, hx, hp⟩ := h
      simp only [List.mem_cons] at hy
      rcases hy with rfl | hy
      · obtain ⟨r0, rs0, hrec⟩ := List.exists_cons_of_ne_nil hx.1
        exact ⟨r0, by simp [undoRecords, hrec], hx.2.1 r0 (by simp [hrec])⟩
      · obtain ⟨r, hr, e⟩ := ih hp hy
        exact ⟨r, by simp [undoRecords, hr], e⟩

theorem ids_redoRecords {future : List Entry} {D : Doc} (h : FutureOK D future) :
    ((redoRecords future).map (fun r => r.command_id)).toFinset =
      (future.map Entry.id).toFinset := by
  ext i
  simp only [List.mem_toFinset, List.mem_map]
  constructor
  · rintro ⟨r, hr, rfl⟩
    obtain ⟨y, hy, e⟩ := mem_redoRecords h hr
    exact ⟨y, hy, e.symm⟩
  · rintro ⟨y, hy, rfl⟩
    induction future generalizing D with
    | nil => simp at hy
    | cons x f ih =>
      obtain ⟨_, hx, hf⟩ := h
      simp only [List.mem_cons] at hy
      rcases hy with rfl | hy
      · obtain ⟨r0, rs0, hrec⟩ := List.exists_cons_of_ne_nil hx.1
        exact ⟨r0, by simp [redoRecords, hrec], hx.2.1 r0 (by simp [hrec])⟩
      · obtain ⟨r, hr, e⟩ := ih hf hy
        exact ⟨r, by simp [redoRecords, hr], e⟩

theorem Rep_distinct {P : Doc → Prop} {past future : List Entry} {e : Editor}
    (h : Rep P past future e) :
    distinct_ids e.undo_stack = past.length ∧ distinct_ids e.redo_stack = future.length := by
  have hids := h.ids
  simp only [timelineIds, List.map_append, List.pairwise_append] at hids
  have n1 : (past.map Entry.id).Nodup := by
    have : (past.reverse.map Entry.id).Nodup := hids.1.imp (fun hab => ne_of_lt hab)
    rw [List.map_reverse] at this
    exact List.nodup_reverse.1 this
  have n2 : (future.map Entry.id).Nodup := hids.2.1.imp (fun hab => ne_of_lt hab)
  constructor
  · simp only [distinct_ids, h.undo_top, ids_undoRecords h.pastOK,
      List.toFinset_card_of_nodup n1, List.length_map]
  · simp only [distinct_ids, h.redo_top, ids_redoRecords h.futureOK,
      List.toFinset_card_of_nodup n2, List.length_map]

theorem ReachableCounting_Rep {e : Editor} {h : Nat × Nat} (hr : ReachableCounting e h) :
    ∃ past future, Rep (fun _ => True) past future e ∧ past.length = h.1 ∧
      future.length = h.2 := by
  induction hr with
  | init => exact ⟨[], [], Rep_init trivial, rfl, rfl⟩
  | @step e e1 i h _ hw hstep ih =>
    obtain ⟨past, future, hr, hp, hf⟩ := ih
    obtain ⟨d, u⟩ := h
    simp only at hp hf
    cases i with
    | CHANGE start end_ lines =>
      obtain ⟨h1, h2, h3⟩ := hw
      obtain ⟨e2, x, g1, g2, _⟩ := exec_change_Rep hr start end_ lines h1 h2
        (exec_change_bound h2 hstep) h3 trivial
      simp only [step, g1, Option.some.injEq] at hstep
      subst hstep
      exact ⟨_, _, g2, by simp [history_step, hp], rfl⟩
    | DELETE start end_ =>
      obtain ⟨h1, h2⟩ := hw
      obtain ⟨e2, x, g1, g2, _⟩ := exec_delete_Rep hr start end_ h1 h2
        (exec_delete_bound h2 hstep) trivial
      simp only [step, g1, Option.some.injEq] at hstep
      subst hstep
      exact ⟨_, _, g2, by simp [history_step, hp], rfl⟩
    | PRINT start end_ =>
      simp only [step] at hstep
      split at hstep
      · cases hstep; exact ⟨past, future, hr, hp, hf⟩
      · cases hstep
    | RUN run =>
      have hat := Rep_At hr
      obtain ⟨e2, g1, g2, _⟩ := exec_run_At run hat hw
      obtain ⟨q1, q2, q3, q4⟩ := PendingOK_foldl run (PendingOK_init hat) hw
      have hfold := history_fold run (Pending.init e) d u
        (by simp [Pending.init, hr.undo_size, hp]) (by simp [Pending.init, hr.redo_size, hf]) hw
      simp only [step, g1, Option.some.injEq] at hstep
      subst hstep
      obtain ⟨p2, f2, hT, hj, r2⟩ := g2
      refine ⟨p2, f2, r2, ?_, ?_⟩
      · simp only [history_step, hfold, hj, coalesce]
      · have hlen := congrArg List.length hT
        simp only [List.length_append, List.length_reverse] at hlen
        simp only [history_step, hfold]
        simp only [coalesce] at hj
        simp only [List.length_append, List.length_reverse] at q2
        push_cast at q2
        omega

/-- C9: in every state reachable from the empty editor by well-formed commands,
`undo_stack->size` is the number of distinct `command_id` values on the undo stack and the
number of mutating commands not yet undone, and `redo_stack->size` is the number of distinct
`command_id` values on the redo stack and the number of undone commands neither redone nor
invalidated by a later mutating command. -/
theorem history_counters (e : Editor) (h : Nat × Nat) (hr : ReachableCounting e h) :
    e.undo_stack.size = distinct_ids e.undo_stack ∧ e.undo_stack.size = h.1 ∧
      e.redo_stack.size = distinct_ids e.redo_stack ∧ e.redo_stack.size = h.2 := by
  obtain ⟨past, future, hrep, hp, hf⟩ := ReachableCounting_Rep hr
  obtain ⟨d1, d2⟩ := Rep_distinct hrep
  refine ⟨?_, ?_, ?_, ?_⟩
  · rw [hrep.undo_size, d1]
  · rw [hrep.undo_size, hp]
  · rw [hrep.redo_size, d2]
  · rw [hrep.redo_size, hf]

theorem state_undone_counting : ReachableCounting state_undone (1, 1) :=
  ReachableCounting.step (i := Input.RUN [DoToken.UNDO 1])
    (ReachableCounting.step (i := Input.CHANGE 1 1 ["world\n"])
      (ReachableCounting.step (i := Input.CHANGE 1 1 ["hello\n"]) ReachableCounting.init
        ⟨by decide, by decide, by decide⟩ (show _ = some state_hello by rfl))
      ⟨by decide, by decide, by decide⟩ (show _ = some state_world by rfl))
    (show ∀ tok ∈ [DoToken.UNDO 1], 0 ≤ tok.start by decide) (by rfl)

/-- Witness for C9: after `hello`, `world` and one undo, each stack holds one group and
each counter is 1. -/
theorem history_counters_witness :
    state_undone.undo_stack.size = distinct_ids state_undone.undo_stack ∧
      state_undone.undo_stack.size = (1 : Nat) ∧
      state_undone.redo_stack.size = distinct_ids state_undone.redo_stack ∧
      state_undone.redo_stack.size = (1 : Nat) :=
  history_counters state_undone (1, 1) state_undone_counting

/-! ## Density -/

theorem Doc.length_of_keys {D : Doc} {n : Int} (hs : SortedK D) (hn : 0 ≤ n)
    (h : ∀ k : Int, (∃ s, (k, s) ∈ D) ↔ (1 ≤ k ∧ k ≤ n)) : (D.length : Int) = n := by
  have hnd : (D.map Prod.fst).Nodup := by
    have : (D.map Prod.fst).Pairwise (fun a b => a < b) := List.pairwise_map.2 hs
    exact this.imp (fun hab => ne_of_lt hab)
  have hset : (D.map Prod.fst).toFinset = Finset.Icc 1 n := by
    ext k
    simp only [List.mem_toFinset, List.mem_map, Finset.mem_Icc, Prod.exists, exists_and_right,
      exists_eq_right]
    exact h k
  have hcard := List.toFinset_card_of_nodup hnd
  rw [hset, Int.card_Icc, List.length_map] at hcard
  omega

theorem Doc.Dense_of_keys {D : Doc} {n : Int} (hs : SortedK D) (hn : 0 ≤ n)
    (h : ∀ k : Int, (∃ s, (k, s) ∈ D) ↔ (1 ≤ k ∧ k ≤ n)) : Doc.Dense D := by
  have := Doc.length_of_keys hs hn h
  intro k
  rw [this]
  exact h k

theorem Doc.Dense_DocOK {D : Doc} (hs : SortedK D) (h : Doc.Dense D) : DocOK D :=
  ⟨hs, fun p hp => ((h p.1).1 ⟨p.2, hp⟩).1⟩

theorem Doc.mem_upsert {D : Doc} (k : Int) (s : String) (hs : SortedK D) (j : Int)
    (v : String) : (j, v) ∈ Doc.upsert k s D ↔ (j = k ∧ v = s) ∨ (j ≠ k ∧ (j, v) ∈ D) := by
  rcases Doc.mem_or_not D k with ⟨s0, hm⟩ | hn
  · obtain ⟨A, B, rfl, hA, hB⟩ := Doc.split_of_mem hs hm
    rw [Doc.upsert_old s s0 hA]
    simp only [List.mem_append, List.mem_cons, Prod.mk.injEq]
    constructor
    · rintro (h | h | h)
      · have := hA _ h; simp only at this; exact Or.inr ⟨by omega, Or.inl h⟩
      · exact Or.inl h
      · have := hB _ h; simp only at this; exact Or.inr ⟨by omega, Or.inr (Or.inr h)⟩
    · rintro (h | ⟨h1, h | h | h⟩)
      · exact Or.inr (Or.inl h)
      · exact Or.inl h
      · exact absurd h.1 h1
      · exact Or.inr (Or.inr h)
  · obtain ⟨A, B, rfl, hA, hB⟩ := Doc.split_of_not_mem D k hs hn
    rw [Doc.upsert_new s hA hB]
    simp only [List.mem_append, List.mem_cons, Prod.mk.injEq]
    constructor
    · rintro (h | h | h)
      · have := hA _ h; simp only at this; exact Or.inr ⟨by omega, Or.inl h⟩
      · exact Or.inl h
      · have := hB _ h; simp only at this; exact Or.inr ⟨by omega, Or.inr h⟩
    · rintro (h | ⟨h1, h | h⟩)
      · exact Or.inr (Or.inl h)
      · exact Or.inl h
      · exact Or.inr (Or.inr h)

theorem Doc.Dense_upsert {D : Doc} {k : Int} (s : String) (hs : SortedK D) (hd : Doc.Dense D)
    (h1 : 1 ≤ k) (h2 : k ≤ (D.length : Int) + 1) :
    Doc.Dense (Doc.upsert k s D) ∧ k ≤ ((Doc.upsert k s D).length : Int) := by
  have hkeys : ∀ j : Int, (∃ v, (j, v) ∈ Doc.upsert k s D) ↔
      (1 ≤ j ∧ j ≤ (if k ≤ (D.length : Int) then (D.length : Int) else (D.length : Int) + 1)) := by
    intro j
    constructor
    · rintro ⟨v, hv⟩
      rcases (Doc.mem_upsert k s hs j v).1 hv with ⟨rfl, _⟩ | ⟨_, hm⟩
      · split <;> omega
      · have := (hd j).1 ⟨v, hm⟩
        split <;> omega
    · intro hj
      by_cases hjk : j = k
      · exact ⟨s, (Doc.mem_upsert k s hs j s).2 (Or.inl ⟨hjk, rfl⟩)⟩
      · have : 1 ≤ j ∧ j ≤ (D.length : Int) := by
          split at hj <;> omega
        obtain ⟨v, hv⟩ := (hd j).2 this
        exact ⟨v, (Doc.mem_upsert k s hs j v).2 (Or.inr ⟨hjk, hv⟩)⟩
  have hlen := Doc.length_of_keys (Doc.upsert_sorted k s hs) (by split <;> omega) hkeys
  refine ⟨Doc.Dense_of_keys (Doc.upsert_sorted k s hs) (by split <;> omega) hkeys, ?_⟩
  rw [hlen]
  split <;> omega

theorem Doc.Dense_change {D : Doc} (start : Int) (lines : List String) (hs : SortedK D)
    (hd : Doc.Dense D) (h1 : 1 ≤ start) (h2 : start ≤ (D.length : Int) + 1) :
    Doc.Dense (Doc.change start lines D) := by
  induction lines generalizing start D with
  | nil => exact hd
  | cons s ss ih =>
    obtain ⟨g1, g2⟩ := Doc.Dense_upsert s hs hd h1 h2
    exact ih (start + 1) (Doc.upsert_sorted start s hs) g1 (by omega) (by omega)

theorem Doc.mem_delete {D : Doc} {a b : Int} (hd : Doc.Dense D) (h2 : a ≤ b)
    (k : Int) (s : String) :
    (k, s) ∈ Doc.delete a b D ↔
      (k < a ∧ (k, s) ∈ D) ∨ (a ≤ k ∧ (k + (b - a + 1), s) ∈ D) := by
  have hrange : ∀ i v, (i, v) ∈ Doc.delete_range a b D.length D ↔
      (i, v) ∈ D ∧ ¬ (a ≤ i ∧ i ≤ b) := by
    intro i v
    simp only [Doc.delete_range, List.mem_filter, decide_eq_true_eq]
    constructor
    · rintro ⟨hm, hn⟩
      have := (hd i).1 ⟨v, hm⟩
      exact ⟨hm, by omega⟩
    · rintro ⟨hm, hn⟩
      exact ⟨hm, by omega⟩
  unfold Doc.delete
  split
  · rename_i hb
    simp only [Doc.key_fixup, List.mem_map, Prod.mk.injEq, Prod.exists]
    constructor
    · rintro ⟨i, v, hm, hk, rfl⟩
      obtain ⟨hm1, hm2⟩ := (hrange i v).1 hm
      by_cases hib : i ≥ b
      · simp only [hib, if_true] at hk
        refine Or.inr ⟨by omega, ?_⟩
        have : k + (b - a + 1) = i := by omega
        rw [this]; exact hm1
      · simp only [hib, if_false] at hk
        subst hk
        exact Or.inl ⟨by omega, hm1⟩
    · rintro (⟨hk, hm⟩ | ⟨hk, hm⟩)
      · refine ⟨k, s, (hrange k s).2 ⟨hm, by omega⟩, ?_, rfl⟩
        have : ¬ k ≥ b := by omega
        simp only [this, if_false]
      · refine ⟨k + (b - a + 1), s, (hrange _ s).2 ⟨hm, by omega⟩, ?_, rfl⟩
        have : k + (b - a + 1) ≥ b := by omega
        simp only [this, if_true]
        omega
  · rename_i hb
    rw [hrange]
    constructor
    · rintro ⟨hm, hn⟩
      have := (hd k).1 ⟨s, hm⟩
      exact Or.inl ⟨by omega, hm⟩
    · rintro (⟨hk, hm⟩ | ⟨hk, hm⟩)
      · exact ⟨hm, by omega⟩
      · have := (hd _).1 ⟨s, hm⟩
        omega

theorem Doc.Dense_delete {D : Doc} {a b : Int} (hd : Doc.Dense D) (h1 : 1 ≤ a) (h2 : a ≤ b)
    (hs2 : SortedK (Doc.delete a b D)) :
    Doc.Dense (Doc.delete a b D) ∧
      ((Doc.delete a b D).length : Int) = count_after_delete a b D.length := by
  have hkeys : ∀ k : Int, (∃ s, (k, s) ∈ Doc.delete a b D) ↔
      (1 ≤ k ∧ k ≤ count_after_delete a b D.length) := by
    intro k
    simp only [count_after_delete]
    constructor
    · rintro ⟨s, hm⟩
      rcases (Doc.mem_delete hd h2 k s).1 hm with ⟨hk, hm⟩ | ⟨hk, hm⟩
      · have := (hd k).1 ⟨s, hm⟩
        omega
      · have := (hd _).1 ⟨s, hm⟩
        omega
    · intro hk
      by_cases hka : k < a
      · obtain ⟨s, hm⟩ := (hd k).2 (by omega)
        exact ⟨s, (Doc.mem_delete hd h2 k s).2 (Or.inl ⟨hka, hm⟩)⟩
      · obtain ⟨s, hm⟩ := (hd (k + (b - a + 1))).2 (by omega)
        exact ⟨s, (Doc.mem_delete hd h2 k s).2 (Or.inr ⟨by omega, hm⟩)⟩
  have h0 : 0 ≤ count_after_delete a b D.length := by
    simp only [count_after_delete]; omega
  exact ⟨Doc.Dense_of_keys hs2 h0 hkeys, Doc.length_of_keys hs2 h0 hkeys⟩

theorem dense_iff {t : tree_t} (ht : TreeOK t) : dense t ↔ Doc.Dense (toList t.root) := by
  simp only [dense, Doc.Dense, live_keys, List.mem_map, Prod.exists, exists_and_right,
    exists_eq_right, ht.count]

theorem contiguous_Rep {e : Editor} (h : ReachableBy contiguous e) :
    ∃ past future, Rep Doc.Dense past future e := by
  refine ReachableBy_Rep (by intro k; simp; omega) (fun _ _ hi => hi.1) ?_ ?_ h
  · intro e start end_ lines hok ht hD hP _
    obtain ⟨h1, _, _⟩ := hok.1
    have := hok.2 start end_ lines rfl
    rw [ht.count] at this
    exact Doc.Dense_change start lines hD.1 hP h1 this
  · intro e start end_ hok ht hD hP hD2
    obtain ⟨h1, h2⟩ := hok.1
    exact (Doc.Dense_delete hP h1 h2 hD2.1).1

/-- C4 (as amended): starting from the empty editor, if every `CHANGE(a,b)` has
`1 <= a <= b`, `b - a + 1` lines and `a <= N + 1` for the line count `N` when it is issued,
every `DELETE(a,b)` has `1 <= a <= b` and every `UNDO(n)`/`REDO(n)` has `n >= 0`, then after
every completed command the set of keys of the live nodes is exactly
`{1, ..., number_of_keys}`, and `number_of_keys >= 0`. -/
theorem density_of_contiguous_sessions (e : Editor) (h : ReachableBy contiguous e) :
    dense e.t ∧ 0 ≤ e.t.number_of_keys := by
  obtain ⟨past, future, hr⟩ := contiguous_Rep h
  exact ⟨(dense_iff hr.tree).2 hr.cur, by rw [hr.tree.count]; omega⟩

theorem state_five_contiguous : ReachableBy contiguous state_five :=
  ReachableBy.step (i := Input.CHANGE 1 5 ["A\n", "B\n", "C\n", "D\n", "E\n"])
    ReachableBy.init
    ⟨⟨by decide, by decide, by decide⟩, fun start end_ lines h => by
      cases h; decide⟩ (by rfl)

/-- Witness for C4 (as amended): after `1,5c`, the live keys are exactly `1..5`. -/
theorem density_of_contiguous_sessions_witness :
    dense state_five.t ∧ 0 ≤ state_five.t.number_of_keys :=
  density_of_contiguous_sessions state_five state_five_contiguous

/-- Counterexample for C4 as stated: `3,3c` on the empty editor is well-formed
(`1 <= 3 <= 3`, one line) and leaves a single live node with key 3 while `number_of_keys`
is 1; and `3,1d` after `1,5c` (a `DELETE` with `a >= 1`) leaves the live keys `2..6` while
`number_of_keys` is 5.  Neither line store is dense. -/
theorem density_counterexample :
    (Input.CHANGE 3 3 ["x\n"]).WF ∧
      step (Input.CHANGE 3 3 ["x\n"]) Editor.init = some state_gap ∧
      live_keys state_gap.t = [3] ∧ state_gap.t.number_of_keys = 1 ∧ ¬ dense state_gap.t ∧
      step (Input.DELETE 3 1) state_five = some state_raised ∧
      live_keys state_raised.t = [2, 3, 4, 5, 6] ∧ state_raised.t.number_of_keys = 5 ∧
      ¬ dense state_raised.t :=
  ⟨⟨by decide, by decide, by decide⟩, by rfl, by rfl, by rfl,
    fun h => absurd ((h 3).1 (by decide)).2 (by decide), by rfl, by rfl, by rfl,
    fun h => absurd ((h 6).1 (by decide)).2 (by decide)⟩

/-! ## What `DELETE` and `CHANGE` do to the lines -/

theorem Doc.lookup_delete {D : Doc} {a b : Int} (hs : SortedK D) (hd : Doc.Dense D)
    (h2 : a ≤ b) (hs2 : SortedK (Doc.delete a b D)) (k : Int) :
    Doc.lookup k (Doc.delete a b D) =
      if k < a then Doc.lookup k D else Doc.lookup (k + (b - a + 1)) D := by
  apply Option.ext
  intro s
  simp only [Option.mem_def]
  rw [Doc.lookup_some_iff hs2, Doc.mem_delete hd h2]
  split
  · rename_i hk
    rw [Doc.lookup_some_iff hs]
    constructor
    · rintro (h | h)
      · exact h.2
      · omega
    · intro h; exact Or.inl ⟨hk, h⟩
  · rename_i hk
    rw [Doc.lookup_some_iff hs]
    constructor
    · rintro (h | h)
      · omega
      · exact h.2
    · intro h; exact Or.inr ⟨by omega, h⟩

theorem TreeOK_dense_DocOK {t : tree_t} (ht : TreeOK t) (hd : dense t) :
    DocOK (toList t.root) :=
  Doc.Dense_DocOK ht.sorted ((dense_iff ht).1 hd)

/-- C6: on a well-formed tree holding a dense document of `N` lines, `DELETE(a,b)` with
`1 <= a <= b < INT_MAX` succeeds; afterwards the document is dense, line `k` for `k < a` is the old
line `k`, line `k` for `k >= a` is the old line `k + (b - a + 1)` (absent when that index
is past `N`), and the line count is `N` minus the number of indices of `[a, b]` inside
`[1, N]`. -/
theorem delete_on_dense_document (e : Editor) (a b : Int) (ht : TreeOK e.t)
    (hd : dense e.t) (h1 : 1 ≤ a) (h2 : a ≤ b) (h3 : b < INT_MAX) :
    ∃ e1, step (Input.DELETE a b) e = some e1 ∧ dense e1.t ∧
      (∀ k, lookup e1.t k =
        if k < a then lookup e.t k else lookup e.t (k + (b - a + 1))) ∧
      e1.t.number_of_keys = count_after_delete a b e.t.number_of_keys := by
  have hD := TreeOK_dense_DocOK ht hd
  have hdd := (dense_iff ht).1 hd
  obtain ⟨t1, new, g1, g2, g3, _⟩ := exec_delete_spec a b e ht hD h1 h2 h3
  have hs2 : SortedK (Doc.delete a b (toList e.t.root)) := g3 ▸ g2.sorted
  obtain ⟨k1, k2⟩ := Doc.Dense_delete hdd h1 h2 hs2
  refine ⟨_, g1, ?_, ?_, ?_⟩
  · exact (dense_iff g2).2 (g3 ▸ k1)
  · intro k
    show lookup t1 k = _
    rw [lookup_eq g2, g3, Doc.lookup_delete ht.sorted hdd h2 hs2, lookup_eq ht, lookup_eq ht]
  · show t1.number_of_keys = _
    rw [g2.count, g3, k2, ht.count]

theorem contiguous_TreeOK {e : Editor} (h : ReachableBy contiguous e) :
    TreeOK e.t ∧ dense e.t := by
  obtain ⟨past, future, hr⟩ := contiguous_Rep h
  exact ⟨hr.tree, (dense_iff hr.tree).2 hr.cur⟩

/-- Witness for C6 (scenario S3): deleting `2..3` from `A B C D E` leaves `A D E` at lines
`1..3`. -/
theorem delete_on_dense_document_witness :
    (∃ e1, step (Input.DELETE 2 3) state_five = some e1 ∧ dense e1.t ∧
      (∀ k, lookup e1.t k =
        if k < 2 then lookup state_five.t k else lookup state_five.t (k + (3 - 2 + 1))) ∧
      e1.t.number_of_keys = count_after_delete 2 3 state_five.t.number_of_keys) ∧
      (step (Input.DELETE 2 3) state_five).map (fun e => (toList e.t.root, e.t.number_of_keys))
        = some ([(1, "A\n"), (2, "D\n"), (3, "E\n")], 3) :=
  ⟨delete_on_dense_document state_five 2 3 (contiguous_TreeOK state_five_contiguous).1
    (contiguous_TreeOK state_five_contiguous).2 (by decide) (by decide)
    (by unfold INT_MAX; decide), by rfl⟩

/-- Counterexample to C6 as stated: on the dense document `A B C D E` the command
`2147483647,2147483647d` does not complete. Its loop tests `line_number <= end` with
`end = INT_MAX`, which holds for every `int`, so the loop is not left whatever the number
of iterations allowed. -/
theorem delete_at_int_max_counterexample :
    TreeOK state_five.t ∧ dense state_five.t ∧
      step (Input.DELETE 2147483647 2147483647) state_five = none ∧
      ∀ (fuel : Nat) (t : tree_t) (s : stack_t),
        delete_for state_five.command_id state_five.t.number_of_keys 2147483647 fuel
          2147483647 t s = none :=
  ⟨(contiguous_TreeOK state_five_contiguous).1, (contiguous_TreeOK state_five_contiguous).2,
    by rfl,
    fun fuel t s => delete_for_none _ _ _ fuel _ t s (by decide) (by unfold INT_MAX; decide)⟩

theorem Doc.lookup_upsert (a : Int) (s : String) (D : Doc) (k : Int) :
    Doc.lookup k (Doc.upsert a s D) = if k = a then some s else Doc.lookup k D := by
  induction D with
  | nil =>
    simp only [Doc.upsert, Doc.lookup]
    by_cases h : k = a
    · simp [h]
    · have : ¬ a = k := fun e => h e.symm
      simp [h, this]
  | cons p D ih =>
    obtain ⟨j, v⟩ := p
    simp only [Doc.upsert]
    split
    · simp only [Doc.lookup]
      by_cases h : k = a
      · simp [h]
      · have : ¬ a = k := fun e => h e.symm
        simp [h, this]
    · split
      · rename_i _ hj
        subst hj
        simp only [Doc.lookup]
        by_cases h : k = a
        · simp [h]
        · have : ¬ a = k := fun e => h e.symm
          simp [h, this]
      · rename_i h1 h2
        simp only [Doc.lookup, ih]
        by_cases hjk : j = k
        · have : ¬ k = a := by omega
          simp [hjk, this]
        · simp [hjk]

theorem Doc.lookup_change (lines : List String) (a : Int) (D : Doc) (k : Int) :
    Doc.lookup k (Doc.change a lines D) =
      if a ≤ k ∧ k < a + lines.length then lines[(k - a).toNat]? else Doc.lookup k D := by
  induction lines generalizing a D with
  | nil =>
    simp only [Doc.change, List.length_nil]
    have : ¬ (a ≤ k ∧ k < a + ((0 : Nat) : Int)) := by omega
    simp only [this, if_false]
  | cons s ss ih =>
    simp only [Doc.change, ih, Doc.lookup_upsert, List.length_cons]
    by_cases h1 : a + 1 ≤ k ∧ k < a + 1 + (ss.length : Int)
    · have h2 : a ≤ k ∧ k < a + ((ss.length + 1 : Nat) : Int) := by omega
      simp only [h1, h2, and_self, if_true]
      have : (k - a).toNat = (k - (a + 1)).toNat + 1 := by omega
      rw [this, List.getElem?_cons_succ]
    · simp only [h1, if_false]
      by_cases hk : k = a
      · have h2 : a ≤ k ∧ k < a + ((ss.length + 1 : Nat) : Int) := by omega
        simp only [hk, if_true]
        simp
      · have h2 : ¬ (a ≤ k ∧ k < a + ((ss.length + 1 : Nat) : Int)) := by omega
        simp only [hk, h2, if_false]

theorem Doc.length_upsert {D : Doc} (a : Int) (s : String) (hs : SortedK D) :
    (Doc.upsert a s D).length = D.length + if (Doc.lookup a D).isNone then 1 else 0 := by
  rcases Doc.mem_or_not D a with ⟨s0, hm⟩ | hn
  · rw [Doc.lookup_of_mem hs hm]
    obtain ⟨A, B, rfl, hA, hB⟩ := Doc.split_of_mem hs hm
    rw [Doc.upsert_old s s0 hA]
    simp
  · rw [Doc.lookup_of_not_mem hn]
    obtain ⟨A, B, rfl, hA, hB⟩ := Doc.split_of_not_mem D a hs hn
    rw [Doc.upsert_new s hA hB]
    simp
    omega

theorem Doc.length_change (lines : List String) (a : Int) {D : Doc} (hs : SortedK D) :
    (Doc.change a lines D).length =
      D.length + ((List.range lines.length).filter
        (fun (i : Nat) => (Doc.lookup (a + (i : Int)) D).isNone)).length := by
  induction lines generalizing a D with
  | nil => simp [Doc.change]
  | cons s ss ih =>
    simp only [Doc.change, List.length_cons]
    rw [ih (a + 1) (Doc.upsert_sorted a s hs), Doc.length_upsert a s hs,
      List.range_succ_eq_map, List.filter_cons, List.filter_map]
    have hfun : (List.range ss.length).filter
        (fun (i : Nat) => (Doc.lookup (a + 1 + (i : Int)) (Doc.upsert a s D)).isNone) =
        (List.range ss.length).filter
          ((fun (i : Nat) => (Doc.lookup (a + (i : Int)) D).isNone) ∘ Nat.succ) := by
      apply List.filter_congr
      intro i _
      simp only [Function.comp, Doc.lookup_upsert]
      have h1 : ¬ (a + ((i.succ : Nat) : Int) = a) := by push_cast; omega
      have h2 : a + 1 + (i : Int) = a + ((i.succ : Nat) : Int) := by push_cast; omega
      simp only [h2, h1, if_false]
    rw [hfun]
    simp only [Nat.cast_zero, add_zero]
    split <;> simp only [List.length_cons, List.length_map] <;> omega

theorem DocOK_of_live_keys {t : tree_t} (ht : TreeOK t) (hk : ∀ k ∈ live_keys t, 1 ≤ k) :
    DocOK (toList t.root) :=
  ⟨ht.sorted, fun p hp => hk p.1 (List.mem_map_of_mem Prod.fst hp)⟩

/-- C7: on a well-formed tree whose keys are line indices (all at least 1), `CHANGE(a,b)`
with `1 <= a <= b < INT_MAX` and the payloads `p_a..p_b` succeeds; afterwards `tree_search` of each
`k` in `[a,b]` finds the payload `p_k`, every index outside `[a,b]` has the payload it had,
and `number_of_keys` has grown by the number of indices of `[a,b]` that were absent. -/
theorem change_sets_lines (e : Editor) (a b : Int) (lines : List String) (ht : TreeOK e.t)
    (hk : ∀ k ∈ live_keys e.t, 1 ≤ k) (h1 : 1 ≤ a) (h2 : a ≤ b) (h3 : b < INT_MAX)
    (hn : lines.length = (b - a + 1).toNat) :
    ∃ e1, step (Input.CHANGE a b lines) e = some e1 ∧
      (∀ k, a ≤ k → k ≤ b → lookup e1.t k = lines[(k - a).toNat]? ∧
        (lookup e1.t k).isSome) ∧
      (∀ k, (k < a ∨ b < k) → lookup e1.t k = lookup e.t k) ∧
      e1.t.number_of_keys = e.t.number_of_keys +
        ((List.range lines.length).filter
          (fun (i : Nat) => (lookup e.t (a + (i : Int))).isNone)).length := by
  have hD := DocOK_of_live_keys ht hk
  obtain ⟨t1, new, g1, g2, g3, _⟩ := exec_change_spec a b lines e ht hD h1 h2 h3 hn
  refine ⟨_, g1, ?_, ?_, ?_⟩
  · intro k ha hb
    show lookup t1 k = _ ∧ (lookup t1 k).isSome
    have hin : a ≤ k ∧ k < a + (lines.length : Int) := by omega
    rw [lookup_eq g2, g3, Doc.lookup_change]
    simp only [hin, and_self, if_true, true_and]
    have : (k - a).toNat < lines.length := by omega
    rw [List.getElem?_eq_getElem this]
    rfl
  · intro k hout
    show lookup t1 k = _
    have hin : ¬ (a ≤ k ∧ k < a + (lines.length : Int)) := by omega
    rw [lookup_eq g2, g3, Doc.lookup_change, lookup_eq ht]
    simp only [hin, if_false]
  · show t1.number_of_keys = _
    rw [g2.count, g3, Doc.length_change lines a ht.sorted, ht.count]
    push_cast
    congr 3
    apply List.filter_congr
    intro i _
    rw [lookup_eq ht]

/-- Witness for C7 (scenario S1): `1,3c` with `alpha`, `beta`, `gamma` on the empty
document, then `1,3p`, prints the three lines. -/
theorem change_sets_lines_witness :
    (∃ e1, step (Input.CHANGE 1 3 ["alpha\n", "beta\n", "gamma\n"]) Editor.init = some e1 ∧
      (∀ k, 1 ≤ k → k ≤ 3 →
        lookup e1.t k = ["alpha\n", "beta\n", "gamma\n"][(k - 1).toNat]? ∧
        (lookup e1.t k).isSome) ∧
      (∀ k, (k < 1 ∨ 3 < k) → lookup e1.t k = lookup Editor.init.t k) ∧
      e1.t.number_of_keys = Editor.init.t.number_of_keys +
        ((List.range ["alpha\n", "beta\n", "gamma\n"].length).filter
          (fun (i : Nat) => (lookup Editor.init.t (1 + (i : Int))).isNone)).length) ∧
      (main [Command.CHANGE 1 3 ["alpha\n", "beta\n", "gamma\n"], Command.PRINT 1 3,
        Command.QUIT]).map Prod.snd = some ["alpha\n", "beta\n", "gamma\n"] :=
  ⟨change_sets_lines Editor.init 1 3 ["alpha\n", "beta\n", "gamma\n"] TreeOK_create
    (by intro k hk; simp [live_keys, Editor.init, tree_create, toList] at hk)
    (by decide) (by decide) (by unfold INT_MAX; decide) (by decide), by rfl⟩

/-- Counterexample to C7 as stated: on the empty document the command
`2147483647,2147483647c` with one payload does not complete. After the line is stored the
loop test `line_number <= end` with `end = INT_MAX` still holds, so the command goes on
reading and storing lines; no number of iterations ends it. -/
theorem change_never_ends_counterexample :
    TreeOK Editor.init.t ∧ (∀ k ∈ live_keys Editor.init.t, 1 ≤ k) ∧
      ["x\n"].length = ((2147483647 : Int) - 2147483647 + 1).toNat ∧
      step (Input.CHANGE 2147483647 2147483647 ["x\n"]) Editor.init = none ∧
      ∀ (fuel : Nat) (lines : List String) (t : tree_t) (s : stack_t),
        change_for Editor.init.command_id 2147483647 fuel 2147483647 lines t s = none :=
  ⟨TreeOK_create, by intro k hk; simp [live_keys, Editor.init, tree_create, toList] at hk,
    by decide, by rfl,
    fun fuel lines t s => change_for_none _ _ fuel _ lines t s (by decide)
      (by unfold INT_MAX; decide)⟩

/-! ## Printing -/

theorem tree_minimum_spec (t : Tree) (ht : t.isNil = false) :
    ∃ mk ms mc mr rel relR,
      (∀ base, tree_minimum t base = some ⟨Tree.node Tree.nil mk ms mc mr, rel ++ base⟩) ∧
      (∀ base, pathL (rel ++ base) = pathL base) ∧
      (∀ base, pathR (rel ++ base) = relR ++ pathR base) ∧
      toList t = (mk, ms) :: (toList mr ++ relR) := by
  induction t with
  | nil => simp [Tree.isNil] at ht
  | node l k s c r ihl _ =>
    cases l with
    | nil =>
      exact ⟨k, s, c, r, [], [], fun base => rfl, fun base => rfl, fun base => rfl,
        by simp [toList]⟩
    | node ll lk ls lc lr =>
      obtain ⟨mk, ms, mc, mr, rel, relR, h1, h2, h3, h4⟩ := ihl rfl
      refine ⟨mk, ms, mc, mr, rel ++ [Frame.L k s c r], relR ++ (k, s) :: toList r,
        ?_, ?_, ?_, ?_⟩
      · intro base
        simp only [tree_minimum, h1, List.append_assoc, List.singleton_append]
      · intro base
        simp only [List.append_assoc, List.singleton_append, h2, pathL]
      · intro base
        simp only [List.append_assoc, List.singleton_append, h3, pathR, List.cons_append,
          List.nil_append]
      · simp only [toList] at h4 ⊢
        rw [h4]; simp

theorem successor_climb_spec (x : Tree) (up : Path) (k2 : Int) (s2 : String)
    (rest : List (Int × String)) (h : pathR up = (k2, s2) :: rest) :
    ∃ l2 c2 r2 up2, successor_climb x up = ⟨Tree.node l2 k2 s2 c2 r2, up2⟩ ∧
      pathL up2 ++ toList l2 = pathL up ++ toList x ∧ toList r2 ++ pathR up2 = rest := by
  induction up generalizing x with
  | nil => simp [pathR] at h
  | cons f up ih =>
    cases f with
    | L k s c r =>
      simp only [pathR, List.cons_append, List.cons.injEq, Prod.mk.injEq] at h
      obtain ⟨⟨rfl, rfl⟩, rfl⟩ := h
      exact ⟨x, c, r, up, rfl, rfl, rfl⟩
    | R l k s c =>
      simp only [pathR] at h
      obtain ⟨l2, c2, r2, up2, g1, g2, g3⟩ := ih (Tree.node l k s c x) h
      refine ⟨l2, c2, r2, up2, by simp only [successor_climb, g1], ?_, g3⟩
      rw [g2]
      simp [pathL, toList]

theorem tree_successor_spec (l : Tree) (k : Int) (s : String) (c : Color) (r : Tree)
    (up : Path) (k2 : Int) (s2 : String) (rest : List (Int × String))
    (h : toList r ++ pathR up = (k2, s2) :: rest) :
    ∃ l2 c2 r2 up2, tree_successor ⟨Tree.node l k s c r, up⟩ =
        some ⟨Tree.node l2 k2 s2 c2 r2, up2⟩ ∧
      pathL up2 ++ toList l2 = (pathL up ++ toList l) ++ [(k, s)] ∧
      toList r2 ++ pathR up2 = rest := by
  cases hr : r.isNil with
  | true =>
    have : r = Tree.nil := by cases r <;> simp [Tree.isNil] at hr ⊢
    subst this
    simp only [toList, List.nil_append] at h
    obtain ⟨l2, c2, r2, up2, g1, g2, g3⟩ :=
      successor_climb_spec (Tree.node l k s c Tree.nil) up k2 s2 rest h
    refine ⟨l2, c2, r2, up2, ?_, ?_, g3⟩
    · simp [tree_successor, Tree.isNil, g1]
    · rw [g2]; simp [toList]
  | false =>
    obtain ⟨mk, ms, mc, mr, rel, relR, h1, h2, h3, h4⟩ := tree_minimum_spec r hr
    rw [h4] at h
    simp only [List.cons_append, List.cons.injEq, Prod.mk.injEq] at h
    obtain ⟨⟨rfl, rfl⟩, rfl⟩ := h
    refine ⟨Tree.nil, mc, mr, rel ++ Frame.R l k s c :: up, ?_, ?_, ?_⟩
    · simp [tree_successor, hr, h1]
    · rw [h2]; simp [pathL, toList]
    · rw [h3]; simp [pathR]

theorem in_order_loop_spec (n : Nat) (l : Tree) (k : Int) (s : String) (c : Color)
    (r : Tree) (up : Path) (hn : n ≤ 1 + (toList r ++ pathR up).length) :
    in_order_loop n (some ⟨Tree.node l k s c r, up⟩) =
      some ((((k, s) :: (toList r ++ pathR up)).take n).map Prod.snd) := by
  induction n generalizing l k s c r up with
  | zero => rfl
  | succ n ih =>
    cases n with
    | zero => simp [in_order_loop]
    | succ m =>
      cases hafter : toList r ++ pathR up with
      | nil => rw [hafter] at hn; simp at hn
      | cons p rest =>
        obtain ⟨k2, s2⟩ := p
        obtain ⟨l2, c2, r2, up2, g1, _, g3⟩ := tree_successor_spec l k s c r up k2 s2 rest hafter
        have := ih l2 k2 s2 c2 r2 up2 (by rw [g3]; rw [hafter] at hn; simp at hn ⊢; omega)
        simp only [in_order_loop, g1] at this ⊢
        rw [this, g3]
        simp

/-- In a sorted list whose keys are exactly `lo, ..., hi`, the entry at position `m` has
key `lo + m`. -/
theorem Doc.key_at {S : Doc} {lo hi : Int} (hs : SortedK S)
    (hkeys : ∀ k : Int, (∃ s, (k, s) ∈ S) ↔ (lo ≤ k ∧ k ≤ hi)) (m : Nat)
    (hm : lo + m ≤ hi) : ∃ s, S[m]? = some (lo + (m : Int), s) := by
  induction S generalizing lo m with
  | nil =>
    have := (hkeys lo).2 ⟨le_refl _, by omega⟩
    simp at this
  | cons p S ih =>
    obtain ⟨k, s⟩ := p
    rw [SortedK_cons] at hs
    have hk : k = lo := by
      have h1 := (hkeys k).1 ⟨s, by simp⟩
      obtain ⟨s0, h2⟩ := (hkeys lo).2 ⟨le_refl _, by omega⟩
      simp only [List.mem_cons, Prod.mk.injEq] at h2
      rcases h2 with h2 | h2
      · exact h2.1.symm
      · have := hs.1 _ h2
        simp only at this
        omega
    subst hk
    cases m with
    | zero => exact ⟨s, by simp⟩
    | succ m =>
      have hkeys2 : ∀ j : Int, (∃ v, (j, v) ∈ S) ↔ (k + 1 ≤ j ∧ j ≤ hi) := by
        intro j
        constructor
        · rintro ⟨v, hv⟩
          have h1 := (hkeys j).1 ⟨v, by simp [hv]⟩
          have h2 := hs.1 _ hv
          simp only at h2
          omega
        · intro hj
          obtain ⟨v, hv⟩ := (hkeys j).2 (by omega)
          simp only [List.mem_cons, Prod.mk.injEq] at hv
          rcases hv with hv | hv
          · omega
          · exact ⟨v, hv⟩
      obtain ⟨v, hv⟩ := ih hs.2 hkeys2 m (by push_cast at hm; omega)
      refine ⟨v, ?_⟩
      rw [List.getElem?_cons_succ, hv]
      congr 2
      push_cast
      omega

theorem replicate_getElem? (n j : Nat) (x : String) (h : j < n) :
    (List.replicate n x)[j]? = some x := by
  rw [List.getElem?_replicate]; simp [h]

theorem exec_print_far (t : tree_t) (a b : Int) (hab : a ≤ b) (hb : 0 ≤ b)
    (hb2 : b < INT_MAX) (h1 : (if a < 1 then 1 else a) > t.number_of_keys) :
    ∃ out, exec_print a b t = some out ∧ out.length = (b - a + 1).toNat ∧
      ∀ j : Nat, j < (b - a + 1).toNat →
        out[j]? = (if a + (j : Int) < 1 ∨ a + (j : Int) > t.number_of_keys
          then some POINT_NEWLINE else lookup t (a + (j : Int))) := by
  have hex : exec_print a b t = some (List.replicate (1 - a).toNat POINT_NEWLINE ++
      List.replicate (b - (if a < 1 then 1 else a) + 1).toNat POINT_NEWLINE) := by
    have hp := point_for_spec b (if a < 1 then 1 else a)
      (by simp only [INT_MIN]; split <;> omega) hb2
    simp only [exec_print, h1, if_true, hp]
  refine ⟨_, hex, ?_, ?_⟩
  · simp only [List.length_append, List.length_replicate]
    split <;> omega
  · intro j hj
    have hcond : a + (j : Int) < 1 ∨ a + (j : Int) > t.number_of_keys := by
      split at h1 <;> omega
    simp only [hcond, if_true]
    by_cases hp : j < (1 - a).toNat
    · rw [List.getElem?_append_left (by simpa using hp)]
      exact replicate_getElem? _ _ _ hp
    · rw [List.getElem?_append_right (by simp; omega)]
      apply replicate_getElem?
      simp only [List.length_replicate]
      split <;> omega

theorem exec_print_near (t : tree_t) (a b : Int) (ht : TreeOK t) (hd : dense t)
    (hab : a ≤ b) (hb : 0 ≤ b) (hb2 : b < INT_MAX)
    (h1 : ¬ (if a < 1 then 1 else a) > t.number_of_keys) :
    ∃ out, exec_print a b t = some out ∧ out.length = (b - a + 1).toNat ∧
      ∀ j : Nat, j < (b - a + 1).toNat →
        out[j]? = (if a + (j : Int) < 1 ∨ a + (j : Int) > t.number_of_keys
          then some POINT_NEWLINE else lookup t (a + (j : Int))) := by
  generalize hst : (if a < 1 then 1 else a) = start1 at h1
  have hs1 : 1 ≤ start1 := by rw [← hst]; split <;> omega
  have hsa : a ≤ start1 := by rw [← hst]; split <;> omega
  have hpad : ((1 - a).toNat : Int) = start1 - a := by rw [← hst]; split <;> omega
  have hdd := (dense_iff ht).1 hd
  have hcount := ht.count
  obtain ⟨s0, hmem⟩ := (hdd start1).2 ⟨hs1, by omega⟩
  cases hsearch : tree_search t start1 with
  | none => exact absurd rfl (tree_search_none ht hsearch _ hmem)
  | some y =>
    obtain ⟨l, s1, c, r, e, _, hD, hA, hB⟩ := tree_search_found ht hsearch
    obtain ⟨here, up⟩ := y
    simp only at e hD hA hB
    subst e
    have hsorted := ht.sorted
    rw [hD, SortedK_append] at hsorted
    have hkeysS : ∀ k : Int, (∃ s, (k, s) ∈ (start1, s1) :: (toList r ++ pathR up)) ↔
        (start1 ≤ k ∧ k ≤ t.number_of_keys) := by
      intro k
      constructor
      · rintro ⟨s, hs⟩
        have hin : (k, s) ∈ toList t.root := by rw [hD]; exact List.mem_append_right _ hs
        have := (hdd k).1 ⟨s, hin⟩
        simp only [List.mem_cons, Prod.mk.injEq] at hs
        rcases hs with hs | hs
        · omega
        · have := hB _ hs; simp only at this; omega
      · intro hk
        obtain ⟨s, hs⟩ := (hdd k).2 (by omega)
        rw [hD] at hs
        rcases List.mem_append.1 hs with hs | hs
        · have := hA _ hs; simp only at this; omega
        · exact ⟨s, hs⟩
    have hkeysA : ∀ k : Int, (∃ s, (k, s) ∈ pathL up ++ toList l) ↔
        (1 ≤ k ∧ k ≤ start1 - 1) := by
      intro k
      constructor
      · rintro ⟨s, hs⟩
        have hin : (k, s) ∈ toList t.root := by rw [hD]; exact List.mem_append_left _ hs
        have := (hdd k).1 ⟨s, hin⟩
        have := hA _ hs; simp only at this; omega
      · intro hk
        obtain ⟨s, hs⟩ := (hdd k).2 (by omega)
        rw [hD] at hs
        rcases List.mem_append.1 hs with hs | hs
        · exact ⟨s, hs⟩
        · simp only [List.mem_cons, Prod.mk.injEq] at hs
          rcases hs with hs | hs
          · omega
          · have := hB _ hs; simp only at this; omega
    have hlenA := Doc.length_of_keys hsorted.1 (by omega) hkeysA
    have hlen : ((toList r ++ pathR up).length : Int) = t.number_of_keys - start1 := by
      have := congrArg List.length hD
      simp only [List.length_append, List.length_cons] at this hlenA ⊢
      omega
    have hcnt : (min b t.number_of_keys - start1 + 1).toNat ≤
        1 + (toList r ++ pathR up).length := by
      simp only [min_eq]; split <;> omega
    have hmid := in_order_loop_spec (min b t.number_of_keys - start1 + 1).toNat
      l start1 s1 c r up hcnt
    rw [← in_order_iterative_eq t _ _ start1 b (by simp only [INT_MIN]; omega)
      (by simp only [min_eq]; split <;> omega)
      (by simp only [min_eq]; split <;> omega)] at hmid
    have hmidlen : ((((start1, s1) :: (toList r ++ pathR up)).take
        (min b t.number_of_keys - start1 + 1).toNat).map Prod.snd).length =
        (min b t.number_of_keys - start1 + 1).toNat := by
      simp only [List.length_map, List.length_take, List.length_cons]
      omega
    have hex : exec_print a b t = some (List.replicate (1 - a).toNat POINT_NEWLINE ++
        (((start1, s1) :: (toList r ++ pathR up)).take
          (min b t.number_of_keys - start1 + 1).toNat).map Prod.snd ++
        List.replicate (b - t.number_of_keys).toNat POINT_NEWLINE) := by
      simp only [exec_print, hst, h1, if_false, hsearch, hmid]
    refine ⟨_, hex, ?_, ?_⟩
    · simp only [List.length_append, List.length_replicate, hmidlen]
      simp only [min_eq]; split <;> omega
    · intro j hj
      by_cases hp : j < (1 - a).toNat
      · have hcond : a + (j : Int) < 1 ∨ a + (j : Int) > t.number_of_keys := by omega
        simp only [hcond, if_true]
        rw [List.append_assoc, List.getElem?_append_left (by simpa using hp)]
        exact replicate_getElem? _ _ _ hp
      · by_cases hq : j < (1 - a).toNat + (min b t.number_of_keys - start1 + 1).toNat
        · have hcond : ¬ (a + (j : Int) < 1 ∨ a + (j : Int) > t.number_of_keys) := by
            simp only [min_eq] at hq; split at hq <;> omega
          simp only [hcond, if_false]
          rw [List.getElem?_append_left (by
            simp only [List.length_append, List.length_replicate, hmidlen]; exact hq)]
          rw [List.getElem?_append_right (by simp; omega)]
          simp only [List.length_replicate, List.getElem?_map]
          rw [List.getElem?_take_of_lt (by omega)]
          obtain ⟨s, hs⟩ := Doc.key_at (SortedK_cons.2 ⟨fun p hp => hB p hp,
            (SortedK_cons.1 hsorted.2.1).2⟩) hkeysS (j - (1 - a).toNat) (by
              simp only [min_eq] at hq; split at hq <;> omega)
          rw [hs]
          have hin : (start1 + ((j - (1 - a).toNat : Nat) : Int), s) ∈ toList t.root := by
            rw [hD]
            exact List.mem_append_right _ (List.getElem?_mem hs)
          have hidx : start1 + ((j - (1 - a).toNat : Nat) : Int) = a + (j : Int) := by omega
          rw [hidx] at hin
          rw [lookup_eq ht, Doc.lookup_of_mem ht.sorted hin]
          rfl
        · have hcond : a + (j : Int) < 1 ∨ a + (j : Int) > t.number_of_keys := by
            simp only [min_eq] at hq; split at hq <;> omega
          simp only [hcond, if_true]
          rw [List.getElem?_append_right (by
            simp only [List.length_append, List.length_replicate, hmidlen]; omega)]
          apply replicate_getElem?
          simp only [List.length_append, List.length_replicate, hmidlen]
          simp only [min_eq] at hq ⊢; split at hq <;> omega

/-- C5 (as amended): on a well-formed tree holding a dense document of `N` lines, for all
integers `a <= b` with `0 <= b < INT_MAX`, `PRINT(a,b)` succeeds and writes exactly
`b - a + 1` output lines, the one for index `i` being `.` and newline when `i < 1` or
`i > N` and the stored payload of line `i` otherwise (which exists). -/
theorem print_writes_one_line_per_index (t : tree_t) (a b : Int) (ht : TreeOK t)
    (hd : dense t) (hab : a ≤ b) (hb : 0 ≤ b) (hb2 : b < INT_MAX) :
    ∃ out, exec_print a b t = some out ∧ out.length = (b - a + 1).toNat ∧
      (∀ j : Nat, j < (b - a + 1).toNat →
        out[j]? = (if a + (j : Int) < 1 ∨ a + (j : Int) > t.number_of_keys
          then some POINT_NEWLINE else lookup t (a + (j : Int)))) ∧
      (∀ i : Int, 1 ≤ i → i ≤ t.number_of_keys → (lookup t i).isSome) := by
  have hsome : ∀ i : Int, 1 ≤ i → i ≤ t.number_of_keys → (lookup t i).isSome := by
    intro i h1 h2
    obtain ⟨s, hs⟩ := ((dense_iff ht).1 hd i).2 ⟨h1, by rw [← ht.count]; exact h2⟩
    rw [lookup_eq ht, Doc.lookup_of_mem ht.sorted hs]
    rfl
  by_cases h1 : (if a < 1 then 1 else a) > t.number_of_keys
  · obtain ⟨out, g1, g2, g3⟩ := exec_print_far t a b hab hb hb2 h1
    exact ⟨out, g1, g2, g3, hsome⟩
  · obtain ⟨out, g1, g2, g3⟩ := exec_print_near t a b ht hd hab hb hb2 h1
    exact ⟨out, g1, g2, g3, hsome⟩

/-- Witness for C5 (as amended): on the document `A B C D E`, `0,6p` writes seven lines, a
dot line for index 0, the five payloads, and a dot line for index 6. -/
theorem print_writes_one_line_per_index_witness :
    (∃ out, exec_print 0 6 state_five.t = some out ∧ out.length = ((6 : Int) - 0 + 1).toNat ∧
      (∀ j : Nat, j < ((6 : Int) - 0 + 1).toNat →
        out[j]? = (if (0 : Int) + (j : Int) < 1 ∨ (0 : Int) + (j : Int) > state_five.t.number_of_keys
          then some POINT_NEWLINE else lookup state_five.t (0 + (j : Int)))) ∧
      (∀ i : Int, 1 ≤ i → i ≤ state_five.t.number_of_keys → (lookup state_five.t i).isSome)) ∧
      exec_print 0 6 state_five.t = some [".\n", "A\n", "B\n", "C\n", "D\n", "E\n", ".\n"] :=
  ⟨print_writes_one_line_per_index state_five.t 0 6 (contiguous_TreeOK state_five_contiguous).1
    (contiguous_TreeOK state_five_contiguous).2 (by decide) (by decide)
    (by unfold INT_MAX; decide), by rfl⟩

/-- Counterexample for C5 as stated: with `a <= b < 0` the padding loop of PRINT runs up to
index 0 whatever `b` is. On the empty document `-1,-1p` writes two dot lines where
`b - a + 1 = 1`, and on the document `A B C D E` the command `-2,-1p` writes three dot lines
where `b - a + 1 = 2`. With `b = INT_MAX` and `a` past the last line the loop of dot lines
tests `i <= end`, which holds for every `int`: on the empty document
`2147483647,2147483647p` does not complete, whatever the number of iterations allowed. -/
theorem print_below_zero_counterexample :
    dense tree_create ∧ tree_create.number_of_keys = 0 ∧
      exec_print (-1) (-1) tree_create = some [".\n", ".\n"] ∧
      (((-1 : Int) - (-1) + 1).toNat = 1) ∧
      dense state_five.t ∧
      exec_print (-2) (-1) state_five.t = some [".\n", ".\n", ".\n"] ∧
      (((-1 : Int) - (-2) + 1).toNat = 2) ∧
      exec_print 2147483647 2147483647 tree_create = none ∧
      (∀ fuel : Nat, point_for 2147483647 fuel 2147483647 = none) ∧
      ¬ (∀ (t : tree_t) (a b : Int), TreeOK t → dense t → a ≤ b →
          ∃ out, exec_print a b t = some out ∧ out.length = (b - a + 1).toNat) :=
  have hd : dense tree_create := fun k => by
    simp only [dense, live_keys, tree_create, toList, List.map_nil, List.not_mem_nil, false_iff]
    omega
  ⟨hd, by rfl, by rfl, by rfl, (contiguous_TreeOK state_five_contiguous).2, by rfl, by rfl,
    by rfl, fun fuel => point_for_none _ fuel _ (by decide) (by unfold INT_MAX; decide),
    fun h => by
      obtain ⟨out, h1, h2⟩ := h tree_create (-1) (-1) TreeOK_create hd (by decide)
      have h3 : exec_print (-1) (-1) tree_create = some [".\n", ".\n"] := by rfl
      rw [h3] at h1
      cases h1
      exact absurd h2 (by decide)⟩

/-! ## Scenario S6 -/

theorem step_mutating_Rep {past future : List Entry} {e e1 : Editor}
    (h : Rep (fun _ => True) past future e) {c : Input} (hc : c.mutating) (hw : c.WF)
    (hs : step c e = some e1) : ∃ x, Rep (fun _ => True) (x :: past) [] e1 := by
  cases c with
  | CHANGE a b lines =>
    obtain ⟨h1, h2, h3⟩ := hw
    obtain ⟨e2, x, g, hr, _⟩ :=
      exec_change_Rep h a b lines h1 h2 (exec_change_bound h2 hs) h3 trivial
    simp only [step, g, Option.some.injEq] at hs
    subst hs
    exact ⟨x, hr⟩
  | DELETE a b =>
    obtain ⟨h1, h2⟩ := hw
    obtain ⟨e2, x, g, hr, _⟩ := exec_delete_Rep h a b h1 h2 (exec_delete_bound h2 hs) trivial
    simp only [step, g, Option.some.injEq] at hs
    subst hs
    exact ⟨x, hr⟩
  | PRINT a b => exact False.elim hc
  | RUN run => exact False.elim hc

theorem exec_print_one (t : tree_t) :
    exec_print 1 1 t =
      if 1 > t.number_of_keys then some [POINT_NEWLINE]
      else (lookup t 1).map (fun s => [s]) := by
  have h11 : (if (1 : Int) < 1 then (1 : Int) else 1) = 1 := by simp
  by_cases hN : 1 > t.number_of_keys
  · simp only [exec_print, h11, hN, if_true]
    rfl
  · have hmin : min 1 t.number_of_keys = 1 := by
      simp only [min_eq]; split <;> omega
    have hz : (1 - t.number_of_keys).toNat = 0 := by omega
    have hio : ∀ x, in_order_iterative t ((1 : Int) - 1 + 1).toNat x 1 1 =
        in_order_loop ((1 : Int) - 1 + 1).toNat x :=
      fun x => in_order_iterative_eq t _ x 1 1 (by unfold INT_MIN; decide)
        (by rw [hmin]; decide) (by rw [hmin]; unfold INT_MAX; decide)
    simp only [exec_print, h11, hN, if_false, hmin, lookup, hz, hio]
    cases hs : tree_search t 1 with
    | none => rfl
    | some x =>
      obtain ⟨⟨l, s, c, r, hx⟩, _, _⟩ := tree_search_loop_some hs
      obtain ⟨here, up⟩ := x
      simp only at hx
      subst hx
      rfl

/-- C11 (as amended): from a state with `|U|_g = 3` and `|R|_g = 0` obtained by three
well-formed mutating commands on the empty document, the coalesced run `UNDO(5)`, `REDO(2)`,
`UNDO(1)` accumulates the displacement `3 - 2 + 1 = 2` (each count clamped against the
tentative counters), so exactly the last two commands are undone: `|U|_g = 1`, `|R|_g = 2`,
the document is the one the first command left, and `PRINT(1,1)` prints what it printed
after the first command. -/
theorem scenario_S6_undoes_two_commands (c1 c2 c3 : Input) (e1 e2 e3 : Editor)
    (m1 : c1.mutating) (w1 : c1.WF) (m2 : c2.mutating) (w2 : c2.WF)
    (m3 : c3.mutating) (w3 : c3.WF) (h1 : step c1 Editor.init = some e1)
    (h2 : step c2 e1 = some e2) (h3 : step c3 e2 = some e3) :
    e3.undo_stack.size = 3 ∧ e3.redo_stack.size = 0 ∧
      coalesce e3 [DoToken.UNDO 5, DoToken.REDO 2, DoToken.UNDO 1] = ⟨2, 1, 2⟩ ∧
      ∃ e4, exec_run [DoToken.UNDO 5, DoToken.REDO 2, DoToken.UNDO 1] e3 = some e4 ∧
        iterate undo_step 2 e3 = some e4 ∧
        e4.undo_stack.size = 1 ∧ e4.redo_stack.size = 2 ∧ document e4 = document e1 ∧
        exec_print 1 1 e4.t = exec_print 1 1 e1.t := by
  obtain ⟨x1, r1⟩ := step_mutating_Rep (Rep_init trivial) m1 w1 h1
  obtain ⟨x2, r2⟩ := step_mutating_Rep r1 m2 w2 h2
  obtain ⟨x3, r3⟩ := step_mutating_Rep r2 m3 w3 h3
  have hu : e3.undo_stack.size = 3 := by simpa using r3.undo_size
  have hr : e3.redo_stack.size = 0 := by simpa using r3.redo_size
  have hco : coalesce e3 [DoToken.UNDO 5, DoToken.REDO 2, DoToken.UNDO 1] = ⟨2, 1, 2⟩ := by
    simp only [coalesce, List.foldl_cons, List.foldl_nil, Pending.init, Pending.count, hu, hr,
      min_eq]
    norm_num
  obtain ⟨ea, ga, ra, _⟩ := undo_step_spec r3
  obtain ⟨e4, gb, rb, _⟩ := undo_step_spec ra
  have hit : iterate undo_step 2 e3 = some e4 := by
    simp only [iterate, ga, gb]
  have hdoc : document e4 = document e1 :=
    document_eq_of_toList r1.tree rb.tree (PastOK_unique rb.pastOK r1.pastOK)
  refine ⟨hu, hr, hco, e4, ?_, hit, by simpa using rb.undo_size, by simpa using rb.redo_size,
    hdoc, ?_⟩
  · simp only [exec_run, hco, apply_do]
    exact hit
  · have hl : lookup e4.t = lookup e1.t := congrArg Prod.fst hdoc
    have hn : e4.t.number_of_keys = e1.t.number_of_keys := congrArg Prod.snd hdoc
    rw [exec_print_one, exec_print_one, hl, hn]

/-- Witness for C11 (as amended): with `1,1c a`, `2,2c b`, `3,3c c` the run leaves the
document of the first command. -/
theorem scenario_S6_undoes_two_commands_witness :
    state_abc.undo_stack.size = 3 ∧ state_abc.redo_stack.size = 0 ∧
      coalesce state_abc [DoToken.UNDO 5, DoToken.REDO 2, DoToken.UNDO 1] = ⟨2, 1, 2⟩ ∧
      ∃ e4, exec_run [DoToken.UNDO 5, DoToken.REDO 2, DoToken.UNDO 1] state_abc = some e4 ∧
        iterate undo_step 2 state_abc = some e4 ∧
        e4.undo_stack.size = 1 ∧ e4.redo_stack.size = 2 ∧ document e4 = document state_a ∧
        exec_print 1 1 e4.t = exec_print 1 1 state_a.t :=
  scenario_S6_undoes_two_commands (Input.CHANGE 1 1 ["a\n"]) (Input.CHANGE 2 2 ["b\n"])
    (Input.CHANGE 3 3 ["c\n"]) state_a state_ab state_abc trivial
    ⟨by decide, by decide, by decide⟩ trivial ⟨by decide, by decide, by decide⟩ trivial
    ⟨by decide, by decide, by decide⟩ (by rfl) (by rfl) (by rfl)

/-- Counterexample for C11 as stated: on the history `1,1c a`, `2,2c b`, `3,3c c`
(`|U|_g = 3`, `|R|_g = 0`) the stream `5,0u`, `2,0r`, `1,0u`, `1,1p` accumulates the
displacement 2, not 3: afterwards `|U|_g = 1`, `|R|_g = 2`, line 1 is still live and the
print writes `a`, where an empty document would print a dot line. -/
theorem scenario_S6_counterexample :
    (main [Command.CHANGE 1 1 ["a\n"], Command.CHANGE 2 2 ["b\n"],
        Command.CHANGE 3 3 ["c\n"], Command.QUIT]).map Prod.fst = some state_abc ∧
      state_abc.undo_stack.size = 3 ∧ state_abc.redo_stack.size = 0 ∧
      (coalesce state_abc [DoToken.UNDO 5, DoToken.REDO 2, DoToken.UNDO 1]).start_do = 2 ∧
      (main [Command.CHANGE 1 1 ["a\n"], Command.CHANGE 2 2 ["b\n"],
        Command.CHANGE 3 3 ["c\n"], Command.UNDO 5, Command.REDO 2, Command.UNDO 1,
        Command.PRINT 1 1, Command.QUIT]).map
        (fun p => (p.1.undo_stack.size, p.1.redo_stack.size, live_keys p.1.t, p.2)) =
        some (1, 2, [1], ["a\n"]) ∧
      exec_print 1 1 tree_create = some [".\n"] :=
  ⟨by rfl, by rfl, by rfl, by rfl, by rfl, by rfl⟩

/-! ## Commands addressed past the end of the document -/

theorem delete_loop_past_end (id N : Int) (t : tree_t) (n : Nat) (line_number : Int)
    (s : stack_t) (h : N < line_number) :
    delete_loop id N n line_number t s =
      some (t, ⟨List.replicate n ⟨-1, -1, id, CHANGE, ""⟩ ++ s.top, s.size⟩) := by
  induction n generalizing line_number s with
  | zero => rfl
  | succ n ih =>
    have hc : line_number > N ∨ line_number < 1 := Or.inl h
    simp only [delete_loop, hc, if_true]
    rw [ih (line_number + 1) _ (by omega)]
    simp only [stack_push_values, List.replicate_succ', List.append_assoc, List.singleton_append]

/-- C12: on a document of `N >= 0` lines, `DELETE(a,b)` with `N < a <= b < INT_MAX` returns;
it leaves the tree (keys, payloads, `number_of_keys`) as it was, pushes exactly `b - a + 1`
records on the undo stack, each the sentinel `CHANGE` record with `begin = end = -1` and the
current command id, pushes no `FIX_VALUES` record, raises `undo_stack->size` by one, empties
the redo stack and advances the command id. -/
theorem delete_past_end_pushes_sentinels (e : Editor) (a b : Int)
    (hN : 0 ≤ e.t.number_of_keys) (h1 : e.t.number_of_keys < a) (h2 : a ≤ b)
    (h3 : b < INT_MAX) :
    exec_delete a b e =
      some ⟨e.t,
        ⟨List.replicate (b - a + 1).toNat ⟨-1, -1, e.command_id, CHANGE, ""⟩ ++
          e.undo_stack.top, e.undo_stack.size + 1⟩,
        ⟨[], 0⟩, e.command_id + 1⟩ := by
  have hb : ¬ b < e.t.number_of_keys := by omega
  have hfor := delete_for_eq e.command_id e.t.number_of_keys b (b - a + 1).toNat a e.t
    e.undo_stack (by simp only [INT_MIN]; omega) (by omega) h3
  simp only [exec_delete, hfor, delete_loop_past_end e.command_id e.t.number_of_keys e.t _ a
    e.undo_stack h1, hb, if_false, make_empty_stack_eq]

/-- Witness for C12: `6,7d` on the document `A B C D E` changes no line and pushes two
sentinel records. -/
theorem delete_past_end_pushes_sentinels_witness :
    step (Input.DELETE 6 7) state_five =
      some ⟨state_five.t,
        ⟨[⟨-1, -1, 2, CHANGE, ""⟩, ⟨-1, -1, 2, CHANGE, ""⟩] ++ state_five.undo_stack.top, 2⟩,
        ⟨[], 0⟩, 3⟩ :=
  delete_past_end_pushes_sentinels state_five 6 7 (by decide) (by decide) (by decide)
    (by unfold INT_MAX; decide)

/-- Counterexample to C12 as stated: on the empty document (`N = 0`) the command
`2147483647,2147483647d` has `N < a <= b`, yet it does not stop after `b - a + 1 = 1`
sentinel record: the loop test `line_number <= end` with `end = INT_MAX` holds for every
`int`, so no number of iterations ends the command. -/
theorem delete_past_end_counterexample :
    dense Editor.init.t ∧ Editor.init.t.number_of_keys = 0 ∧
      exec_delete 2147483647 2147483647 Editor.init = none ∧
      ∀ (fuel : Nat) (t : tree_t) (s : stack_t),
        delete_for Editor.init.command_id Editor.init.t.number_of_keys 2147483647 fuel
          2147483647 t s = none :=
  ⟨fun k => by
      simp only [dense, live_keys, Editor.init, tree_create, toList, List.map_nil,
        List.not_mem_nil, false_iff]
      omega,
    by rfl, by rfl,
    fun fuel t s => delete_for_none _ _ _ fuel _ t s (by decide) (by unfold INT_MAX; decide)⟩

/-- C13: on a document of `N >= 0` lines and for all integers `a <= b < INT_MAX` with
`a > N`, `PRINT(a,b)` returns and writes exactly `b - a + 1` lines, each a dot followed by
newline, and nothing else. -/
theorem print_past_end_writes_dots (t : tree_t) (a b : Int) (hN : 0 ≤ t.number_of_keys)
    (h1 : t.number_of_keys < a) (_h2 : a ≤ b) (h3 : b < INT_MAX) :
    exec_print a b t = some (List.replicate (b - a + 1).toNat POINT_NEWLINE) := by
  have ha : ¬ a < 1 := by omega
  have hz : (1 - a).toNat = 0 := by omega
  have h4 : a > t.number_of_keys := h1
  have hp := point_for_spec b a (by simp only [INT_MIN]; omega) h3
  simp only [exec_print, ha, if_false, h4, if_true, hz, List.replicate_zero, List.nil_append,
    hp]

/-- Witness for C13: `6,8p` on the document `A B C D E` writes three dot lines. -/
theorem print_past_end_writes_dots_witness :
    exec_print 6 8 state_five.t = some [".\n", ".\n", ".\n"] :=
  print_past_end_writes_dots state_five.t 6 8 (by decide) (by decide) (by decide)
    (by unfold INT_MAX; decide)

/-- Counterexample to C13 as stated: on the document `A B C D E` (`N = 5`) the command
`2147483647,2147483647p` has `a <= b` and `a > N`, yet it does not write `b - a + 1 = 1`
line and stop: the loop test `i <= end` with `end = INT_MAX` holds for every `int`, so dot
lines are written without end. -/
theorem print_past_end_counterexample :
    state_five.t.number_of_keys = 5 ∧
      exec_print 2147483647 2147483647 state_five.t = none ∧
      ∀ fuel : Nat, point_for 2147483647 fuel 2147483647 = none :=
  ⟨by rfl, by rfl, fun fuel => point_for_none _ fuel _ (by decide) (by unfold INT_MAX; decide)⟩

/-! ## One step moves one group -/

theorem takeWhile_dropWhile_split {α : Type} (p : α → Bool) (A B : List α)
    (hA : ∀ a ∈ A, p a = true) (hB : ∀ b ∈ B, p b = false) :
    (A ++ B).takeWhile p = A ∧ (A ++ B).dropWhile p = B := by
  induction A with
  | nil =>
    cases B with
    | nil => exact ⟨rfl, rfl⟩
    | cons b B =>
      have := hB b (by simp)
      simp [List.takeWhile, List.dropWhile, this]
  | cons a A ih =>
    have ha := hA a (by simp)
    obtain ⟨i1, i2⟩ := ih (fun x hx => hA x (by simp [hx]))
    exact ⟨by rw [List.cons_append, List.takeWhile_cons, ha]; simp only [if_true, i1],
      by rw [List.cons_append, List.dropWhile_cons, ha]; simp only [if_true, i2]⟩

theorem group_split {g : Int} {grp below : List list_of_commands_t} (hne : grp ≠ [])
    (hg : ∀ r ∈ grp, r.command_id = g) (hb : ∀ r ∈ below, r.command_id ≠ g) :
    top_group (grp ++ below) = grp ∧ below_top_group (grp ++ below) = below := by
  obtain ⟨r0, rs, rfl⟩ := List.exists_cons_of_ne_nil hne
  have h0 : r0.command_id = g := hg r0 (by simp)
  simp only [top_group, below_top_group, List.cons_append]
  rw [← List.cons_append]
  exact takeWhile_dropWhile_split _ (r0 :: rs) below
    (fun a ha => by simp [hg a ha, h0]) (fun b hb2 => by simp [hb b hb2, h0])

theorem Rep_undo_groups {P : Doc → Prop} {x : Entry} {past future : List Entry} {e : Editor}
    (h : Rep P (x :: past) future e) :
    top_group e.undo_stack.top = x.records ∧
      below_top_group e.undo_stack.top = undoRecords past ∧ x.records ≠ [] ∧
      (∀ r ∈ x.records, r.command_id = x.id) ∧
      (∀ r ∈ undoRecords past, r.command_id ≠ x.id) := by
  obtain ⟨hxa, hx, hp⟩ := h.pastOK
  obtain ⟨hne, hid, hl, hD0⟩ := hx
  have hids := h.ids
  simp only [timelineIds, List.reverse_cons, List.append_assoc, List.singleton_append,
    List.map_append, List.map_cons, List.pairwise_append, List.pairwise_cons,
    List.mem_map, List.mem_reverse, List.mem_cons] at hids
  have hbelow : ∀ r ∈ undoRecords past, r.command_id ≠ x.id := by
    intro r hr
    obtain ⟨y, hy, e1⟩ := mem_undoRecords hp hr
    have := hids.2.2 y.id ⟨y, hy, rfl⟩ x.id (Or.inl rfl)
    omega
  have htop : e.undo_stack.top = x.records ++ undoRecords past := h.undo_top
  rw [htop]
  obtain ⟨a, b⟩ := group_split hne hid hbelow
  exact ⟨a, b, hne, hid, hbelow⟩

theorem Rep_redo_groups {P : Doc → Prop} {x : Entry} {past future : List Entry} {e : Editor}
    (h : Rep P past (x :: future) e) :
    top_group e.redo_stack.top = x.records.reverse ∧
      below_top_group e.redo_stack.top = redoRecords future ∧ x.records ≠ [] ∧
      (∀ r ∈ x.records, r.command_id = x.id) ∧
      (∀ r ∈ redoRecords future, r.command_id ≠ x.id) := by
  obtain ⟨hxb, hx, hf⟩ := h.futureOK
  obtain ⟨hne, hid, hl, hD0⟩ := hx
  have hids := h.ids
  simp only [timelineIds, List.map_append, List.map_cons, List.pairwise_append,
    List.pairwise_cons, List.mem_map, List.mem_reverse, List.mem_cons] at hids
  have hbelow : ∀ r ∈ redoRecords future, r.command_id ≠ x.id := by
    intro r hr
    obtain ⟨y, hy, e1⟩ := mem_redoRecords hf hr
    have := hids.2.1.1 y.id ⟨y, hy, rfl⟩
    omega
  have htop : e.redo_stack.top = x.records.reverse ++ redoRecords future := h.redo_top
  rw [htop]
  have hne2 : x.records.reverse ≠ [] := by simpa using hne
  have hid2 : ∀ r ∈ x.records.reverse, r.command_id = x.id :=
    fun r hr => hid r (by simpa using hr)
  obtain ⟨a, b⟩ := group_split hne2 hid2 hbelow
  exact ⟨a, b, hne, hid, hbelow⟩

/-- C14: in every reachable state with `|U|_g >= 1`, one undo step returns; the undo stack
is its topmost group followed by records of other ids, the step takes exactly that group off
the undo stack and puts it in reversed order on top of the redo stack, every other record of
either stack stays where it was, `undo_stack->size` drops by 1 and `redo_stack->size` grows
by 1.  Symmetrically for one redo step when `|R|_g >= 1`. -/
theorem step_moves_one_group (e : Editor) (he : Reachable e) :
    (1 ≤ e.undo_stack.size → ∃ e1, undo_step e = some e1 ∧
        top_group e.undo_stack.top ≠ [] ∧
        e.undo_stack.top = top_group e.undo_stack.top ++ below_top_group e.undo_stack.top ∧
        (∀ r ∈ top_group e.undo_stack.top, ∀ r2 ∈ below_top_group e.undo_stack.top,
          r2.command_id ≠ r.command_id) ∧
        e1.undo_stack = ⟨below_top_group e.undo_stack.top, e.undo_stack.size - 1⟩ ∧
        e1.redo_stack =
          ⟨(top_group e.undo_stack.top).reverse ++ e.redo_stack.top, e.redo_stack.size + 1⟩) ∧
      (1 ≤ e.redo_stack.size → ∃ e1, redo_step e = some e1 ∧
        top_group e.redo_stack.top ≠ [] ∧
        e.redo_stack.top = top_group e.redo_stack.top ++ below_top_group e.redo_stack.top ∧
        (∀ r ∈ top_group e.redo_stack.top, ∀ r2 ∈ below_top_group e.redo_stack.top,
          r2.command_id ≠ r.command_id) ∧
        e1.redo_stack = ⟨below_top_group e.redo_stack.top, e.redo_stack.size - 1⟩ ∧
        e1.undo_stack =
          ⟨(top_group e.redo_stack.top).reverse ++ e.undo_stack.top, e.undo_stack.size + 1⟩) := by
  obtain ⟨past, future, hr⟩ := Reachable_Rep he
  constructor
  · intro h1
    cases past with
    | nil =>
      have := hr.undo_size
      simp only [List.length_nil, Nat.cast_zero] at this
      omega
    | cons x past =>
      obtain ⟨e1, g1, r1, _⟩ := undo_step_spec hr
      obtain ⟨a, b, hne, hid, hbelow⟩ := Rep_undo_groups hr
      refine ⟨e1, g1, by rw [a]; exact hne, by rw [a, b]; exact hr.undo_top, ?_, ?_, ?_⟩
      · intro r hr1 r2 hr2
        rw [a] at hr1; rw [b] at hr2
        rw [hid r hr1]; exact hbelow r2 hr2
      · have h3 := r1.undo_top
        have h4 := r1.undo_size
        have h5 := hr.undo_size
        cases hs : e1.undo_stack with
        | mk top size =>
          simp only [hs] at h3 h4
          simp only [List.length_cons, Nat.cast_add, Nat.cast_one] at h5
          rw [b, h3, h4, h5]
          simp
      · have h3 := r1.redo_top
        have h4 := r1.redo_size
        have h5 := hr.redo_size
        have h6 := hr.redo_top
        cases hs : e1.redo_stack with
        | mk top size =>
          simp only [hs, redoRecords] at h3 h4
          simp only [List.length_cons, Nat.cast_add, Nat.cast_one] at h4
          rw [a, h3, h4, h5, h6]
  · intro h1
    cases future with
    | nil =>
      have := hr.redo_size
      simp only [List.length_nil, Nat.cast_zero] at this
      omega
    | cons x future =>
      obtain ⟨e1, g1, r1, _⟩ := redo_step_spec hr
      obtain ⟨a, b, hne, hid, hbelow⟩ := Rep_redo_groups hr
      refine ⟨e1, g1, by rw [a]; simpa using hne, by rw [a, b]; exact hr.redo_top, ?_, ?_, ?_⟩
      · intro r hr1 r2 hr2
        rw [a] at hr1; rw [b] at hr2
        rw [hid r (by simpa using hr1)]; exact hbelow r2 hr2
      · have h3 := r1.redo_top
        have h4 := r1.redo_size
        have h5 := hr.redo_size
        cases hs : e1.redo_stack with
        | mk top size =>
          simp only [hs] at h3 h4
          simp only [List.length_cons, Nat.cast_add, Nat.cast_one] at h5
          rw [b, h3, h4, h5]
          simp
      · have h3 := r1.undo_top
        have h4 := r1.undo_size
        have h5 := hr.undo_size
        have h6 := hr.undo_top
        cases hs : e1.undo_stack with
        | mk top size =>
          simp only [hs, undoRecords] at h3 h4
          simp only [List.length_cons, Nat.cast_add, Nat.cast_one] at h4
          rw [a, h3, h4, h5, h6, List.reverse_reverse]

/-- Witness for C14: after `hello` and `world` the undo stack holds the two records of
group 2 above the record of group 1; one undo step moves the two, reversed, onto the redo
stack, and one redo step moves them back. -/
theorem step_moves_one_group_witness :
    (∃ e1, undo_step state_world = some e1 ∧
        top_group state_world.undo_stack.top ≠ [] ∧
        state_world.undo_stack.top =
          top_group state_world.undo_stack.top ++ below_top_group state_world.undo_stack.top ∧
        (∀ r ∈ top_group state_world.undo_stack.top,
          ∀ r2 ∈ below_top_group state_world.undo_stack.top,
          r2.command_id ≠ r.command_id) ∧
        e1.undo_stack =
          ⟨below_top_group state_world.undo_stack.top, state_world.undo_stack.size - 1⟩ ∧
        e1.redo_stack =
          ⟨(top_group state_world.undo_stack.top).reverse ++ state_world.redo_stack.top,
            state_world.redo_stack.size + 1⟩) ∧
      top_group state_world.undo_stack.top =
        [⟨1, 1, 2, DELETE, "world\n"⟩, ⟨1, 1, 2, CHANGE, "hello\n"⟩] ∧
      undo_step state_world = some state_undone ∧
      redo_step state_undone = some state_world :=
  ⟨(step_moves_one_group state_world state_world_reachable).1 (by decide), by rfl, by rfl,
    by rfl⟩

/-! ## The renumbering walks -/

theorem tree_key_fixup_from_do_forget_keys (a b : Int) (t : Tree) :
    forget_keys (tree_key_fixup_from_do a b t) = forget_keys t := by
  induction t with
  | nil => rfl
  | node l k s c r ihl ihr => simp only [tree_key_fixup_from_do, forget_keys, ihl, ihr]

/-- With `1 <= a <= b`, as long as no raised key passes `INT_MAX` the `int` additions of
`tree_key_fixup_from_do` give the integer sums. -/
theorem machine_key_fixup_from_do_eq (a b : Int) (t : Tree) (h1 : 1 ≤ a) (h2 : a ≤ b)
    (h3 : ∀ p ∈ toList t, p.1 ≥ a → p.1 + (b - a + 1) ≤ INT_MAX) :
    Machine.tree_key_fixup_from_do a b t = tree_key_fixup_from_do a b t := by
  induction t with
  | nil => rfl
  | node l k s c r ihl ihr =>
    simp only [toList, List.mem_append, List.mem_cons] at h3
    simp only [Machine.tree_key_fixup_from_do, tree_key_fixup_from_do,
      ihl (fun p hp => h3 p (Or.inl hp)), ihr (fun p hp => h3 p (Or.inr (Or.inr hp)))]
    by_cases hk : k ≥ a
    · have hb := h3 (k, s) (Or.inr (Or.inl rfl)) hk
      simp only [INT_MAX] at hb
      have w1 : wrap (b - a) = b - a :=
        wrap_of_range (by simp only [INT_MIN]; omega) (by simp only [INT_MAX]; omega)
      have w2 : wrap (b - a + 1) = b - a + 1 :=
        wrap_of_range (by simp only [INT_MIN]; omega) (by simp only [INT_MAX]; omega)
      have w3 : wrap (k + (b - a + 1)) = k + (b - a + 1) :=
        wrap_of_range (by simp only [INT_MIN]; omega) (by simp only [INT_MAX]; omega)
      simp only [hk, if_true, w1, w2, w3]
    · simp only [hk, if_false]

/-- C16 (as amended): for every tree and all `1 <= a <= b` such that `k + (b - a + 1)` does
not pass `INT_MAX` for any live key `k >= a`, `tree_key_fixup_from_do(t, root, a, b)`, with
the `int` arithmetic of the program, replaces every live key `k >= a` by `k + (b - a + 1)`
and leaves every live key `k < a`, every payload, the colours and the shape of the tree
unchanged. -/
theorem tree_key_fixup_from_do_shifts_from_start (a b : Int) (t : Tree) (h1 : 1 ≤ a)
    (h2 : a ≤ b) (h3 : ∀ p ∈ toList t, p.1 ≥ a → p.1 + (b - a + 1) ≤ INT_MAX) :
    toList (Machine.tree_key_fixup_from_do a b t) =
        (toList t).map (fun p => (if p.1 ≥ a then p.1 + (b - a + 1) else p.1, p.2)) ∧
      forget_keys (Machine.tree_key_fixup_from_do a b t) = forget_keys t := by
  have h4 := tree_key_fixup_from_do_toList a b t
  simp only [Doc.key_fixup_from_do] at h4
  rw [machine_key_fixup_from_do_eq a b t h1 h2 h3]
  exact ⟨h4, tree_key_fixup_from_do_forget_keys a b t⟩

/-- Witness for C16: on the tree of the document `A B C D E`,
`tree_key_fixup_from_do(t, root, 2, 3)` raises the keys `2..5` by two and leaves key 1. -/
theorem tree_key_fixup_from_do_shifts_from_start_witness :
    toList (Machine.tree_key_fixup_from_do 2 3 state_five.t.root) =
      [(1, "A\n"), (4, "B\n"), (5, "C\n"), (6, "D\n"), (7, "E\n")] ∧
      forget_keys (Machine.tree_key_fixup_from_do 2 3 state_five.t.root) =
        forget_keys state_five.t.root :=
  ⟨(tree_key_fixup_from_do_shifts_from_start 2 3 state_five.t.root (by decide) (by decide)
      (by unfold INT_MAX; decide)).1.trans (by rfl),
    (tree_key_fixup_from_do_shifts_from_start 2 3 state_five.t.root (by decide) (by decide)
      (by unfold INT_MAX; decide)).2⟩

/-- Counterexample to C16 as stated: the one-node tree that `tree_insert` builds for the key
`2147483647` is well formed, and `tree_key_fixup_from_do(t, root, 1, 1)` computes its new
key as the `int` sum `2147483647 + 1`, which is `-2147483648` and not `k + (b - a + 1)`. -/
theorem tree_key_fixup_from_do_counterexample :
    (tree_insert tree_create 2147483647 "b\n" 1 ⟨[], 0⟩).map Prod.fst =
        some ⟨Tree.node Tree.nil 2147483647 "b\n" BLACK Tree.nil, 1⟩ ∧
      TreeOK ⟨Tree.node Tree.nil 2147483647 "b\n" BLACK Tree.nil, 1⟩ ∧
      toList (Machine.tree_key_fixup_from_do 1 1
          (Tree.node Tree.nil 2147483647 "b\n" BLACK Tree.nil)) = [(-2147483648, "b\n")] ∧
      (2147483647 : Int) + (1 - 1 + 1) = 2147483648 :=
  ⟨by rfl, ⟨⟨rfl, 1, by simp [isRB]⟩, by unfold SortedK; decide, by rfl⟩, by rfl, by decide⟩

/-! ## Contracts of the tree primitives -/

theorem SortedK_payload_unique {D : Doc} {k : Int} {s s2 : String} (hs : SortedK D)
    (h1 : (k, s) ∈ D) (h2 : (k, s2) ∈ D) : s = s2 := by
  have a := Doc.lookup_of_mem hs h1
  have b := Doc.lookup_of_mem hs h2
  rw [a] at b
  exact Option.some.inj b

/-- As long as `key - x->key` stays in the `int` range for every key of the tree, the
comparison `cmp = key - x->key` of `tree_search` has the sign of the integer difference. -/
theorem machine_search_loop_eq (key : Int) (x : Tree) (up : Path)
    (h : ∀ p ∈ toList x, INT_MIN ≤ key - p.1 ∧ key - p.1 ≤ INT_MAX) :
    Machine.tree_search_loop key x up = tree_search_loop key x up := by
  induction x generalizing up with
  | nil => rfl
  | node l k s c r ihl ihr =>
    simp only [toList, List.mem_append, List.mem_cons] at h
    have hk := h (k, s) (Or.inr (Or.inl rfl))
    simp only [Machine.tree_search_loop, tree_search_loop, wrap_of_range hk.1 hk.2,
      ihl _ (fun p hp => h p (Or.inl hp)), ihr _ (fun p hp => h p (Or.inr (Or.inr hp)))]

/-- C17 (as amended): on a tree in binary-search-tree order and for every key `k` such that
`k - x->key` stays in the `int` range for every live key (as it does when `k` and the live
keys are line indices, all at least 0), `tree_search(t, k)`, with the `int` subtraction of
the program, returns a node of the tree whose key is `k` and whose text is the payload
stored for `k` when some live node has key `k`, and returns `NULL` when no live node has
key `k`. -/
theorem tree_search_contract (t : tree_t) (k : Int) (hs : SortedK (toList t.root))
    (hr : ∀ p ∈ toList t.root, INT_MIN ≤ k - p.1 ∧ k - p.1 ≤ INT_MAX) :
    (∀ s, (k, s) ∈ toList t.root →
        ∃ l c r up, Machine.tree_search t k = some ⟨Tree.node l k s c r, up⟩ ∧
          zip (Tree.node l k s c r) up = t.root) ∧
      ((∀ p ∈ toList t.root, p.1 ≠ k) → Machine.tree_search t k = none) := by
  have he : Machine.tree_search t k = tree_search t k :=
    machine_search_loop_eq k t.root [] hr
  rw [he]
  constructor
  · intro s hm
    cases h : tree_search t k with
    | none => exact absurd rfl (tree_search_loop_none hs h _ hm)
    | some y =>
      obtain ⟨⟨l, s0, c, r, hy⟩, hz, _⟩ := tree_search_loop_some h
      obtain ⟨here, up⟩ := y
      simp only at hy hz
      subst hy
      simp only [zip] at hz
      have hm0 : (k, s0) ∈ toList t.root := by
        rw [← hz, toList_zip]
        simp [toList]
      have e := SortedK_payload_unique hs hm hm0
      subst e
      exact ⟨l, c, r, up, rfl, hz⟩
  · intro hn
    cases h : tree_search t k with
    | none => rfl
    | some y =>
      obtain ⟨⟨l, s0, c, r, hy⟩, hz, _⟩ := tree_search_loop_some h
      simp only [zip] at hz
      have hm0 : (k, s0) ∈ toList t.root := by
        rw [← hz, toList_zip, hy]
        simp [toList]
      exact absurd rfl (hn _ hm0)

/-- Witness for C17: in the tree of the document `A B C D E`, the search for key 3 returns
the node holding `C` and the search for key 6 returns `NULL`. -/
theorem tree_search_contract_witness :
    (∃ l c r up, Machine.tree_search state_five.t 3 = some ⟨Tree.node l 3 "C\n" c r, up⟩ ∧
        zip (Tree.node l 3 "C\n" c r) up = state_five.t.root) ∧
      Machine.tree_search state_five.t 6 = none :=
  ⟨(tree_search_contract state_five.t 3 (contiguous_TreeOK state_five_contiguous).1.sorted
      (by unfold INT_MIN INT_MAX; decide)).1 "C\n" (by decide),
    (tree_search_contract state_five.t 6 (contiguous_TreeOK state_five_contiguous).1.sorted
      (by unfold INT_MIN INT_MAX; decide)).2 (by decide)⟩

/-- Counterexample to C17 as stated: the tree that `tree_insert` builds for the keys `-2`
and `2147483647` is in binary-search-tree order and holds the key `2147483647`, yet
`tree_search` for that key returns `NULL`: at the root `cmp = 2147483647 - (-2)` is the
`int` value `-2147483647`, so the search goes to the left. -/
theorem tree_search_counterexample :
    ((tree_insert tree_create (-2) "a\n" 1 ⟨[], 0⟩).bind
        (fun p => tree_insert p.1 2147483647 "b\n" 1 p.2)).map Prod.fst =
        some ⟨Tree.node Tree.nil (-2) "a\n" BLACK
          (Tree.node Tree.nil 2147483647 "b\n" RED Tree.nil), 2⟩ ∧
      SortedK (toList (Tree.node Tree.nil (-2) "a\n" BLACK
          (Tree.node Tree.nil 2147483647 "b\n" RED Tree.nil))) ∧
      (2147483647, "b\n") ∈ toList (Tree.node Tree.nil (-2) "a\n" BLACK
          (Tree.node Tree.nil 2147483647 "b\n" RED Tree.nil)) ∧
      wrap (2147483647 - (-2)) = -2147483647 ∧
      Machine.tree_search ⟨Tree.node Tree.nil (-2) "a\n" BLACK
          (Tree.node Tree.nil 2147483647 "b\n" RED Tree.nil), 2⟩ 2147483647 = none :=
  ⟨by rfl, by unfold SortedK; decide, by decide, by decide, by rfl⟩

theorem undo_command_id {e e1 : Editor} (h : undo_command e = some e1) :
    e1.command_id = e.command_id := by
  unfold undo_command at h
  split at h
  · cases h
  · simp only at h
    split at h
    · cases h; rfl
    · cases h

theorem redo_command_id {e e1 : Editor} (h : redo_command e = some e1) :
    e1.command_id = e.command_id := by
  unfold redo_command at h
  split at h
  · cases h
  · simp only at h
    split at h
    · cases h; rfl
    · cases h

theorem undo_group_id (g : Int) (fuel : Nat) {e e1 : Editor}
    (h : undo_group g fuel e = some e1) : e1.command_id = e.command_id := by
  induction fuel generalizing e with
  | zero =>
    simp only [undo_group] at h
    split at h
    · cases h; rfl
    · split at h
      · cases h
      · cases h; rfl
  | succ n ih =>
    simp only [undo_group] at h
    split at h
    · cases h; rfl
    · split at h
      · split at h
        · rename_i e2 h2
          rw [ih h, undo_command_id h2]
        · cases h
      · cases h; rfl

theorem redo_group_id (g : Int) (fuel : Nat) {e e1 : Editor}
    (h : redo_group g fuel e = some e1) : e1.command_id = e.command_id := by
  induction fuel generalizing e with
  | zero =>
    simp only [redo_group] at h
    split at h
    · cases h; rfl
    · split at h
      · cases h
      · cases h; rfl
  | succ n ih =>
    simp only [redo_group] at h
    split at h
    · cases h; rfl
    · split at h
      · split at h
        · rename_i e2 h2
          rw [ih h, redo_command_id h2]
        · cases h
      · cases h; rfl

theorem undo_step_id {e e1 : Editor} (h : undo_step e = some e1) :
    e1.command_id = e.command_id := by
  unfold undo_step at h
  split at h
  · cases h
  · split at h
    · rename_i e2 h2
      cases h
      exact (undo_group_id _ _ h2 : e2.command_id = e.command_id)
    · cases h

theorem redo_step_id {e e1 : Editor} (h : redo_step e = some e1) :
    e1.command_id = e.command_id := by
  unfold redo_step at h
  split at h
  · cases h
  · split at h
    · rename_i e2 h2
      cases h
      exact (redo_group_id _ _ h2 : e2.command_id = e.command_id)
    · cases h

theorem iterate_id {f : Editor → Option Editor}
    (hf : ∀ e e1, f e = some e1 → e1.command_id = e.command_id) (n : Nat) {e e1 : Editor}
    (h : iterate f n e = some e1) : e1.command_id = e.command_id := by
  induction n generalizing e with
  | zero => simp only [iterate] at h; cases h; rfl
  | succ n ih =>
    simp only [iterate] at h
    split at h
    · rename_i e2 h2
      rw [ih h, hf _ _ h2]
    · cases h

theorem exec_run_id (run : List DoToken) {e e1 : Editor} (h : exec_run run e = some e1) :
    e1.command_id = e.command_id := by
  simp only [exec_run, apply_do] at h
  split at h
  · exact iterate_id (fun _ _ => undo_step_id) _ h
  · split at h
    · exact iterate_id (fun _ _ => redo_step_id) _ h
    · cases h; rfl

theorem step_command_id {e e1 : Editor} {c : Input} (h : step c e = some e1) :
    (c.mutating → e1.command_id = e.command_id + 1) ∧
      (¬ c.mutating → e1.command_id = e.command_id) := by
  cases c with
  | CHANGE a b lines =>
    refine ⟨fun _ => ?_, fun hn => absurd trivial hn⟩
    simp only [step, exec_change] at h
    split at h
    · cases h; rfl
    · cases h
  | DELETE a b =>
    refine ⟨fun _ => ?_, fun hn => absurd trivial hn⟩
    simp only [step, exec_delete] at h
    split at h
    · cases h; rfl
    · cases h
  | PRINT a b =>
    refine ⟨fun hm => False.elim hm, fun _ => ?_⟩
    simp only [step] at h
    split at h
    · cases h; rfl
    · cases h
  | RUN run =>
    exact ⟨fun hm => False.elim hm, fun _ => exec_run_id run h⟩

theorem recordsOf_append (A B : List Entry) :
    recordsOf (A ++ B) = recordsOf A ++ recordsOf B := by
  induction A with
  | nil => rfl
  | cons x A ih =>
    show x.records.reverse ++ recordsOf (A ++ B) = (x.records.reverse ++ recordsOf A) ++ recordsOf B
    rw [ih, List.append_assoc]

theorem undoRecords_reverse (past : List Entry) :
    (undoRecords past).reverse = recordsOf past.reverse := by
  induction past with
  | nil => rfl
  | cons x p ih =>
    simp only [undoRecords, List.reverse_append, List.reverse_cons, recordsOf_append, recordsOf,
      List.append_nil, ih]

theorem redoRecords_eq (future : List Entry) : redoRecords future = recordsOf future := by
  induction future with
  | nil => rfl
  | cons x f ih => simp only [redoRecords, recordsOf, ih]

theorem Rep_timeline {P : Doc → Prop} {past future : List Entry} {e : Editor}
    (h : Rep P past future e) : timeline_records e = recordsOf (past.reverse ++ future) := by
  simp only [timeline_records, h.undo_top, h.redo_top, undoRecords_reverse, redoRecords_eq,
    recordsOf_append]

theorem PastOK_ids {past : List Entry} {D : Doc} (h : PastOK past D) :
    ∀ x ∈ past, ∀ r ∈ x.records, r.command_id = x.id := by
  induction past generalizing D with
  | nil => intro x hx; simp at hx
  | cons y p ih =>
    obtain ⟨_, hy, hp⟩ := h
    intro x hx
    rcases List.mem_cons.1 hx with rfl | hx
    · exact hy.2.1
    · exact ih hp x hx

theorem FutureOK_ids {future : List Entry} {D : Doc} (h : FutureOK D future) :
    ∀ x ∈ future, ∀ r ∈ x.records, r.command_id = x.id := by
  induction future generalizing D with
  | nil => intro x hx; simp at hx
  | cons y f ih =>
    obtain ⟨_, hy, hf⟩ := h
    intro x hx
    rcases List.mem_cons.1 hx with rfl | hx
    · exact hy.2.1
    · exact ih hf x hx

theorem mem_recordsOf {L : List Entry} {r : list_of_commands_t} (hr : r ∈ recordsOf L) :
    ∃ x ∈ L, r ∈ x.records := by
  induction L with
  | nil => simp [recordsOf] at hr
  | cons y L ih =>
    simp only [recordsOf, List.mem_append, List.mem_reverse] at hr
    rcases hr with hr | hr
    · exact ⟨y, by simp, hr⟩
    · obtain ⟨x, hx, h⟩ := ih hr
      exact ⟨x, by simp [hx], h⟩

theorem recordsOf_pairwise {L : List Entry}
    (hid : ∀ x ∈ L, ∀ r ∈ x.records, r.command_id = x.id)
    (hp : (L.map Entry.id).Pairwise (fun a b => a < b)) :
    (recordsOf L).Pairwise (fun r1 r2 => r1.command_id ≤ r2.command_id) := by
  induction L with
  | nil => exact List.Pairwise.nil
  | cons y L ih =>
    simp only [List.map_cons, List.pairwise_cons, List.mem_map] at hp
    simp only [recordsOf, List.pairwise_append, List.mem_reverse]
    refine ⟨?_, ih (fun x hx => hid x (by simp [hx])) hp.2, ?_⟩
    · apply List.pairwise_of_forall_mem_list
      intro a ha b hb
      rw [hid y (by simp) a (by simpa using ha), hid y (by simp) b (by simpa using hb)]
    · intro a ha b hb
      obtain ⟨x, hx, hbx⟩ := mem_recordsOf hb
      rw [hid y (by simp) a ha, hid x (by simp [hx]) b hbx]
      exact le_of_lt (hp.1 x.id ⟨x, hx, rfl⟩)

theorem between_of_increasing {l A M B : List list_of_commands_t} {r1 r2 : list_of_commands_t}
    (h : l.Pairwise (fun a b => a.command_id ≤ b.command_id))
    (hl : l = A ++ r1 :: (M ++ r2 :: B)) (he : r1.command_id = r2.command_id) :
    ∀ r ∈ M, r.command_id = r1.command_id := by
  subst hl
  simp only [List.pairwise_append, List.pairwise_cons, List.mem_append, List.mem_cons] at h
  intro r hr
  have h1 := h.2.1.1 r (Or.inl hr)
  have h2 := h.2.1.2.2.2 r hr r2 (Or.inl rfl)
  omega

theorem between_of_decreasing {l A M B : List list_of_commands_t} {r1 r2 : list_of_commands_t}
    (h : l.Pairwise (fun a b => b.command_id ≤ a.command_id))
    (hl : l = A ++ r1 :: (M ++ r2 :: B)) (he : r1.command_id = r2.command_id) :
    ∀ r ∈ M, r.command_id = r1.command_id := by
  subst hl
  simp only [List.pairwise_append, List.pairwise_cons, List.mem_append, List.mem_cons] at h
  intro r hr
  have h1 := h.2.1.1 r (Or.inl hr)
  have h2 := h.2.1.2.2.2 r hr r2 (Or.inl rfl)
  omega

theorem Rep_mutating_step {past future : List Entry} {e e1 : Editor}
    (h : Rep (fun _ => True) past future e) {c : Input} (hc : c.mutating) (hw : c.WF)
    (hs : step c e = some e1) :
    ∃ x, Rep (fun _ => True) (x :: past) [] e1 ∧ x.id = e.command_id := by
  cases c with
  | CHANGE a b lines =>
    obtain ⟨h1, h2, h3⟩ := hw
    obtain ⟨e2, x, g, hr, _, hid, _⟩ :=
      exec_change_Rep h a b lines h1 h2 (exec_change_bound h2 hs) h3 trivial
    simp only [step] at hs
    rw [hs] at g
    cases g
    exact ⟨x, hr, hid⟩
  | DELETE a b =>
    obtain ⟨h1, h2⟩ := hw
    obtain ⟨e2, x, g, hr, _, hid, _⟩ :=
      exec_delete_Rep h a b h1 h2 (exec_delete_bound h2 hs) trivial
    simp only [step] at hs
    rw [hs] at g
    cases g
    exact ⟨x, hr, hid⟩
  | PRINT a b => exact False.elim hc
  | RUN run => exact False.elim hc

/-- C21: `command_id` grows by exactly 1 in each `CHANGE` or `DELETE` and is left alone by
`PRINT` and by runs of `UNDO`/`REDO`.  In every reachable state every record of either
stack has a `command_id` below the current one; read in the order the commands were issued
(undo stack bottom to top, then redo stack top to bottom) the ids of the records never
decrease, so within each stack the records that share an id are contiguous; a mutating
command puts on the undo stack a non-empty run of records that all carry the current
`command_id`, which no record already in the history carries, and empties the redo stack;
and a run of `UNDO`/`REDO` only moves records between the stacks, keeping that order.  Hence
records of different user commands never share a `command_id`. -/
theorem group_id_discipline :
    (∀ (e e1 : Editor) (c : Input), step c e = some e1 →
        (c.mutating → e1.command_id = e.command_id + 1) ∧
        (¬ c.mutating → e1.command_id = e.command_id)) ∧
      (∀ e : Editor, Reachable e →
        (∀ r ∈ e.undo_stack.top ++ e.redo_stack.top, r.command_id < e.command_id) ∧
        (timeline_records e).Pairwise (fun r1 r2 => r1.command_id ≤ r2.command_id) ∧
        (∀ A r1 M r2 B, e.undo_stack.top = A ++ r1 :: (M ++ r2 :: B) →
          r1.command_id = r2.command_id → ∀ r ∈ M, r.command_id = r1.command_id) ∧
        (∀ A r1 M r2 B, e.redo_stack.top = A ++ r1 :: (M ++ r2 :: B) →
          r1.command_id = r2.command_id → ∀ r ∈ M, r.command_id = r1.command_id) ∧
        (∀ (c : Input) (e1 : Editor), c.mutating → c.WF → step c e = some e1 →
          ∃ new, new ≠ [] ∧ e1.undo_stack.top = new ++ e.undo_stack.top ∧
            e1.redo_stack.top = [] ∧ ∀ r ∈ new, r.command_id = e.command_id) ∧
        (∀ (run : List DoToken) (e1 : Editor), (∀ tok ∈ run, 0 ≤ tok.start) →
          exec_run run e = some e1 → timeline_records e1 = timeline_records e)) := by
  refine ⟨fun e e1 c h => step_command_id h, fun e he => ?_⟩
  obtain ⟨past, future, hr⟩ := Reachable_Rep he
  have hid : ∀ x ∈ past.reverse ++ future, ∀ r ∈ x.records, r.command_id = x.id := by
    intro x hx
    rcases List.mem_append.1 hx with hx | hx
    · exact PastOK_ids hr.pastOK x (by simpa using hx)
    · exact FutureOK_ids hr.futureOK x hx
  have hpw : (timeline_records e).Pairwise (fun r1 r2 => r1.command_id ≤ r2.command_id) := by
    rw [Rep_timeline hr]
    exact recordsOf_pairwise hid hr.ids
  have hpw2 := hpw
  simp only [timeline_records, List.pairwise_append, List.pairwise_reverse] at hpw2
  refine ⟨?_, hpw, ?_, ?_, ?_, ?_⟩
  · intro r hm
    rcases List.mem_append.1 hm with hm | hm
    · rw [hr.undo_top] at hm
      obtain ⟨y, hy, e1⟩ := mem_undoRecords hr.pastOK hm
      rw [e1]
      exact hr.fresh y.id (by simp only [timelineIds, List.mem_map]; exact ⟨y, by simp [hy], rfl⟩)
    · rw [hr.redo_top] at hm
      obtain ⟨y, hy, e1⟩ := mem_redoRecords hr.futureOK hm
      rw [e1]
      exact hr.fresh y.id (by simp only [timelineIds, List.mem_map]; exact ⟨y, by simp [hy], rfl⟩)
  · intro A r1 M r2 B hl he2
    exact between_of_decreasing hpw2.1 hl he2
  · intro A r1 M r2 B hl he2
    exact between_of_increasing hpw2.2.1 hl he2
  · intro c e1 hc hw hs
    obtain ⟨x, hr1, hx⟩ := Rep_mutating_step hr hc hw hs
    obtain ⟨_, hxo, _⟩ := hr1.pastOK
    refine ⟨x.records, hxo.1, ?_, hr1.redo_top, fun r hm => ?_⟩
    · rw [hr1.undo_top, hr.undo_top]; rfl
    · rw [hxo.2.1 r hm, hx]
  · intro run e1 h0 hs
    obtain ⟨e2, g, hat, _⟩ := exec_run_At run (Rep_At hr) h0
    rw [hs] at g
    cases g
    obtain ⟨p2, f2, hT, _, hr2⟩ := hat
    rw [Rep_timeline hr, Rep_timeline hr2, hT]

/-- Witness for C21: from the state after `hello` and `world` (current `command_id` 3), the
command `1,1c mars` raises `command_id` to 4 and pushes two records of id 3 above the
records of ids 2, 2, 1; the run `1u` leaves `command_id` and the record order alone. -/
theorem group_id_discipline_witness :
    ((∀ r ∈ state_world.undo_stack.top ++ state_world.redo_stack.top,
        r.command_id < state_world.command_id) ∧
      (timeline_records state_world).Pairwise
        (fun r1 r2 => r1.command_id ≤ r2.command_id)) ∧
      (step (Input.CHANGE 1 1 ["mars\n"]) state_world).map
          (fun e1 => (e1.command_id, e1.undo_stack.top.map (fun r => r.command_id))) =
        some (4, [3, 3, 2, 2, 1]) ∧
      (step (Input.RUN [DoToken.UNDO 1]) state_world).map
          (fun e1 => (e1.command_id, timeline_records e1)) =
        some (3, timeline_records state_world) :=
  ⟨⟨(group_id_discipline.2 state_world state_world_reachable).1,
    (group_id_discipline.2 state_world state_world_reachable).2.1⟩, by rfl, by rfl⟩

/-! ## Invariants of the tree -/

theorem tree_insert_TreeOK (t : tree_t) (k : Int) (s : String) (id : Int) (U : stack_t)
    (ht : TreeOK t) :
    ∃ t1 U1, tree_insert t k s id U = some (t1, U1) ∧ TreeOK t1 ∧
      toList t1.root = Doc.upsert k s (toList t.root) := by
  cases hs : tree_search t k with
  | none =>
    obtain ⟨t1, g, ht1, hl, _⟩ := insert_new_spec s ht hs
    exact ⟨t1, _, by simp only [tree_insert, hs, g]; rfl, ht1, hl⟩
  | some y =>
    obtain ⟨t1, g, ht1, hl⟩ := overwrite_spec s ht hs
    obtain ⟨⟨l, s0, c, r, hy⟩, _, _⟩ := tree_search_loop_some hs
    exact ⟨t1, _, by simp only [tree_insert, hs, hy, g]; rfl, ht1, hl⟩

theorem tree_insert_from_do_TreeOK (t : tree_t) (k : Int) (s : String) (ht : TreeOK t) :
    ∃ t1, tree_insert_from_do t k s = some t1 ∧ TreeOK t1 ∧
      toList t1.root = if k = -1 then toList t.root else Doc.upsert k s (toList t.root) := by
  by_cases hk : k = -1
  · exact ⟨t, by simp only [tree_insert_from_do, hk, if_true], ht, by simp only [hk, if_true]⟩
  · obtain ⟨t1, g, ht1, hl⟩ := tree_insert_from_do_spec k s ht hk
    exact ⟨t1, g, ht1, by simp only [hk, if_false, hl]⟩

theorem tree_delete_TreeOK (t : tree_t) (k : Int) (id : Int) (U : stack_t) (ht : TreeOK t) :
    ∃ t1 U1, tree_delete t (tree_search t k) id U = some (t1, U1) ∧ TreeOK t1 ∧
      toList t1.root = Doc.remove k (toList t.root) := by
  cases hs : tree_search t k with
  | none =>
    exact ⟨t, _, by simp only [tree_delete]; rfl, ht,
      (Doc.remove_absent (tree_search_none ht hs)).symm⟩
  | some y =>
    obtain ⟨t1, g, ht1, hl, _⟩ := delete_node_spec ht hs
    obtain ⟨⟨l, s0, c, r, hy⟩, _, _⟩ := tree_search_loop_some hs
    exact ⟨t1, _, by simp only [tree_delete, hy, g]; rfl, ht1, hl⟩

theorem Doc.key_fixup_sorted {D : Doc} {a b : Int} (hs : SortedK D) (hab : a ≤ b)
    (hgap : ∀ p ∈ D, ¬ (a ≤ p.1 ∧ p.1 ≤ b)) : SortedK (Doc.key_fixup a b D) := by
  simp only [SortedK, Doc.key_fixup, List.pairwise_map]
  refine List.Pairwise.imp_of_mem ?_ hs
  intro p q hp hq hpq
  have h1 := hgap p hp
  have h2 := hgap q hq
  split <;> split <;> omega

theorem ReachableBy_mono {ok ok2 : Editor → Input → Prop} (h : ∀ e i, ok e i → ok2 e i)
    {e : Editor} (he : ReachableBy ok e) : ReachableBy ok2 e := by
  induction he with
  | init => exact ReachableBy.init
  | step _ hok hs ih => exact ReachableBy.step ih (h _ _ hok) hs

theorem contiguous_Reachable {e : Editor} (he : ReachableBy contiguous e) : Reachable e :=
  ReachableBy_mono (fun _ _ h => h.1) he

theorem count_nodes_toList (t : Tree) : count_nodes t = (toList t).length := by
  induction t with
  | nil => rfl
  | node l k s c r ihl ihr =>
    simp only [count_nodes, toList, List.length_append, List.length_cons, ihl, ihr]
    omega

theorem TreeOK_count_nodes {t : tree_t} (ht : TreeOK t) :
    t.number_of_keys = count_nodes t.root := by
  rw [ht.count, count_nodes_toList]

theorem isRB_shape (t : Tree) (n : Nat) (h : isRB t n) :
    no_red_red t ∧ (∀ m ∈ black_counts t, m = n) ∧
      height t ≤ 2 * n + (if t.col = RED then 1 else 0) ∧ 2 ^ n ≤ count_nodes t + 1 := by
  induction t generalizing n with
  | nil =>
    simp only [isRB_nil] at h
    subst h
    simp [no_red_red, black_counts, height, count_nodes]
  | node l k s c r ihl ihr =>
    cases c with
    | RED =>
      simp only [isRB_red] at h
      obtain ⟨hl, hr, h1, h2⟩ := h
      obtain ⟨a1, a2, a3, a4⟩ := ihl n h1
      obtain ⟨b1, b2, b3, b4⟩ := ihr n h2
      simp only [hl, hr] at a3 b3
      refine ⟨by unfold no_red_red; exact ⟨fun _ => ⟨hl, hr⟩, a1, b1⟩, ?_, ?_, ?_⟩
      · intro m hm
        simp only [black_counts, List.mem_map, List.mem_append] at hm
        obtain ⟨m0, hm0, rfl⟩ := hm
        rcases hm0 with hm0 | hm0
        · simp [a2 m0 hm0]
        · simp [b2 m0 hm0]
      · simp only [height, col_node, if_true]
        simp at a3 b3
        omega
      · simp only [count_nodes]
        omega
    | BLACK =>
      rw [isRB_black] at h
      obtain ⟨n0, rfl, h1, h2⟩ := h
      obtain ⟨a1, a2, a3, a4⟩ := ihl n0 h1
      obtain ⟨b1, b2, b3, b4⟩ := ihr n0 h2
      refine ⟨by unfold no_red_red; exact ⟨fun hc => absurd hc (by decide), a1, b1⟩, ?_, ?_, ?_⟩
      · intro m hm
        simp only [black_counts, List.mem_map, List.mem_append] at hm
        obtain ⟨m0, hm0, rfl⟩ := hm
        rcases hm0 with hm0 | hm0
        · simp [a2 m0 hm0]
        · simp [b2 m0 hm0]
      · simp only [height, col_node]
        have ha : height l ≤ 2 * n0 + 1 := by split at a3 <;> omega
        have hb : height r ≤ 2 * n0 + 1 := by split at b3 <;> omega
        simp
        omega
      · simp only [count_nodes, pow_succ]
        omega

theorem TreeReachable_TreeOK {t : tree_t} (h : TreeReachable t) : TreeOK t := by
  induction h with
  | create => exact TreeOK_create
  | @insert t t1 k s i U V _ hs ih =>
    obtain ⟨t2, U2, g, ht2, _⟩ := tree_insert_TreeOK t k s i U ih
    rw [hs] at g
    cases g
    exact ht2
  | @insert_from_do t t1 k s _ hs ih =>
    obtain ⟨t2, g, ht2, _⟩ := tree_insert_from_do_TreeOK t k s ih
    rw [hs] at g
    cases g
    exact ht2
  | @delete t t1 k i U V _ hs ih =>
    obtain ⟨t2, U2, g, ht2, _⟩ := tree_delete_TreeOK t k i U ih
    rw [hs] at g
    cases g
    exact ht2
  | @delete_from_do t t1 k _ hs ih =>
    obtain ⟨t2, g, ht2, _⟩ := tree_delete_from_do_spec k ih
    rw [hs] at g
    cases g
    exact ht2

/-- C24: every tree reachable from `tree_create` by calls of `tree_insert`,
`tree_insert_from_do`, `tree_delete` and `tree_delete_from_do` has a black root, no red node
with a red child, and the same number of black nodes on every path from the root to a
sentinel; its height is at most `2 * log2(number_of_keys + 1)`; and each of the four calls
on it returns. -/
theorem red_black_invariant (t : tree_t) (h : TreeReachable t) :
    t.root.col = BLACK ∧ no_red_red t.root ∧
      (∃ n, ∀ m ∈ black_counts t.root, m = n) ∧
      height t.root ≤ 2 * Nat.log 2 (t.number_of_keys.toNat + 1) ∧
      (∀ (k : Int) (s : String) (i : Int) (U : stack_t),
        ∃ res, tree_insert t k s i U = some res) ∧
      (∀ (k : Int) (s : String), ∃ t1, tree_insert_from_do t k s = some t1) ∧
      (∀ (k : Int) (i : Int) (U : stack_t),
        ∃ res, tree_delete t (tree_search t k) i U = some res) ∧
      (∀ k : Int, ∃ t1, tree_delete_from_do t (tree_search t k) = some t1) := by
  have ht := TreeReachable_TreeOK h
  obtain ⟨hc, n, hn⟩ := ht.rb
  obtain ⟨a1, a2, a3, a4⟩ := isRB_shape t.root n hn
  refine ⟨hc, a1, ⟨n, a2⟩, ?_, ?_, ?_, ?_, ?_⟩
  · have hk : t.number_of_keys.toNat = count_nodes t.root := by
      rw [TreeOK_count_nodes ht]; simp
    rw [hk]
    have hlog : n ≤ Nat.log 2 (count_nodes t.root + 1) := Nat.le_log_of_pow_le (by decide) a4
    simp only [hc] at a3
    simp at a3
    omega
  · intro k s i U
    obtain ⟨t1, U1, g, _⟩ := tree_insert_TreeOK t k s i U ht
    exact ⟨_, g⟩
  · intro k s
    obtain ⟨t1, g, _⟩ := tree_insert_from_do_TreeOK t k s ht
    exact ⟨_, g⟩
  · intro k i U
    obtain ⟨t1, U1, g, _⟩ := tree_delete_TreeOK t k i U ht
    exact ⟨_, g⟩
  · intro k
    obtain ⟨t1, g, _⟩ := tree_delete_from_do_spec k ht
    exact ⟨_, g⟩

theorem state_five_tree_reachable : TreeReachable state_five.t :=
  TreeReachable.insert (k := 5) (s := "E\n") (i := 1) (U := ⟨[], 0⟩)
    (TreeReachable.insert (k := 4) (s := "D\n") (i := 1) (U := ⟨[], 0⟩)
      (TreeReachable.insert (k := 3) (s := "C\n") (i := 1) (U := ⟨[], 0⟩)
        (TreeReachable.insert (k := 2) (s := "B\n") (i := 1) (U := ⟨[], 0⟩)
          (TreeReachable.insert (k := 1) (s := "A\n") (i := 1) (U := ⟨[], 0⟩)
            TreeReachable.create rfl) rfl) rfl) rfl) rfl

/-- Witness for C24: the tree built by inserting the keys 1 to 5 has a black root, no red
node with a red child, two black nodes on every path from the root to a sentinel, and
height 3, which is at most `2 * log2(5 + 1) = 4`. -/
theorem red_black_invariant_witness :
    (state_five.t.root.col = BLACK ∧ no_red_red state_five.t.root ∧
      (∃ n, ∀ m ∈ black_counts state_five.t.root, m = n) ∧
      height state_five.t.root ≤ 2 * Nat.log 2 (state_five.t.number_of_keys.toNat + 1)) ∧
      black_counts state_five.t.root = [2, 2, 2, 2, 2, 2] ∧ height state_five.t.root = 3 :=
  ⟨⟨(red_black_invariant state_five.t state_five_tree_reachable).1,
    (red_black_invariant state_five.t state_five_tree_reachable).2.1,
    (red_black_invariant state_five.t state_five_tree_reachable).2.2.1,
    (red_black_invariant state_five.t state_five_tree_reachable).2.2.2.1⟩, by rfl, by rfl⟩

/-! ## Replay safety -/

theorem At_undo_nonempty {P : Doc → Prop} {T : List Entry} {j : Nat} {e : Editor}
    (h : At P T (j + 1) e) : e.undo_stack.top ≠ [] := by
  obtain ⟨past, future, _, hj, hr⟩ := h
  cases past with
  | nil => simp at hj
  | cons x p =>
    obtain ⟨_, hx, _⟩ := hr.pastOK
    rw [hr.undo_top]
    simp only [undoRecords, ne_eq, List.append_eq_nil, not_and]
    exact fun h0 => absurd h0 hx.1

theorem At_redo_nonempty {P : Doc → Prop} {T : List Entry} {j : Nat} {e : Editor}
    (h : At P T j e) (hj : j < T.length) : e.redo_stack.top ≠ [] := by
  obtain ⟨past, future, hT, hl, hr⟩ := h
  cases future with
  | nil =>
    subst hT
    simp only [List.append_nil, List.length_reverse] at hj
    omega
  | cons x f =>
    obtain ⟨_, hx, _⟩ := hr.futureOK
    rw [hr.redo_top]
    simp only [redoRecords, ne_eq, List.append_eq_nil, List.reverse_eq_nil_iff, not_and]
    exact fun h0 => absurd h0 hx.1

/-- C25: in every reachable state and for every run of `UNDO(n)`/`REDO(n)` commands with all
`n >= 0`, after each token the displacement `start_do` lies between `-|R|_g` and `|U|_g`,
the tentative counters are `|U|_g - start_do` and `|R|_g + start_do`, and both are
non-negative; at the start of each of the `start_do` undo steps the undo stack is non-empty
and the step returns, at the start of each of the `-start_do` redo steps the redo stack is
non-empty and the step returns, and the whole replay returns: no read of
`undo_stack->top->command_id` or `redo_stack->top->command_id` meets `NULL`. -/
theorem replay_reads_no_null (e : Editor) (run : List DoToken) (he : Reachable e)
    (h0 : ∀ tok ∈ run, 0 ≤ tok.start) :
    (∀ n : Nat,
        -e.redo_stack.size ≤ (coalesce e (run.take n)).start_do ∧
        (coalesce e (run.take n)).start_do ≤ e.undo_stack.size ∧
        (coalesce e (run.take n)).temporary_undo_stack_size =
          e.undo_stack.size - (coalesce e (run.take n)).start_do ∧
        (coalesce e (run.take n)).temporary_redo_stack_size =
          e.redo_stack.size + (coalesce e (run.take n)).start_do ∧
        0 ≤ (coalesce e (run.take n)).temporary_undo_stack_size ∧
        0 ≤ (coalesce e (run.take n)).temporary_redo_stack_size) ∧
      (∀ i : Nat, (i : Int) < (coalesce e run).start_do →
        ∃ ei, iterate undo_step i e = some ei ∧ ei.undo_stack.top ≠ [] ∧
          ∃ ej, undo_step ei = some ej) ∧
      (∀ i : Nat, (i : Int) < -(coalesce e run).start_do →
        ∃ ei, iterate redo_step i e = some ei ∧ ei.redo_stack.top ≠ [] ∧
          ∃ ej, redo_step ei = some ej) ∧
      ∃ e1, exec_run run e = some e1 := by
  obtain ⟨past, future, hr⟩ := Reachable_Rep he
  have hat := Rep_At hr
  have hs := At_sizes hat
  have hle := At_le hat
  have hpre : ∀ n : Nat, PendingOK past.length (past.reverse ++ future).length
      (coalesce e (run.take n)) := fun n =>
    PendingOK_foldl (run.take n) (PendingOK_init hat)
      (fun tok ht => h0 tok (List.mem_of_mem_take ht))
  have hall : PendingOK past.length (past.reverse ++ future).length (coalesce e run) :=
    PendingOK_foldl run (PendingOK_init hat) h0
  refine ⟨fun n => ?_, fun i hi => ?_, fun i hi => ?_, ?_⟩
  · obtain ⟨h1, h2, h3, h4⟩ := hpre n
    rw [hs.1, hs.2]
    refine ⟨?_, ?_, ?_, ?_, h3, h4⟩ <;> omega
  · obtain ⟨h1, h2, h3, h4⟩ := hall
    obtain ⟨ei, g, hi2, _⟩ := iterate_undo_At i hat (by omega)
    have hj : past.length - i = (past.length - i - 1) + 1 := by omega
    rw [hj] at hi2
    obtain ⟨ej, gj, _⟩ := At_undo hi2
    exact ⟨ei, g, At_undo_nonempty hi2, ej, gj⟩
  · obtain ⟨h1, h2, h3, h4⟩ := hall
    have hlt : past.length + i < (past.reverse ++ future).length := by omega
    obtain ⟨ei, g, hi2, _⟩ := iterate_redo_At i hat (by omega)
    obtain ⟨ej, gj, _⟩ := At_redo hi2 hlt
    exact ⟨ei, g, At_redo_nonempty hi2 hlt, ej, gj⟩
  · obtain ⟨e1, g, _⟩ := exec_run_At run hat h0
    exact ⟨e1, g⟩

/-- Witness for C25: after `hello` and `world` (`|U|_g = 2`, `|R|_g = 0`) the run `5u 2r 1u`
accumulates the displacements 2, 0, 1; the one undo step of the replay finds a non-empty
undo stack. -/
theorem replay_reads_no_null_witness :
    ((∀ i : Nat, (i : Int) <
          (coalesce state_world [DoToken.UNDO 5, DoToken.REDO 2, DoToken.UNDO 1]).start_do →
        ∃ ei, iterate undo_step i state_world = some ei ∧ ei.undo_stack.top ≠ [] ∧
          ∃ ej, undo_step ei = some ej) ∧
      ∃ e1, exec_run [DoToken.UNDO 5, DoToken.REDO 2, DoToken.UNDO 1] state_world = some e1) ∧
      [1, 2, 3].map (fun n => (coalesce state_world
          ([DoToken.UNDO 5, DoToken.REDO 2, DoToken.UNDO 1].take n)).start_do) = [2, 0, 1] ∧
      exec_run [DoToken.UNDO 5, DoToken.REDO 2, DoToken.UNDO 1] state_world =
        some state_undone :=
  ⟨⟨(replay_reads_no_null state_world [DoToken.UNDO 5, DoToken.REDO 2, DoToken.UNDO 1]
      state_world_reachable (by decide)).2.1,
    (replay_reads_no_null state_world [DoToken.UNDO 5, DoToken.REDO 2, DoToken.UNDO 1]
      state_world_reachable (by decide)).2.2.2⟩, by rfl, by rfl⟩

/-! ## The two renumbering walks undo each other -/

theorem tree_key_fixup_round_trip (t : Tree) (a b : Int) (hab : a ≤ b)
    (hgap : ∀ p ∈ toList t, ¬ (a ≤ p.1 ∧ p.1 ≤ b)) :
    tree_key_fixup_from_do a b (tree_key_fixup a b t) = t := by
  induction t with
  | nil => rfl
  | node l k s c r ihl ihr =>
    have hl : ∀ p ∈ toList l, ¬ (a ≤ p.1 ∧ p.1 ≤ b) :=
      fun p hp => hgap p (by simp [toList, hp])
    have hr : ∀ p ∈ toList r, ¬ (a ≤ p.1 ∧ p.1 ≤ b) :=
      fun p hp => hgap p (by simp [toList, hp])
    have hk := hgap (k, s) (by simp [toList])
    simp only at hk
    simp only [tree_key_fixup, tree_key_fixup_from_do, ihl hl, ihr hr]
    congr 1
    split <;> split <;> omega

theorem Doc.key_fixup_keys {D : Doc} {a b : Int} (hs : SortedK D) (hab : a ≤ b)
    (hgap : ∀ p ∈ D, ¬ (a ≤ p.1 ∧ p.1 ≤ b)) :
    (Doc.key_fixup a b D).map Prod.fst =
      (D.map Prod.fst).filter (fun k => decide (k < a)) ++
        ((D.map Prod.fst).filter (fun k => decide (k > b))).map (fun k => k - (b - a + 1)) := by
  induction D with
  | nil => rfl
  | cons p D ih =>
    obtain ⟨k, s⟩ := p
    have hs2 := SortedK_cons.1 hs
    have hk := hgap (k, s) (by simp)
    simp only at hk
    have ih2 := ih hs2.2 (fun p hp => hgap p (by simp [hp]))
    simp only [Doc.key_fixup] at ih2 ⊢
    by_cases hka : k < a
    · have h1 : ¬ k ≥ b := by omega
      have h2 : ¬ k > b := by omega
      simp only [List.map_cons, h1, if_false, List.filter_cons, hka, decide_True, if_true,
        h2, decide_False, List.cons_append]
      rw [ih2]
      simp
    · have hkb : k > b := by omega
      have hall : ∀ q ∈ D, q.1 > b := fun q hq => by
        have := hs2.1 q hq
        simp only at this
        omega
      have e1 : ((k, s) :: D).map (fun p => (if p.1 ≥ b then p.1 - (b - a + 1) else p.1, p.2)) =
          ((k, s) :: D).map (fun p => (p.1 - (b - a + 1), p.2)) := by
        apply List.map_congr_left
        intro q hq
        have : q.1 ≥ b := by
          rcases List.mem_cons.1 hq with rfl | hq
          · simp only; omega
          · have := hall q hq; omega
        simp only [this, if_true]
      have e2 : (((k, s) :: D).map Prod.fst).filter (fun k => decide (k < a)) = [] := by
        rw [List.filter_eq_nil_iff]
        intro x hx
        simp only [List.mem_map, List.mem_cons] at hx
        obtain ⟨q, hq, rfl⟩ := hx
        rcases hq with rfl | hq
        · simp only [decide_eq_true_eq]; omega
        · have := hall q hq
          simp only [decide_eq_true_eq]; omega
      have e3 : (((k, s) :: D).map Prod.fst).filter (fun k => decide (k > b)) =
          ((k, s) :: D).map Prod.fst := by
        rw [List.filter_eq_self]
        intro x hx
        simp only [List.mem_map, List.mem_cons] at hx
        obtain ⟨q, hq, rfl⟩ := hx
        rcases hq with rfl | hq
        · simp only [decide_eq_true_eq]; omega
        · have := hall q hq
          simp only [decide_eq_true_eq]; omega
      rw [e1, e2, e3]
      simp [List.map_map, Function.comp]

/-- C26: for every tree with strictly ordered keys and all `1 <= a <= b` such that no live
key lies in `[a, b]`, `tree_key_fixup(t, root, a, b)` followed by
`tree_key_fixup_from_do(t, root, a, b)` gives back the tree, every key at its original
value; after the first call alone the keys read in order are the original keys below `a`
followed by the original keys above `b` each lowered by `b - a + 1`, strictly increasing,
so no two are equal. -/
theorem shift_round_trip (t : Tree) (a b : Int) (hs : SortedK (toList t)) (_h1 : 1 ≤ a)
    (hab : a ≤ b) (hgap : ∀ p ∈ toList t, ¬ (a ≤ p.1 ∧ p.1 ≤ b)) :
    tree_key_fixup_from_do a b (tree_key_fixup a b t) = t ∧
      (toList (tree_key_fixup a b t)).map Prod.fst =
        ((toList t).map Prod.fst).filter (fun k => decide (k < a)) ++
          (((toList t).map Prod.fst).filter (fun k => decide (k > b))).map
            (fun k => k - (b - a + 1)) ∧
      SortedK (toList (tree_key_fixup a b t)) ∧
      ((toList (tree_key_fixup a b t)).map Prod.fst).Nodup := by
  have hsorted : SortedK (toList (tree_key_fixup a b t)) := by
    rw [tree_key_fixup_toList]
    exact Doc.key_fixup_sorted hs hab hgap
  refine ⟨tree_key_fixup_round_trip t a b hab hgap, ?_, hsorted, ?_⟩
  · rw [tree_key_fixup_toList]
    exact Doc.key_fixup_keys hs hab hgap
  · have : ((toList (tree_key_fixup a b t)).map Prod.fst).Pairwise (fun x y => x < y) :=
      List.pairwise_map.2 hsorted
    exact this.imp (fun h => ne_of_lt h)

/-- Witness for C26: on the tree with keys `1 4 5` (the document `A B C D E` without its
lines 2 and 3) the walk for `2,3` gives the keys `1 2 3`, and the reverse walk gives the
tree back. -/
theorem shift_round_trip_witness :
    (tree_key_fixup_from_do 2 3 (tree_key_fixup 2 3
        (Tree.node (Tree.node Tree.nil 1 "A\n" BLACK Tree.nil) 4 "D\n" BLACK
          (Tree.node Tree.nil 5 "E\n" BLACK Tree.nil))) =
        Tree.node (Tree.node Tree.nil 1 "A\n" BLACK Tree.nil) 4 "D\n" BLACK
          (Tree.node Tree.nil 5 "E\n" BLACK Tree.nil)) ∧
      (toList (tree_key_fixup 2 3
        (Tree.node (Tree.node Tree.nil 1 "A\n" BLACK Tree.nil) 4 "D\n" BLACK
          (Tree.node Tree.nil 5 "E\n" BLACK Tree.nil)))).map Prod.fst = [1, 2, 3] :=
  ⟨(shift_round_trip (Tree.node (Tree.node Tree.nil 1 "A\n" BLACK Tree.nil) 4 "D\n" BLACK
      (Tree.node Tree.nil 5 "E\n" BLACK Tree.nil)) 2 3 (by unfold SortedK; decide) (by decide)
      (by decide) (by decide)).1, by rfl⟩

/-! ## Density, as the list of keys -/

theorem Doc.Dense_keys {D : Doc} (hs : SortedK D) (hd : Doc.Dense D) :
    D.map Prod.fst = (List.range D.length).map (fun (i : Nat) => (i : Int) + 1) := by
  apply List.ext_getElem?
  intro m
  by_cases hm : m < D.length
  · obtain ⟨s, h⟩ := Doc.key_at hs hd m (by omega)
    simp only [List.getElem?_map, h, Option.map_some', List.getElem?_range hm]
    congr 1
    omega
  · have h1 : (D.map Prod.fst)[m]? = none := by
      rw [List.getElem?_eq_none_iff]; simp only [List.length_map]; omega
    have h2 : ((List.range D.length).map (fun (i : Nat) => (i : Int) + 1))[m]? = none := by
      rw [List.getElem?_eq_none_iff]; simp only [List.length_map, List.length_range]; omega
    rw [h1, h2]

theorem exec_print_returns (t : tree_t) (a b : Int) (ht : TreeOK t) (hd : dense t)
    (hb : b < INT_MAX) : ∃ out, exec_print a b t = some out := by
  by_cases h1 : (if a < 1 then 1 else a) > t.number_of_keys
  · have hp := point_for_spec b (if a < 1 then 1 else a)
      (by simp only [INT_MIN]; split <;> omega) hb
    exact ⟨_, by simp only [exec_print, h1, if_true, hp]; rfl⟩
  · by_cases h2 : b < (if a < 1 then 1 else a)
    · have hz : (min b t.number_of_keys - (if a < 1 then 1 else a) + 1).toNat = 0 := by
        simp only [min_eq]; split <;> split <;> omega
      have hc : ¬ ((if a < 1 then 1 else a) ≤ b ∧
          (if a < 1 then 1 else a) ≤ t.number_of_keys) := fun h => absurd h.1 (not_le.mpr h2)
      exact ⟨_, by simp only [exec_print, h1, if_false, hz, in_order_iterative, hc]; rfl⟩
    · obtain ⟨out, g, _⟩ := exec_print_near t a b ht hd (by split at h2 <;> omega)
        (by split at h2 <;> omega) hb h1
      exact ⟨out, g⟩

/-- C27: starting from the empty editor, if every `CHANGE(a,b)` has `1 <= a <= b` and
`a <= N + 1` for the line count `N` at the time it is issued, every `DELETE(a,b)` has
`1 <= a <= b` and every `UNDO(n)`/`REDO(n)` has `n >= 0`, then after every completed command
the keys of the live nodes read in order are `1, 2, ..., number_of_keys`, so their set is
exactly `{1, ..., number_of_keys}`; and every further command of that kind, and every
`PRINT`, whose last line number is below `INT_MAX` completes. -/
theorem contiguous_edits_keep_keys_dense (e : Editor) (h : ReachableBy contiguous e) :
    live_keys e.t = (List.range e.t.number_of_keys.toNat).map (fun (i : Nat) => (i : Int) + 1) ∧
      (∀ k : Int, k ∈ live_keys e.t ↔ (1 ≤ k ∧ k ≤ e.t.number_of_keys)) ∧
      (∀ i : Input, contiguous e i → i.bounded →
        ∃ e1, step i e = some e1 ∧ ReachableBy contiguous e1) := by
  obtain ⟨past, future, hr⟩ := contiguous_Rep h
  have hd : dense e.t := (dense_iff hr.tree).2 hr.cur
  have hn : e.t.number_of_keys.toNat = (toList e.t.root).length := by
    rw [hr.tree.count]; simp
  refine ⟨?_, hd, fun i hi hb => ?_⟩
  · rw [hn]
    exact Doc.Dense_keys hr.tree.sorted hr.cur
  · have hre := contiguous_Reachable h
    obtain ⟨p2, f2, hr2⟩ := Reachable_Rep hre
    have hex : ∃ e1, step i e = some e1 := by
      cases i with
      | CHANGE a b lines =>
        obtain ⟨e1, _, g, _⟩ :=
          exec_change_Rep hr2 a b lines hi.1.1 hi.1.2.1 hb hi.1.2.2 trivial
        exact ⟨e1, g⟩
      | DELETE a b =>
        obtain ⟨e1, _, g, _⟩ := exec_delete_Rep hr2 a b hi.1.1 hi.1.2 hb trivial
        exact ⟨e1, g⟩
      | PRINT a b =>
        obtain ⟨out, g⟩ := exec_print_returns e.t a b hr.tree hd hb
        exact ⟨e, by simp only [step, g]⟩
      | RUN run =>
        obtain ⟨e1, g, _⟩ := exec_run_At run (Rep_At hr2) hi.1
        exact ⟨e1, g⟩
    obtain ⟨e1, g⟩ := hex
    exact ⟨e1, g, ReachableBy.step h hi g⟩

/-- Witness for C27: after `1,5c` the keys read in order are `1 2 3 4 5`, and `2,3d` then
completes and leaves the keys `1 2 3`. -/
theorem contiguous_edits_keep_keys_dense_witness :
    (live_keys state_five.t =
        (List.range state_five.t.number_of_keys.toNat).map (fun (i : Nat) => (i : Int) + 1) ∧
      (∀ k : Int, k ∈ live_keys state_five.t ↔ (1 ≤ k ∧ k ≤ state_five.t.number_of_keys))) ∧
      live_keys state_five.t = [1, 2, 3, 4, 5] ∧
      (step (Input.DELETE 2 3) state_five).map (fun e1 => live_keys e1.t) = some [1, 2, 3] :=
  ⟨⟨(contiguous_edits_keep_keys_dense state_five state_five_contiguous).1,
    (contiguous_edits_keep_keys_dense state_five state_five_contiguous).2.1⟩, by rfl, by rfl⟩

/-! ## The `int` range on reachable states -/

theorem Reachable_bounded {e : Editor} (h : Reachable e) :
    ReachableBy (fun _ i => i.WF ∧ (i.mutating → i.bounded)) e := by
  induction h with
  | init => exact ReachableBy.init
  | @step e e1 i _ hw hstep ih =>
    refine ReachableBy.step ih ⟨hw, fun hm => ?_⟩ hstep
    cases i with
    | CHANGE start end_ lines => exact exec_change_bound hw.2.1 hstep
    | DELETE start end_ => exact exec_delete_bound hw.2 hstep
    | PRINT _ _ => exact hm.elim
    | RUN _ => exact hm.elim

/-- In every state reachable from the empty editor by well-formed commands the live keys are
line indices below `INT_MAX`: the key of a line is at least 1, and a `CHANGE` that stores a
line at `INT_MAX` never completes. -/
theorem Reachable_keys_range {e : Editor} (h : Reachable e) :
    ∀ k ∈ live_keys e.t, 1 ≤ k ∧ k < INT_MAX := by
  have hrep : ∃ past future, Rep (fun D => ∀ p ∈ D, p.1 < INT_MAX) past future e := by
    refine ReachableBy_Rep (by simp) (fun _ _ hi => hi.1) ?_ ?_ (Reachable_bounded h)
    · intro e start end_ lines hok _ hD hP hD2 p hp
      obtain ⟨⟨_, _, hn⟩, hb⟩ := hok
      have hb2 : end_ < INT_MAX := hb trivial
      have hl := Doc.lookup_of_mem hD2.1 hp
      rw [Doc.lookup_change] at hl
      split at hl
      · omega
      · exact hP (p.1, p.2) ((Doc.lookup_some_iff hD.1).1 hl)
    · intro e start end_ hok _ _ hP _ p hp
      obtain ⟨⟨_, h2⟩, _⟩ := hok
      simp only [Doc.delete] at hp
      split at hp
      · simp only [Doc.key_fixup, Doc.delete_range, List.mem_map, List.mem_filter] at hp
        obtain ⟨q, ⟨hq, _⟩, rfl⟩ := hp
        have := hP q hq
        simp only
        split <;> omega
      · simp only [Doc.delete_range, List.mem_filter] at hp
        exact hP p hp.1
  obtain ⟨past, future, hr⟩ := hrep
  intro k hk
  simp only [live_keys, List.mem_map] at hk
  obtain ⟨p, hp, rfl⟩ := hk
  exact ⟨hr.docOK.2 p hp, hr.cur p hp⟩

/-- On a reachable state, for every key `k` from `-1` to `INT_MAX` (the line numbers and the
sentinel that `main`, `undo_command` and `redo_command` pass), the comparison
`cmp = key - x->key` of `tree_search` does not leave the `int` range, and the search with the
`int` subtraction is the search over the integers. -/
theorem Reachable_machine_search {e : Editor} (h : Reachable e) (k : Int) (h1 : -1 ≤ k)
    (h2 : k ≤ INT_MAX) : Machine.tree_search e.t k = tree_search e.t k := by
  refine machine_search_loop_eq k e.t.root [] (fun p hp => ?_)
  have := Reachable_keys_range h p.1 (List.mem_map_of_mem Prod.fst hp)
  simp only [INT_MIN, INT_MAX] at this h2 ⊢
  omega

end EdU
